import Mathlib

/-!
Shallow embedding of the visioncortex raster-to-vector library, written to
settle the frozen claims C1..C10 against the Rust sources.

Modelling conventions:
* Rust `i32`/`u32`/`usize` values are modelled as `Int`/`Nat`.  None of the
  theorems below exercises inputs anywhere near the wrap-around range of the
  original fixed-width types; where overflow is actually reachable in the
  source (the `u16` label space of `BinaryImage::to_clusters`) the abort is
  modelled explicitly with `Option`.
* Rust `f64` arithmetic is modelled exactly: by `ℚ` where the source only
  uses field operations and comparisons (`path/reduce.rs`, `Path::reduce`),
  and by `ℝ` where the source takes square roots or inverse trigonometric
  functions (`path/simplify.rs`, `path/smooth.rs`).
* Panics (`assert!`, out-of-bounds indexing, explicit `panic!`) are modelled
  with `Except Unit` / `Option` failure values.
-/

namespace VCortex

/-- Integer point, `point.rs` `PointI32`. -/
structure PointI32 where
  x : Int
  y : Int
deriving DecidableEq, Repr

instance : Inhabited PointI32 := ⟨⟨0, 0⟩⟩

/-- Rational point standing for the source's generic `Point2<T>` under the
`Into<f64>` embedding used by `path/reduce.rs` and `Path::reduce`. -/
structure PointQ where
  x : ℚ
  y : ℚ
deriving DecidableEq, Repr

instance : Inhabited PointQ := ⟨⟨0, 0⟩⟩

/-- Subtraction of points, `point.rs` `impl Sub`. -/
def PointI32.sub (a b : PointI32) : PointI32 := ⟨a.x - b.x, a.y - b.y⟩

/-- Signed area of a triangle, `path/util.rs` `signed_area`. -/
def signed_area (p1 p2 p3 : PointI32) : Int :=
  (p2.x - p1.x) * (p3.y - p1.y) - (p3.x - p1.x) * (p2.y - p1.y)

/-- Open a closed path, `path/paths.rs` `Path::to_open`: an empty or open
path is returned untouched, otherwise the repeated last point is dropped. -/
def to_open {α : Type} [DecidableEq α] : List α → List α
  | [] => []
  | a :: r =>
    if (a :: r).getLast? = some a then (a :: r).dropLast else a :: r

/-- Close an open path, `path/paths.rs` `Path::to_closed`: an empty or closed
path is returned untouched, otherwise the first point is appended. -/
def to_closed {α : Type} [DecidableEq α] : List α → List α
  | [] => []
  | a :: r =>
    if (a :: r).getLast? = some a then a :: r else (a :: r) ++ [a]

/-- Squared distance between two points, `path/reduce.rs` `get_sq_dist`. -/
def get_sq_dist (p1 p2 : PointQ) : ℚ :=
  let dx := p1.x - p2.x
  let dy := p1.y - p2.y
  dx * dx + dy * dy

/-- Squared distance from a point to a segment, `path/reduce.rs`
`get_sq_seg_dist`. -/
def get_sq_seg_dist (p p1 p2 : PointQ) : ℚ :=
  let x0 := p1.x
  let y0 := p1.y
  let dx0 := p2.x - x0
  let dy0 := p2.y - y0
  let xy :=
    if dx0 ≠ 0 ∨ dy0 ≠ 0 then
      let t := ((p.x - x0) * dx0 + (p.y - y0) * dy0) / (dx0 * dx0 + dy0 * dy0)
      if t > 1 then (p2.x, p2.y)
      else if t > 0 then (x0 + dx0 * t, y0 + dy0 * t)
      else (x0, y0)
    else (x0, y0)
  let dx := p.x - xy.1
  let dy := p.y - xy.2
  dx * dx + dy * dy

/-- Radial-distance pre-pass, `path/reduce.rs` `simplify_radial_dist`. -/
def simplify_radial_dist (points : List PointQ) (sq_tolerance : ℚ) :
    List PointQ :=
  if points.length ≤ 2 then points
  else
    match points with
    | [] => []
    | p0 :: rest =>
      let st := rest.foldl
        (fun (st : PointQ × List PointQ) point =>
          if get_sq_dist point st.1 > sq_tolerance
          then (point, st.2 ++ [point]) else st)
        (p0, [p0])
      if st.1 ≠ (points.getLast?).getD p0
      then st.2 ++ [(points.getLast?).getD p0] else st.2

/-- Scan for the farthest interior point, the loop of `path/reduce.rs`
`simplify_dp_step`: starting from `(0, sq_tolerance)`, each `i` in
`[i0, last)` replaces the pair when its segment distance is larger. -/
def dp_scan (points : List PointQ) (first last : Nat) (sq_tolerance : ℚ)
    (i0 : Nat) (cur : Nat × ℚ) : Nat × ℚ :=
  if h : i0 < last then
    let sq_dist := get_sq_seg_dist (points.getD i0 default)
      (points.getD first default) (points.getD last default)
    dp_scan points first last sq_tolerance (i0 + 1)
      (if sq_dist > cur.2 then (i0, sq_dist) else cur)
  else cur
termination_by last - i0

/-- Recursive subdivision of `path/reduce.rs` `simplify_dp_step`; returns the
list of points this call pushes to `simplified`.  The explicit `fuel`
argument only serves Lean's termination checker: the source recursion always
terminates because the split index lies strictly inside `(first, last)`, so
any `fuel ≥ last - first` (as passed by `simplify_douglas_peucker`) makes the
zero-fuel branch unreachable. -/
def simplify_dp_step (fuel : Nat) (points : List PointQ) (first last : Nat)
    (sq_tolerance : ℚ) : List PointQ :=
  match fuel with
  | 0 => []
  | fuel + 1 =>
    let m :=
      dp_scan points first last sq_tolerance (first + 1) (0, sq_tolerance)
    if m.2 > sq_tolerance then
      (if m.1 - first > 1
        then simplify_dp_step fuel points first m.1 sq_tolerance else []) ++
      [points.getD m.1 default] ++
      (if last - m.1 > 1
        then simplify_dp_step fuel points m.1 last sq_tolerance else [])
    else []

/-- Ramer-Douglas-Peucker, `path/reduce.rs` `simplify_douglas_peucker`. -/
def simplify_douglas_peucker (points : List PointQ) (sq_tolerance : ℚ) :
    List PointQ :=
  let last := points.length - 1
  [points.getD 0 default] ++
    simplify_dp_step last points 0 last sq_tolerance ++
    [points.getD last default]

/-- Point reduction, `path/reduce.rs` `reduce`, i.e. the radial pre-pass at
`sq_tolerance * 0.5` followed by Douglas-Peucker at `sq_tolerance`. -/
def reduce_points (original : List PointQ) (tolerance : ℚ) : List PointQ :=
  if original.length ≤ 2 then original
  else if tolerance = 0 then original
  else
    let sq_tolerance := tolerance * tolerance
    let radial := simplify_radial_dist original (sq_tolerance * (1 / 2))
    simplify_douglas_peucker radial sq_tolerance

/-- The four extreme corners `(index, point)` accumulated by the first loop
of `path/paths.rs` `Path::reduce` over all points except the repeated last
one: min-x (strict), min-y (non-strict), max-x (non-strict), max-y
(non-strict). -/
def reduce_corners (path : List PointQ) (p0 : PointQ) :
    (Nat × PointQ) × (Nat × PointQ) × (Nat × PointQ) × (Nat × PointQ) :=
  let pts := (path.take (path.length - 1)).enum
  pts.foldl
    (fun cs ip =>
      let (i, p) := ip
      let c0 := if p.x < cs.1.2.x then (i, p) else cs.1
      let c1 := if p.y ≤ cs.2.1.2.y then (i, p) else cs.2.1
      let c2 := if p.x ≥ cs.2.2.1.2.x then (i, p) else cs.2.2.1
      let c3 := if p.y ≥ cs.2.2.2.2.y then (i, p) else cs.2.2.2
      (c0, c1, c2, c3))
    ((0, p0), (0, p0), (0, p0), (0, p0))

/-- Stable insertion of an element into a list sorted by an integer key;
elements with equal keys keep their original order, matching the stability
guarantee of Rust's `sort_by_key`. -/
def sort_insert {α : Type} (key : α → Int) (a : α) : List α → List α
  | [] => [a]
  | b :: bs => if key a < key b then a :: b :: bs else b :: sort_insert key a bs

/-- Stable sort by an integer key, modelling Rust `sort_by_key`. -/
def sort_by_key {α : Type} (key : α → Int) : List α → List α
  | [] => []
  | a :: as => sort_insert key a (sort_by_key key as)

/-- Inclusive slice `l[a..=b]` of a Rust vector. -/
def slice_incl {α : Type} (l : List α) (a b : Nat) : List α :=
  (l.drop a).take (b + 1 - a)

/-- The combined list built by `path/paths.rs` `Path::reduce` after the
degenerate-extent test: the path is cut at the four sorted corner indices
into four sections (the fourth wraps around the seam), each section is
reduced by `reduce`, the first three drop their final point, and the results
are concatenated. -/
def reduce_combined (path : List PointQ) (p0 : PointQ) (tolerance : ℚ) :
    List PointQ :=
  let cs := reduce_corners path p0
  let sorted := sort_by_key (fun c : Nat × PointQ => (c.1 : Int))
    [cs.1, cs.2.1, cs.2.2.1, cs.2.2.2]
  let k0 := (sorted.getD 0 default).1
  let k1 := (sorted.getD 1 default).1
  let k2 := (sorted.getD 2 default).1
  let k3 := (sorted.getD 3 default).1
  let s0 := slice_incl path k0 k1
  let s1 := slice_incl path k1 k2
  let s2 := slice_incl path k2 k3
  let s3 := (path.drop k3).take (path.length - 1 - k3) ++ slice_incl path 0 k0
  let r0 := (reduce_points s0 tolerance).dropLast
  let r1 := (reduce_points s1 tolerance).dropLast
  let r2 := (reduce_points s2 tolerance).dropLast
  let r3 := reduce_points s3 tolerance
  r0 ++ r1 ++ r2 ++ r3

/-- Horizontal extent `|min-x corner - max-x corner|` tested by
`path/paths.rs` `Path::reduce`. -/
def reduce_x_extent (path : List PointQ) (p0 : PointQ) : ℚ :=
  let cs := reduce_corners path p0
  |cs.1.2.x - cs.2.2.1.2.x|

/-- Vertical extent `|min-y corner - max-y corner|` tested by
`path/paths.rs` `Path::reduce`. -/
def reduce_y_extent (path : List PointQ) (p0 : PointQ) : ℚ :=
  let cs := reduce_corners path p0
  |cs.2.1.2.y - cs.2.2.2.2.y|

/-- Closed-path reducer, `path/paths.rs` `Path::reduce`.  `Except.error`
models the panics (indexing `self.path[0]` on an empty path, and the
closedness `assert!`); `Except.ok none` is the "degenerate, drop the path"
result. -/
def path_reduce (path : List PointQ) (tolerance : ℚ) :
    Except Unit (Option (List PointQ)) :=
  match path with
  | [] => .error ()
  | p0 :: _ =>
    if path.getLast? ≠ some p0 then .error ()
    else
      if reduce_x_extent path p0 < tolerance ∧
          reduce_y_extent path p0 < tolerance then .ok none
      else
        let combined := reduce_combined path p0 tolerance
        if combined.length ≤ 3 then .ok none
        else .ok (some combined)

/-- Bounding rectangle, `bound.rs` `BoundingRect`: a half-open integer
rectangle, the all-zero value denoting "empty". -/
structure BoundingRect where
  left : Int
  top : Int
  right : Int
  bottom : Int
deriving DecidableEq, Repr

instance : Inhabited BoundingRect := ⟨⟨0, 0, 0, 0⟩⟩

/-- Rectangle width, `bound.rs` `BoundingRect::width`. -/
def BoundingRect.width (r : BoundingRect) : Int := r.right - r.left

/-- Rectangle height, `bound.rs` `BoundingRect::height`. -/
def BoundingRect.height (r : BoundingRect) : Int := r.bottom - r.top

/-- Emptiness test, `bound.rs` `BoundingRect::is_empty`: both dimensions are
zero. -/
def BoundingRect.isEmpty (r : BoundingRect) : Bool :=
  r.width = 0 && r.height = 0

/-- Grow a rectangle to cover a point, `bound.rs` `BoundingRect::add_x_y`. -/
def BoundingRect.add_x_y (r : BoundingRect) (x y : Int) : BoundingRect :=
  if r.isEmpty then ⟨x, y, x + 1, y + 1⟩
  else
    let r1 :=
      if x < r.left then { r with left := x }
      else if x + 1 > r.right then { r with right := x + 1 }
      else r
    if y < r1.top then { r1 with top := y }
    else if y + 1 > r1.bottom then { r1 with bottom := y + 1 }
    else r1

/-- Grow a rectangle to cover another, `bound.rs` `BoundingRect::merge`. -/
def BoundingRect.merge (r other : BoundingRect) : BoundingRect :=
  if other.isEmpty then r
  else if r.isEmpty then other
  else
    ⟨min r.left other.left, min r.top other.top,
      max r.right other.right, max r.bottom other.bottom⟩

/-- Reset a rectangle, `bound.rs` `BoundingRect::clear`. -/
def BoundingRect.clear (_ : BoundingRect) : BoundingRect := ⟨0, 0, 0, 0⟩

/-- RGBA color with 8-bit channels, `color.rs` `Color`.  Channels are `Nat`s
that are below 256 for every color actually read from an image. -/
structure Color where
  r : Nat
  g : Nat
  b : Nat
  a : Nat
deriving DecidableEq, Repr

/-- The `Default` color `#00000000`, `color.rs` `derive(Default)`. -/
def Color.zero : Color := ⟨0, 0, 0, 0⟩

instance : Inhabited Color := ⟨Color.zero⟩

/-- Running color sum, `color.rs` `ColorSum`. -/
structure ColorSum where
  r : Nat
  g : Nat
  b : Nat
  a : Nat
  counter : Nat
deriving DecidableEq, Repr

/-- The all-zero sum, `color.rs` `ColorSum::new`. -/
def ColorSum.zero : ColorSum := ⟨0, 0, 0, 0, 0⟩

instance : Inhabited ColorSum := ⟨ColorSum.zero⟩

/-- Accumulate one color, `color.rs` `ColorSum::add`. -/
def ColorSum.add (s : ColorSum) (c : Color) : ColorSum :=
  ⟨s.r + c.r, s.g + c.g, s.b + c.b, s.a + c.a, s.counter + 1⟩

/-- Accumulate another sum, `color.rs` `ColorSum::merge`. -/
def ColorSum.merge (s t : ColorSum) : ColorSum :=
  ⟨s.r + t.r, s.g + t.g, s.b + t.b, s.a + t.a, s.counter + t.counter⟩

/-- Reset a sum, `color.rs` `ColorSum::clear`. -/
def ColorSum.clear (_ : ColorSum) : ColorSum := ColorSum.zero

/-- Channel average, `color.rs` `ColorSum::average`: `u32` division followed
by the truncating `as u8` cast (the truncation is vacuous for consistent
sums; `counter = 0` panics in Rust on the division and is unreachable from
the call sites, which all guard by a positive area). -/
def ColorSum.average (s : ColorSum) : Color :=
  ⟨s.r / s.counter % 256, s.g / s.counter % 256,
    s.b / s.counter % 256, s.a / s.counter % 256⟩

/-- Image with one bit per pixel, `image.rs` `BinaryImage`, the `BitVec`
being stored as a row-major `List Bool`. -/
structure BinaryImage where
  width : Nat
  height : Nat
  pixels : List Bool
deriving DecidableEq, Repr

/-- Blank image, `image.rs` `BinaryImage::new_w_h`. -/
def BinaryImage.new_w_h (width height : Nat) : BinaryImage :=
  ⟨width, height, List.replicate (width * height) false⟩

/-- Unchecked pixel read, `image.rs` `BinaryImage::get_pixel`; `none` models
the `unwrap` panic on an out-of-range index. -/
def BinaryImage.get_pixel (img : BinaryImage) (x y : Nat) : Option Bool :=
  img.pixels.get? (y * img.width + x)

/-- Bounds-checked pixel read, `image.rs` `BinaryImage::get_pixel_safe`:
out-of-bounds coordinates read as `false`. -/
def BinaryImage.get_pixel_safe (img : BinaryImage) (x y : Int) : Bool :=
  if 0 ≤ x ∧ x < (img.width : Int) ∧ 0 ≤ y ∧ y < (img.height : Int) then
    (img.pixels.getD (y.toNat * img.width + x.toNat) false)
  else false

/-- Unchecked pixel write, `image.rs` `BinaryImage::set_pixel`; `none`
models the `BitVec::set` panic on an out-of-range index. -/
def BinaryImage.set_pixel (img : BinaryImage) (x y : Nat) (v : Bool) :
    Option BinaryImage :=
  let i := y * img.width + x
  if i < img.pixels.length then some { img with pixels := img.pixels.set i v }
  else none

/-- Color cluster record, `color_clusters/cluster.rs` `Cluster`. -/
structure ColorCluster where
  indices : List Nat
  holes : List Nat
  num_holes : Nat
  depth : Nat
  sum : ColorSum
  residue_sum : ColorSum
  rect : BoundingRect
  merged_into : Nat
deriving DecidableEq, Repr

/-- Fresh cluster, `color_clusters/cluster.rs` `Cluster::new`. -/
def ColorCluster.new : ColorCluster :=
  ⟨[], [], 0, 0, ColorSum.zero, ColorSum.zero, ⟨0, 0, 0, 0⟩, 0⟩

instance : Inhabited ColorCluster := ⟨ColorCluster.new⟩

/-- Add a pixel to a cluster, `color_clusters/cluster.rs` `Cluster::add`. -/
def ColorCluster.add (c : ColorCluster) (i : Nat) (color : Color)
    (x y : Int) : ColorCluster :=
  { c with
    indices := c.indices ++ [i]
    sum := c.sum.add color
    rect := c.rect.add_x_y x y }

/-- Cluster area, `color_clusters/cluster.rs` `Cluster::area`. -/
def ColorCluster.area (c : ColorCluster) : Nat := c.indices.length

/-- Mean color of a cluster, `color_clusters/cluster.rs` `Cluster::color`. -/
def ColorCluster.color (c : ColorCluster) : Color := c.sum.average

/-- Rendering of a color cluster on its own rect,
`color_clusters/cluster.rs` `Cluster::to_image_with_hole`.  Note that the
source immediately shadows its `width` parameter (the enclosing image width
passed by `to_image`) with `self.rect.width()`, so the binding below keeps
the shadowed name `width0` for the dead parameter.  `none` models the Rust
panics: `% 0` when the rect is empty, and the wild `as usize` index when a
decoded coordinate is negative or out of the allocated image. -/
def cluster_to_image_with_hole (c : ColorCluster) (width0 : Nat)
    (hole : Bool) : Option BinaryImage :=
  let _ := width0
  let width := c.rect.width.toNat
  let height := c.rect.height.toNat
  if width = 0 then none
  else
    let img0 := BinaryImage.new_w_h width height
    let step := fun (v : Bool) (acc : Option BinaryImage) (i : Nat) =>
      acc.bind fun img =>
        let x : Int := (i : Int) % (width : Int) - c.rect.left
        let y : Int := (i : Int) / (width : Int) - c.rect.top
        if 0 ≤ x ∧ 0 ≤ y then img.set_pixel x.toNat y.toNat v else none
    let img1 := c.indices.foldl (step true) (some img0)
    if hole then c.holes.foldl (step false) img1 else img1

/-- Binary cluster, `clusters.rs` `Cluster`: the points of one connected
component together with its bounding rect. -/
structure BinCluster where
  points : List PointI32
  rect : BoundingRect
deriving DecidableEq, Repr

instance : Inhabited BinCluster := ⟨⟨[], ⟨0, 0, 0, 0⟩⟩⟩

/-- Append a point, `clusters.rs` `Cluster::add`. -/
def BinCluster.add (c : BinCluster) (pos : PointI32) : BinCluster :=
  ⟨c.points ++ [pos], c.rect.add_x_y pos.x pos.y⟩

/-- Number of points, `clusters.rs` `Cluster::size`. -/
def BinCluster.size (c : BinCluster) : Nat := c.points.length

/-- Result of labelling, `clusters.rs` `Clusters`. -/
structure BinClusters where
  clusters : List BinCluster
  rect : BoundingRect
deriving DecidableEq, Repr

/-- Mutable state of the scan inside `clusters.rs` `to_clusters`: the cluster
vector, the accumulated rect of set pixels, the per-pixel label grid
(`clustermap`, a `MonoImage` initialised to zero; modelled as a function of
the pixel coordinates), and the next free label `clusterindex`. -/
structure LabelState where
  clusters : List BinCluster
  rect : BoundingRect
  clustermap : Nat → Nat → Nat
  clusterindex : Nat

/-- Label-grid and point transfer of `clusters.rs` `combine_cluster`: all
points of cluster `cfrom` are relabelled to `cto` on the grid, the point list
of `cfrom` is drained onto the end of `cto`'s, and `cto`'s rect absorbs
`cfrom`'s (which itself is left unchanged by the source). -/
def combine_cluster (clusters : List BinCluster)
    (clustermap : Nat → Nat → Nat) (cfrom cto : Nat) :
    List BinCluster × (Nat → Nat → Nat) :=
  let fromCl := clusters.getD cfrom default
  let map1 := fromCl.points.foldl
    (fun m o => fun a b => if a = o.x.toNat ∧ b = o.y.toNat then cto else m a b)
    clustermap
  let cs1 := clusters.set cfrom { fromCl with points := [] }
  let toCl := cs1.getD cto default
  let cs2 := cs1.set cto
    { toCl with
      points := toCl.points ++ fromCl.points
      rect := toCl.rect.merge fromCl.rect }
  (cs2, map1)

/-- The maximal `u16` label, `image.rs` `MonoImageItem::max_value()`. -/
def monoImageMax : Nat := 65535

/-- One iteration of the raster scan of `clusters.rs`
`BinaryImage::to_clusters`, processing the pixel with row-major index `k`
(so `x = k % width`, `y = k / width`, matching the nested `for y  for x`
loops).  `none` models the `panic!("overflow")` on label-space exhaustion. -/
def to_clusters_step (img : BinaryImage) (diagonal : Bool) (st : LabelState)
    (k : Nat) : Option LabelState :=
  let w := img.width
  let xn := k % w
  let yn := k / w
  let x : Int := xn
  let y : Int := yn
  let pos : PointI32 := ⟨x, y⟩
  let v := img.get_pixel_safe x y
  let v_up := img.get_pixel_safe x (y - 1)
  let v_left := img.get_pixel_safe (x - 1) y
  let v_up_left := img.get_pixel_safe (x - 1) (y - 1)
  let cluster_up0 := if 0 < yn then st.clustermap xn (yn - 1) else 0
  let cluster_left0 := if 0 < xn then st.clustermap (xn - 1) yn else 0
  let cluster_up_left :=
    if 0 < xn ∧ 0 < yn then st.clustermap (xn - 1) (yn - 1) else 0
  let merged :
      List BinCluster × (Nat → Nat → Nat) × Nat × Nat × Nat :=
    if (v || diagonal) && v_up && v_left &&
        decide (cluster_left0 ≠ cluster_up0) then
      if (st.clusters.getD cluster_left0 default).size ≤
          (st.clusters.getD cluster_up0 default).size then
        let (cs, m) :=
          combine_cluster st.clusters st.clustermap cluster_left0 cluster_up0
        let ci :=
          if 0 < st.clusterindex ∧ cluster_left0 = st.clusterindex - 1 ∧
              st.clusterindex = st.clusters.length
          then st.clusterindex - 1 else st.clusterindex
        (cs, m, ci, cluster_up0, cluster_up0)
      else
        let (cs, m) :=
          combine_cluster st.clusters st.clustermap cluster_up0 cluster_left0
        (cs, m, st.clusterindex, cluster_left0, cluster_left0)
    else
      (st.clusters, st.clustermap, st.clusterindex, cluster_up0, cluster_left0)
  let cs := merged.1
  let m := merged.2.1
  let ci := merged.2.2.1
  let cluster_up := merged.2.2.2.1
  let cluster_left := merged.2.2.2.2
  if v then
    let rect1 := st.rect.add_x_y x y
    let assign := fun (target : Nat) =>
      some (LabelState.mk
        (cs.set target ((cs.getD target default).add pos))
        rect1
        (fun a b => if a = xn ∧ b = yn then target else m a b)
        ci)
    if v_up then assign cluster_up
    else if v_left then assign cluster_left
    else if v_up_left && diagonal then assign cluster_up_left
    else
      let newcluster := BinCluster.add ⟨[], ⟨0, 0, 0, 0⟩⟩ pos
      let cs1 :=
        if ci < cs.length then cs.set ci newcluster else cs ++ [newcluster]
      let m1 := fun a b => if a = xn ∧ b = yn then ci else m a b
      if ci + 1 = monoImageMax then none
      else some (LabelState.mk cs1 rect1 m1 (ci + 1))
  else
    some (LabelState.mk cs st.rect m ci)

/-- The scan state after the first `n` pixels of the raster order. -/
def to_clusters_run (img : BinaryImage) (diagonal : Bool) :
    Nat → Option LabelState
  | 0 => some ⟨[], ⟨0, 0, 0, 0⟩, fun _ _ => 0, 0⟩
  | n + 1 =>
    (to_clusters_run img diagonal n).bind
      fun st => to_clusters_step img diagonal st n

/-- Connected-component labelling, `clusters.rs` `BinaryImage::to_clusters`:
run the raster scan over all pixels and keep the non-empty clusters.  `none`
models the label-overflow abort. -/
def to_clusters (img : BinaryImage) (diagonal : Bool) :
    Option BinClusters :=
  (to_clusters_run img diagonal (img.height * img.width)).map
    fun st => ⟨st.clusters.filter (fun c => c.size ≠ 0), st.rect⟩

/-- A pixel of the image is set, i.e. `get_pixel_safe` reads `true`. -/
def pixelSet (img : BinaryImage) (p : PointI32) : Prop :=
  img.get_pixel_safe p.x p.y = true

/-- Neighbourhood used by the binary clustering claim: 4-adjacency, extended
with the two diagonal directions when `diagonal` is set. -/
def adjacent (diagonal : Bool) (p q : PointI32) : Prop :=
  (p.x - q.x).natAbs + (p.y - q.y).natAbs = 1 ∨
    (diagonal = true ∧ (p.x - q.x).natAbs = 1 ∧ (p.y - q.y).natAbs = 1)

/-- Connectivity through set pixels: a chain of adjacent set pixels. -/
def connectedThroughSet (img : BinaryImage) (diagonal : Bool)
    (p q : PointI32) : Prop :=
  Relation.ReflTransGen
    (fun a b => pixelSet img a ∧ pixelSet img b ∧ adjacent diagonal a b) p q

/-- Pixel `p` is one of the first `n` pixels of the raster scan order. -/
def procd (img : BinaryImage) (n : Nat) (p : PointI32) : Prop :=
  0 ≤ p.x ∧ p.x < (img.width : Int) ∧ 0 ≤ p.y ∧ p.y < (img.height : Int) ∧
    p.y.toNat * img.width + p.x.toNat < n

/-- The label the scan state assigns to the position of `p`. -/
def labelOf (st : LabelState) (p : PointI32) : Nat :=
  st.clustermap p.x.toNat p.y.toNat

/-- Invariant bundle of the `to_clusters` raster scan after `n` pixels. -/
structure ScanInv (img : BinaryImage) (diagonal : Bool) (n : Nat)
    (st : LabelState) : Prop where
  label_lt : ∀ p, procd img n p → pixelSet img p →
    labelOf st p < st.clusters.length
  mem_own : ∀ p, procd img n p → pixelSet img p →
    p ∈ (st.clusters.getD (labelOf st p) default).points
  mem_inv : ∀ c, c < st.clusters.length →
    ∀ p ∈ (st.clusters.getD c default).points,
      procd img n p ∧ pixelSet img p ∧ labelOf st p = c
  conn : ∀ p q, procd img n p → pixelSet img p → procd img n q →
    pixelSet img q → labelOf st p = labelOf st q →
    connectedThroughSet img diagonal p q
  slot : st.clusterindex = st.clusters.length ∨
    (st.clusterindex + 1 = st.clusters.length ∧
      (st.clusters.getD st.clusterindex default).points = [])
  adj_h : ∀ a b : Nat, a + 1 < img.width → b < img.height →
    b * img.width + (a + 1) < n →
    pixelSet img ⟨a, b⟩ → pixelSet img ⟨a + 1, b⟩ →
    labelOf st ⟨a, b⟩ = labelOf st ⟨a + 1, b⟩
  adj_v : ∀ a b : Nat, a < img.width → b + 1 < img.height →
    (b + 1) * img.width + a < n →
    pixelSet img ⟨a, b⟩ → pixelSet img ⟨a, b + 1⟩ →
    labelOf st ⟨a, b⟩ = labelOf st ⟨a, b + 1⟩
  adj_d : diagonal = true → ∀ a b : Nat, a + 1 < img.width →
    b + 1 < img.height → (b + 1) * img.width + (a + 1) < n →
    pixelSet img ⟨a, b⟩ → pixelSet img ⟨a + 1, b + 1⟩ →
    labelOf st ⟨a, b⟩ = labelOf st ⟨a + 1, b + 1⟩
  adj_a : diagonal = true → ∀ a b : Nat, a + 1 < img.width →
    b + 1 < img.height → (b + 1) * img.width + (a + 1) < n →
    pixelSet img ⟨a, b + 1⟩ → pixelSet img ⟨a + 1, b⟩ →
    labelOf st ⟨a, b + 1⟩ = labelOf st ⟨a + 1, b⟩

/-- What to do with pixels matching the key color,
`color_clusters/builder.rs` `KeyingAction`. -/
inductive KeyingAction where
  | keep : KeyingAction
  | discard : KeyingAction
deriving DecidableEq, Repr

/-- Read-only snapshot handed to the caller predicates,
`color_clusters/container.rs` `ClustersView`. -/
structure ClustersView where
  width : Nat
  height : Nat
  pixels : List Nat
  clusters : List ColorCluster
  cluster_indices : List Nat
  clusters_output : List Nat

/-- The sentinel maximum of the `u32` `hierarchical` setting,
`color_clusters/builder.rs` `HIERARCHICAL_MAX`. -/
def HIERARCHICAL_MAX : Nat := 4294967295

/-- Immutable data of a builder run: image, configuration and the four
caller predicates, `color_clusters/builder.rs` `BuilderImpl` (the fields the
run never mutates). -/
structure BuilderEnv where
  width : Nat
  height : Nat
  pixels : List Nat
  diagonal : Bool
  hierarchical : Nat
  batch_size : Nat
  key : Color
  keying_action : KeyingAction
  same : Color → Color → Bool
  diff : Color → Color → Int
  deepen : ClustersView → ColorCluster → List (Nat × Int) → Bool
  hollow : ClustersView → ColorCluster → List (Nat × Int) → Bool

/-- One bin of the area histogram, `color_clusters/builder.rs` `Area`. -/
structure AreaBin where
  area : Nat
  count : Nat
deriving DecidableEq, Repr

instance : Inhabited AreaBin := ⟨⟨0, 0⟩⟩

/-- Mutable state of a builder run, `color_clusters/builder.rs`
`BuilderImpl` (the fields the run mutates). -/
structure BuilderState where
  clusters : List ColorCluster
  cluster_indices : List Nat
  cluster_areas : List AreaBin
  clusters_output : List Nat
  stage : Nat
  iteration : Nat
  next_index : Nat
deriving Repr

/-- Initial state, `color_clusters/builder.rs` `impl From<Builder>`. -/
def builder_init (env : BuilderEnv) : BuilderState :=
  ⟨[ColorCluster.new], List.replicate (env.pixels.length / 4) 0, [], [],
    1, 0, 1⟩

/-- Pixel fetch by index, `color_clusters/builder.rs`
`BuilderImpl::get_pixel`. -/
def builder_get_pixel (env : BuilderEnv) (i : Nat) : Option Color :=
  let j := i * 4
  if j < env.pixels.length then
    some ⟨env.pixels.getD j 0, env.pixels.getD (j + 1) 0,
      env.pixels.getD (j + 2) 0, env.pixels.getD (j + 3) 0⟩
  else none

/-- Pixel fetch by coordinates, `color_clusters/builder.rs`
`BuilderImpl::pixel_at`: negative coordinates read as `None`. -/
def builder_pixel_at (env : BuilderEnv) (x y : Int) : Option Color :=
  if x < 0 ∨ y < 0 then none
  else builder_get_pixel env (y.toNat * env.width + x.toNat)

/-- Similarity on optional colors, `color_clusters/builder.rs`
`BuilderImpl::is_same`: absent pixels compare as different. -/
def builder_is_same (env : BuilderEnv) (l r : Option Color) : Bool :=
  match l, r with
  | some a, some b => env.same a b
  | _, _ => false

/-- Label rewrite and content transfer, `color_clusters/builder.rs`
`BuilderImpl::combine_clusters`: retarget the label-grid entries of the
source's pixels, drain its index list onto the target, merge color sum and
rect into the target and clear the source's sum and rect. -/
def combine_clusters (clusters : List ColorCluster)
    (cluster_indices : List Nat) (cfrom cto : Nat) :
    List ColorCluster × List Nat :=
  let fromCl := clusters.getD cfrom default
  let idx1 := fromCl.indices.foldl (fun l i => l.set i cto) cluster_indices
  let cs1 := clusters.set cfrom { fromCl with indices := [] }
  let toCl := cs1.getD cto default
  let cs2 := cs1.set cto
    { toCl with
      indices := toCl.indices ++ fromCl.indices
      sum := toCl.sum.merge fromCl.sum
      rect := toCl.rect.merge fromCl.rect }
  let fromCl2 := cs2.getD cfrom default
  let cs3 := cs2.set cfrom
    { fromCl2 with sum := ColorSum.zero, rect := ⟨0, 0, 0, 0⟩ }
  (cs3, idx1)

/-- Clone-merge, `color_clusters/builder.rs`
`BuilderImpl::combine_clusters_clone`: a `combine_clusters` after which the
source's own sum, rect and index list are restored. -/
def combine_clusters_clone (clusters : List ColorCluster)
    (cluster_indices : List Nat) (cfrom cto : Nat) :
    List ColorCluster × List Nat :=
  let fromCl := clusters.getD cfrom default
  let (cs1, idx1) := combine_clusters clusters cluster_indices cfrom cto
  let fromCl2 := cs1.getD cfrom default
  (cs1.set cfrom
    { fromCl2 with
      sum := fromCl.sum
      rect := fromCl.rect
      indices := fromCl.indices }, idx1)

/-- Merge policy of Stage 2, `color_clusters/builder.rs`
`BuilderImpl::merge_cluster_into`. -/
def merge_cluster_into (clusters : List ColorCluster)
    (cluster_indices : List Nat) (cfrom cto : Nat) (deepen hollow : Bool) :
    List ColorCluster × List Nat :=
  if !deepen then
    let residue_sum := (clusters.getD cfrom default).residue_sum
    let toCl := clusters.getD cto default
    let cs0 := clusters.set cto
      { toCl with residue_sum := toCl.residue_sum.merge residue_sum }
    combine_clusters cs0 cluster_indices cfrom cto
  else
    let (cs1, idx1) :=
      combine_clusters_clone clusters cluster_indices cfrom cto
    let cs2 :=
      if hollow then
        let holes := (cs1.getD cfrom default).indices
        let toCl := cs1.getD cto default
        cs1.set cto
          { toCl with
            holes := toCl.holes ++ holes
            num_holes := toCl.num_holes + 1 }
      else cs1
    let fromCl := cs2.getD cfrom default
    let cs3 := cs2.set cfrom { fromCl with merged_into := cto }
    let toCl := cs3.getD cto default
    let cs4 := cs3.set cto { toCl with depth := toCl.depth + 1 }
    (cs4, idx1)

/-- Intermediate values of one Stage-1 loop iteration of
`color_clusters/builder.rs` `BuilderImpl::stage_1`: the four pixel reads,
the three neighbour labels, and the cluster vector / label grid /
`next_index` after the cross-cluster merge step. -/
structure Stage1Scan where
  color : Option Color
  up : Option Color
  left : Option Color
  upleft : Option Color
  clusters : List ColorCluster
  cluster_indices : List Nat
  next_index : Nat
  cluster_up : Nat
  cluster_left : Nat
  cluster_upleft : Nat

/-- The reads and the merge step of one Stage-1 iteration (everything of the
loop body of `BuilderImpl::stage_1` before the keying test). -/
def stage_1_scan (env : BuilderEnv) (st : BuilderState) (i : Nat) :
    Stage1Scan :=
  let x : Int := (i % env.width : Nat)
  let y : Int := (i / env.width : Nat)
  let color := builder_pixel_at env x y
  let up := builder_pixel_at env x (y - 1)
  let left := builder_pixel_at env (x - 1) y
  let upleft := builder_pixel_at env (x - 1) (y - 1)
  let cluster_up0 :=
    if 0 < y then
      st.cluster_indices.getD (env.width * (y.toNat - 1) + x.toNat) 0
    else 0
  let cluster_left0 :=
    if 0 < x then
      st.cluster_indices.getD (env.width * y.toNat + (x.toNat - 1)) 0
    else 0
  let cluster_upleft :=
    if 0 < x ∧ 0 < y then
      st.cluster_indices.getD (env.width * (y.toNat - 1) + (x.toNat - 1)) 0
    else 0
  if decide (cluster_left0 ≠ cluster_up0) &&
      builder_is_same env left up &&
      (env.diagonal ||
        (builder_is_same env color left && builder_is_same env color up))
  then
    if (st.clusters.getD cluster_left0 default).area ≤
        (st.clusters.getD cluster_up0 default).area then
      let (cs, idx) :=
        combine_clusters st.clusters st.cluster_indices cluster_left0
          cluster_up0
      let ni :=
        if cluster_left0 = st.next_index - 1 ∧
            st.next_index = st.clusters.length
        then st.next_index - 1 else st.next_index
      ⟨color, up, left, upleft, cs, idx, ni, cluster_up0, cluster_up0,
        cluster_upleft⟩
    else
      let (cs, idx) :=
        combine_clusters st.clusters st.cluster_indices cluster_up0
          cluster_left0
      ⟨color, up, left, upleft, cs, idx, st.next_index, cluster_left0,
        cluster_left0, cluster_upleft⟩
  else
    ⟨color, up, left, upleft, st.clusters, st.cluster_indices, st.next_index,
      cluster_up0, cluster_left0, cluster_upleft⟩

/-- The labelling chain of one Stage-1 iteration — the four `else` branches
after the keying test of `BuilderImpl::stage_1`: join the up cluster, else
the left cluster, else (under `diagonal`) the up-left cluster, else allocate
a fresh label. -/
def stage_1_assign (env : BuilderEnv) (st : BuilderState) (i : Nat)
    (c : Color) : BuilderState :=
  let s := stage_1_scan env st i
  let x : Int := (i % env.width : Nat)
  let y : Int := (i / env.width : Nat)
  if builder_is_same env s.color s.up && builder_is_same env s.color s.upleft
  then
    { st with
      clusters := s.clusters.set s.cluster_up
        ((s.clusters.getD s.cluster_up default).add i c x y)
      cluster_indices := s.cluster_indices.set i s.cluster_up
      next_index := s.next_index }
  else if builder_is_same env s.color s.left &&
      builder_is_same env s.color s.upleft then
    { st with
      clusters := s.clusters.set s.cluster_left
        ((s.clusters.getD s.cluster_left default).add i c x y)
      cluster_indices := s.cluster_indices.set i s.cluster_left
      next_index := s.next_index }
  else if env.diagonal && builder_is_same env s.color s.upleft then
    { st with
      clusters := s.clusters.set s.cluster_upleft
        ((s.clusters.getD s.cluster_upleft default).add i c x y)
      cluster_indices := s.cluster_indices.set i s.cluster_upleft
      next_index := s.next_index }
  else
    let newCluster := ColorCluster.add ColorCluster.new i c x y
    let cs1 :=
      if s.next_index < s.clusters.length then
        s.clusters.set s.next_index newCluster
      else s.clusters ++ [newCluster]
    { st with
      clusters := cs1
      cluster_indices := s.cluster_indices.set i s.next_index
      next_index := s.next_index + 1 }

/-- One pixel of the Stage-1 raster scan, the loop body of
`color_clusters/builder.rs` `BuilderImpl::stage_1`.  `none` models the
`color.unwrap()` panic, which is unreachable because every scanned index has
its four bytes in range. -/
def stage_1_step (env : BuilderEnv) (st : BuilderState) (i : Nat) :
    Option BuilderState :=
  let s := stage_1_scan env st i
  let has_key := env.key ≠ Color.zero
  let x : Int := (i % env.width : Nat)
  let y : Int := (i / env.width : Nat)
  s.color.bind fun c =>
    if has_key ∧ c = env.key then
      match env.keying_action with
      | .keep =>
        some { st with
          clusters := s.clusters.set 0 ((s.clusters.getD 0 default).add i c x y)
          cluster_indices := s.cluster_indices
          next_index := s.next_index }
      | .discard =>
        some { st with
          clusters := s.clusters
          cluster_indices := s.cluster_indices
          next_index := s.next_index }
    else some (stage_1_assign env st i c)

/-- Comparison definition for claim C10: the Stage-1 loop body with the
keying test absent, i.e. every pixel handled by the plain labelling chain. -/
def stage_1_step_unkeyed (env : BuilderEnv) (st : BuilderState) (i : Nat) :
    Option BuilderState :=
  (stage_1_scan env st i).color.bind fun c =>
    some (stage_1_assign env st i c)

/-- Insert a natural number into an ascending duplicate-free list, keeping
it ascending and duplicate-free; folding it models collecting into a
`HashSet` followed by `sort()`. -/
def insert_sorted_distinct (n : Nat) : List Nat → List Nat
  | [] => [n]
  | a :: as =>
    if n < a then n :: a :: as
    else if n = a then a :: as
    else a :: insert_sorted_distinct n as

/-- Neighbour labels of a cluster, `color_clusters/cluster.rs`
`Cluster::neighbours`: the sorted distinct non-zero labels, other than the
cluster's own, found among the four cardinal neighbours of its pixels.  The
`first().unwrap()` panic on an empty index list is modelled by `headD 0`;
all call sites guard by a positive area. -/
def cluster_neighbours (v : ClustersView) (c : ColorCluster) : List Nat :=
  let myself := v.cluster_indices.getD (c.indices.headD 0) 0
  c.indices.foldl
    (fun acc i =>
      let x := i % v.width
      let y := i / v.width
      let n0 := if 0 < y then
        v.cluster_indices.getD (v.width * (y - 1) + x) 0 else 0
      let n1 := if y < v.height - 1 then
        v.cluster_indices.getD (v.width * (y + 1) + x) 0 else 0
      let n2 := if 0 < x then
        v.cluster_indices.getD (v.width * y + (x - 1)) 0 else 0
      let n3 := if x < v.width - 1 then
        v.cluster_indices.getD (v.width * y + (x + 1)) 0 else 0
      [n0, n1, n2, n3].foldl
        (fun a j =>
          if j ≠ 0 ∧ j ≠ myself then insert_sorted_distinct j a else a)
        acc)
    []

/-- Snapshot of the current builder state,
`color_clusters/builder.rs` `BuilderImpl::view`. -/
def builder_view (env : BuilderEnv) (st : BuilderState) : ClustersView :=
  ⟨env.width, env.height, env.pixels, st.clusters, st.cluster_indices,
    st.clusters_output⟩

/-- End-of-Stage-1 preparation, `color_clusters/builder.rs`
`BuilderImpl::prepare_stage_2`: copy each color sum into the residue sum and
build the ascending histogram of positive cluster areas. -/
def prepare_stage_2 (st : BuilderState) : BuilderState :=
  let clusters := st.clusters.map fun c => { c with residue_sum := c.sum }
  let areas :=
    (clusters.filter (fun c => 0 < c.area)).map ColorCluster.area
  let distinct := areas.foldl (fun acc a => insert_sorted_distinct a acc) []
  { st with
    clusters := clusters
    cluster_areas := distinct.map fun a => ⟨a, areas.count a⟩ }

/-- One tick of Stage 1, `color_clusters/builder.rs` `BuilderImpl::stage_1`:
process up to `batch_size` pixels starting at `iteration`, advance
`iteration`, and when the scan is complete run `prepare_stage_2` and report
completion. -/
def stage_1_tick (env : BuilderEnv) (st : BuilderState) :
    Option (BuilderState × Bool) :=
  let len := st.cluster_indices.length
  let idxs := (List.range' st.iteration env.batch_size).takeWhile (· < len)
  (idxs.foldl (fun acc i => acc.bind fun s => stage_1_step env s i)
      (some st)).map
    fun st1 =>
      let st2 := { st1 with iteration := st1.iteration + env.batch_size }
      if len ≤ st2.iteration then (prepare_stage_2 st2, true)
      else (st2, false)

/-- Output collection of the non-hierarchical mode,
`color_clusters/builder.rs` `BuilderImpl::stage_1_output`: every non-empty
cluster, ordered by `area * 65535 + label`. -/
def stage_1_output (st : BuilderState) : BuilderState :=
  let withAreas :=
    ((List.range st.clusters.length).map
        (fun i => (i, (st.clusters.getD i default).area))).filter
      fun c => 0 < c.2
  let sorted :=
    sort_by_key (fun c : Nat × Nat => (c.2 : Int) * 65535 + (c.1 : Int))
      withAreas
  { st with clusters_output := st.clusters_output ++ sorted.map (·.1) }

/-- Rust `slice::binary_search_by_key` on the area histogram, which is
ascending with distinct areas at every call site: `inl i` is `Ok(i)` (the
bin holding `k`), `inr i` is `Err(i)` (the insertion point). -/
def area_binary_search (bins : List AreaBin) (k : Nat) : Sum Nat Nat :=
  let i := bins.findIdx fun a => k ≤ a.area
  if (bins.getD i default).area = k ∧ i < bins.length then .inl i
  else .inr i

/-- The body of the Stage-2 pass for one cluster slot, the `for index`
loop body of `color_clusters/builder.rs` `BuilderImpl::stage_2`.  `none`
models the `unwrap` panic on the histogram search. -/
def stage_2_body (env : BuilderEnv) (cur_area : Nat) (st : BuilderState)
    (index : Nat) : Option BuilderState :=
  let mycluster := st.clusters.getD index default
  if mycluster.area ≠ cur_area then some st
  else if env.hierarchical < cur_area then
    some { st with clusters_output := st.clusters_output ++ [index] }
  else
    let v := builder_view env st
    let mycolor := mycluster.color
    let infos := (cluster_neighbours v mycluster).map
      fun o => (o, env.diff mycolor (st.clusters.getD o default).color)
    if infos.isEmpty then
      let can_discard := env.keying_action = KeyingAction.discard
      if st.iteration = st.cluster_areas.length - 1 ∨ can_discard then
        some { st with clusters_output := st.clusters_output ++ [index] }
      else some st
    else
      let infos := sort_by_key
        (fun info : Nat × Int => info.2 * 65535 + (info.1 : Int)) infos
      let target := (infos.headD (0, 0)).1
      let v2 := builder_view env st
      let deepen :=
        if env.hierarchical = HIERARCHICAL_MAX then
          env.deepen v2 (st.clusters.getD index default) infos
        else false
      let hollow := env.hollow v2 (st.clusters.getD index default) infos
      let st1 :=
        if deepen then
          { st with clusters_output := st.clusters_output ++ [index] }
        else st
      match area_binary_search st1.cluster_areas
          (st1.clusters.getD target default).area with
      | .inr _ => none
      | .inl pos =>
        let bin := st1.cluster_areas.getD pos default
        let st2 := { st1 with
          cluster_areas :=
            st1.cluster_areas.set pos { bin with count := bin.count - 1 } }
        let (cs, idx) := merge_cluster_into st2.clusters st2.cluster_indices
          index target deepen hollow
        let st3 := { st2 with clusters := cs, cluster_indices := idx }
        let updated_area := (st3.clusters.getD target default).area
        match area_binary_search st3.cluster_areas updated_area with
        | .inl pos2 =>
          let bin2 := st3.cluster_areas.getD pos2 default
          some { st3 with
            cluster_areas := st3.cluster_areas.set pos2
              { bin2 with count := bin2.count + 1 } }
        | .inr pos2 =>
          some { st3 with
            cluster_areas := st3.cluster_areas.take pos2 ++
              [⟨updated_area, 1⟩] ++ st3.cluster_areas.drop pos2 }

/-- One pass of Stage 2, `color_clusters/builder.rs`
`BuilderImpl::stage_2`: skip an exhausted bin, or process every cluster
whose area equals the current bin's; returns the new state and whether the
histogram is exhausted.  `none` also models the out-of-range indexing of
`cluster_areas[iteration]` (reachable only for a zero-pixel image). -/
def stage_2_once (env : BuilderEnv) (st : BuilderState) :
    Option (BuilderState × Bool) :=
  if st.cluster_areas.length ≤ st.iteration then none
  else if (st.cluster_areas.getD st.iteration default).count = 0 then
    let st1 := { st with iteration := st.iteration + 1 }
    some (st1, st1.iteration = st1.cluster_areas.length)
  else
    let cur_area := (st.cluster_areas.getD st.iteration default).area
    ((List.range st.clusters.length).foldl
        (fun acc index => acc.bind fun s => stage_2_body env cur_area s index)
        (some st)).map
      fun st1 =>
        let st2 := { st1 with iteration := st1.iteration + 1 }
        (st2, st2.iteration = st2.cluster_areas.length)

/-- The bounded Stage-2 burst inside one tick, the
`for _i in 0..max(1, iteration / 16)` loop of `color_clusters/builder.rs`
`BuilderImpl::tick`. -/
def tick_stage_2_loop (env : BuilderEnv) :
    Nat → BuilderState → Option BuilderState
  | 0, st => some st
  | n + 1, st =>
    (stage_2_once env st).bind fun r =>
      if r.2 then some { r.1 with stage := r.1.stage + 1, iteration := 0 }
      else tick_stage_2_loop env n r.1

/-- One cooperative tick, `color_clusters/builder.rs` `BuilderImpl::tick`;
the boolean is the "done" flag returned to the driver. -/
def builder_tick (env : BuilderEnv) (st : BuilderState) :
    Option (BuilderState × Bool) :=
  match st.stage with
  | 1 =>
    (stage_1_tick env st).map fun r =>
      if r.2 then
        if env.hierarchical ≠ 0 then
          ({ r.1 with stage := r.1.stage + 1, iteration := 0 }, false)
        else
          (let o := stage_1_output r.1; { o with stage := o.stage + 2 }, false)
      else (r.1, false)
  | 2 =>
    (tick_stage_2_loop env (max 1 (st.iteration / 16)) st).map
      fun st1 => (st1, false)
  | _ => some (st, true)

/-- The driver loop of `color_clusters/builder.rs` `Builder::run`
(`while !bimpl.tick() {}`), with explicit fuel; the concrete runs below use
ample fuel, so the `none` of exhaustion is never hit. -/
def builder_run (env : BuilderEnv) : Nat → BuilderState → Option BuilderState
  | 0, _ => none
  | fuel + 1, st =>
    (builder_tick env st).bind fun r =>
      if r.2 then some r.1 else builder_run env fuel r.1

/-- Float point, `point.rs` `PointF64`, modelled over `ℝ`. -/
structure PointR where
  x : ℝ
  y : ℝ

instance : Inhabited PointR := ⟨⟨0, 0⟩⟩

/-- Penalty of a triple, `path/simplify.rs` `PathSimplify::evaluate_penalty`:
Heron's formula on the three side lengths, then `area * area / l3`. -/
noncomputable def evaluate_penalty (a b c : PointI32) : ℝ :=
  let sq := fun (u : Int) => ((u * u : Int) : ℝ)
  let l1 := Real.sqrt (sq (a.x - b.x) + sq (a.y - b.y))
  let l2 := Real.sqrt (sq (b.x - c.x) + sq (b.y - c.y))
  let l3 := Real.sqrt (sq (c.x - a.x) + sq (c.y - a.y))
  let p := (l1 + l2 + l3) / 2
  let area := Real.sqrt (p * (p - l1) * (p - l2) * (p - l3))
  area * area / l3

/-- Maximum penalty of the interior points of `(pfrom, pto)` against that
segment, the `past_delta` closure of `path/simplify.rs`
`PathSimplify::limit_penalties` (a fold of `f64::max` over `0.0`). -/
noncomputable def past_delta (path : List PointI32) (pfrom pto : Nat) : ℝ :=
  ((List.range' (pfrom + 1) (pto - (pfrom + 1))).map fun i =>
      evaluate_penalty (path.getD pfrom default) (path.getD i default)
        (path.getD pto default)).foldl max 0

/-- One iteration of the `limit_penalties` loop over the state
`(last, result)`: the first three branches of the body (`i == 0` push,
`i == last + 1` `continue`, penalty test with `tolerance = 1.0`), then the
trailing `i == len - 1` push, which the `continue` skips. -/
noncomputable def limit_penalties_body (path : List PointI32) (len : Nat)
    (st : Nat × List PointI32) (i : Nat) : Nat × List PointI32 :=
  let st1 :=
    if i = 0 then (st.1, st.2 ++ [path.getD i default])
    else if i = st.1 + 1 then st
    else if past_delta path st.1 i ≥ 1 then
      (i - 1, st.2 ++ [path.getD (i - 1) default])
    else st
  if i ≠ 0 ∧ i = st.1 + 1 then st1
  else if i = len - 1 then (st1.1, st1.2 ++ [path.getD i default])
  else st1

/-- Penalty-limited simplification, `path/simplify.rs`
`PathSimplify::limit_penalties`, as a fold of `limit_penalties_body` over
the pixel indices. -/
noncomputable def limit_penalties (path : List PointI32) : List PointI32 :=
  let len := path.length
  if len = 0 then []
  else
    ((List.range len).foldl (limit_penalties_body path len) (0, [])).2

/-- The behaviour the (amended) claim describes, written as a direct
recursion: from last-kept index `last`, advance `i` until the maximum
penalty against the segment from `last` reaches `1.0`, then emit the
predecessor and restart from it. -/
noncomputable def limit_spec_scan (path : List PointI32) (last i : Nat) :
    List PointI32 :=
  if h : i < path.length then
    if past_delta path last i ≥ 1 then
      path.getD (i - 1) default :: limit_spec_scan path (i - 1) (i + 1)
    else limit_spec_scan path last (i + 1)
  else []
termination_by path.length - i

/-- The full claimed shape of `limit_penalties`: first point, then the
emitted predecessors of the scan, then the last point (a one-point path
doubles its point, a two-point path loses its endpoint to the `continue`). -/
noncomputable def limit_spec (path : List PointI32) : List PointI32 :=
  if path.length = 0 then []
  else if path.length = 2 then [path.getD 0 default]
  else
    path.getD 0 default ::
      (limit_spec_scan path 0 1 ++ [path.getD (path.length - 1) default])

/-- Subtraction of float points, `point.rs` `impl Sub for PointF64`. -/
noncomputable def PointR.sub (a b : PointR) : PointR := ⟨a.x - b.x, a.y - b.y⟩

/-- Norm, `path/smooth.rs` `norm_f64`. -/
noncomputable def norm_f64 (p : PointR) : ℝ := Real.sqrt (p.x * p.x + p.y * p.y)

/-- Normalization, `path/smooth.rs` `normalize_f64` (division by a zero norm
yields `0` in this exact model, where the float code would produce NaN; all
theorems below keep the vectors nonzero). -/
noncomputable def normalize_f64 (p : PointR) : PointR :=
  let n := norm_f64 p
  ⟨p.x / n, p.y / n⟩

/-- Direction angle in `(-π, π]`, `path/smooth.rs` `angle`: the arccosine of
the x-component, negated below the x-axis. -/
noncomputable def smooth_angle (p : PointR) : ℝ :=
  if p.y < 0 then -(Real.arccos p.x) else Real.arccos p.x

/-- Signed angle difference, `path/smooth.rs` `signed_angle_difference`. -/
noncomputable def signed_angle_difference (vfrom vto : ℝ) : ℝ :=
  let v2 := if vfrom > vto then vto + 2 * Real.pi else vto
  let diff := v2 - vfrom
  if diff > Real.pi then diff - 2 * Real.pi else diff

/-- Midpoint, `path/smooth.rs` `find_mid_point`. -/
noncomputable def smooth_find_mid_point (p1 p2 : PointR) : PointR :=
  ⟨(p1.x + p2.x) / 2, (p1.y + p2.y) / 2⟩

/-- The epsilon of `path/smooth.rs` `find_intersection` (`1e-7`; the exact
binary value of that float literal differs from `10⁻⁷` only by a relative
`2⁻⁵³`, which none of the comparisons below can distinguish). -/
noncomputable def smoothEps : ℝ := 1 / 10 ^ 7

/-- Line intersection, `path/smooth.rs` `find_intersection`: coinciding
lines return the midpoint of `p2, p3`, parallel lines panic (`.error`),
otherwise the intersection point is returned.  Note all three epsilon tests
are one-sided. -/
noncomputable def smooth_find_intersection (p1 p2 p3 p4 : PointR) :
    Except Unit PointR :=
  let denom := (p4.y - p3.y) * (p2.x - p1.x) - (p4.x - p3.x) * (p2.y - p1.y)
  let numera := (p4.x - p3.x) * (p1.y - p3.y) - (p4.y - p3.y) * (p1.x - p3.x)
  let numerb := (p2.x - p1.x) * (p1.y - p3.y) - (p2.y - p1.y) * (p1.x - p3.x)
  if denom ≤ smoothEps ∧ numera ≤ smoothEps ∧ numerb ≤ smoothEps then
    .ok (smooth_find_mid_point p2 p3)
  else if denom ≤ smoothEps then .error ()
  else
    let mua := numera / denom
    .ok ⟨p1.x + mua * (p2.x - p1.x), p1.y + mua * (p2.y - p1.y)⟩

/-- Signed angle DAB of `path/smooth.rs` `retract_handles`. -/
noncomputable def retract_dab (a b d : PointR) : ℝ :=
  signed_angle_difference (smooth_angle (normalize_f64 (a.sub d)))
    (smooth_angle (normalize_f64 (b.sub a)))

/-- Signed angle ABC of `path/smooth.rs` `retract_handles`. -/
noncomputable def retract_abc (a b c : PointR) : ℝ :=
  signed_angle_difference (smooth_angle (normalize_f64 (b.sub a)))
    (smooth_angle (normalize_f64 (c.sub b)))

/-- Handle retraction, `path/smooth.rs` `retract_handles`: when the sign
bits of the two signed angles differ, both inner control points are replaced
by `find_intersection` of lines `ab` and `cd` (whose parallel-line panic
propagates); otherwise the four control points are returned untouched.
`is_sign_positive` is modelled as `0 ≤ ·`, faithful whenever the angles are
not float negative zeros. -/
noncomputable def retract_handles (a b c d : PointR) :
    Except Unit (List PointR) :=
  let dab := retract_dab a b d
  let abc := retract_abc a b c
  if (0 ≤ dab ↔ 0 ≤ abc) then .ok [a, b, c, d]
  else
    (smooth_find_intersection a b c d).map
      fun intersection => [a, intersection, intersection, d]


/-- Exact color equality, the `same` predicate of the concrete builder runs
below (claim E5 style). -/
def same_exact : Color → Color → Bool := fun a b => a = b

/-- Constant-zero `diff` predicate of the concrete builder runs. -/
def diff_zero : Color → Color → Int := fun _ _ => 0

/-- Constant-false `deepen` / `hollow` predicate of the concrete runs. -/
def pred_false : ClustersView → ColorCluster → List (Nat × Int) → Bool :=
  fun _ _ _ => false

/-- A solid one-color 2×1 image under the default configuration (no key
color): the Stage-1 scenario of claims C3 and C10. -/
def env_solid_pair : BuilderEnv :=
  ⟨2, 1, [10, 20, 30, 255, 10, 20, 30, 255], true, HIERARCHICAL_MAX, 10000,
    Color.zero, .keep, same_exact, diff_zero, pred_false, pred_false⟩

/-- A 2×1 image of two different colors under the default configuration:
the Stage-2 merge scenario of claim C4. -/
def env_two_colors : BuilderEnv :=
  ⟨2, 1, [10, 20, 30, 255, 50, 60, 70, 255], true, HIERARCHICAL_MAX, 10000,
    Color.zero, .keep, same_exact, diff_zero, pred_false, pred_false⟩

/-- A 3×3 image whose eight border pixels carry the key color `#010101FF`
and whose centre pixel (index 4) is `#0A141EFF`, run with keying `Keep` and
`hierarchical = 1`: the partition scenario of claim C1. -/
def env_keyed_ring : BuilderEnv :=
  ⟨3, 3,
    [1, 1, 1, 255, 1, 1, 1, 255, 1, 1, 1, 255,
     1, 1, 1, 255, 10, 20, 30, 255, 1, 1, 1, 255,
     1, 1, 1, 255, 1, 1, 1, 255, 1, 1, 1, 255],
    true, 1, 10000, ⟨1, 1, 1, 255⟩, .keep, same_exact, diff_zero,
    pred_false, pred_false⟩

/-! ## Theorems -/

/-- C3, code bug.  In the solid one-color 2×1 image `env_solid_pair` with
`same` = exact equality and no keying, pixel 1 satisfies `same(self, left)`
— under the claimed §4.1 rule it would join the left cluster and share label
1 with pixel 0 — but the source's branch additionally requires
`same(self, upleft)`, which fails on row 0 where the up-left pixel does not
exist, so the pixel is given the fresh label 2 instead. -/
theorem C3_stage1_upleft_bug :
    builder_is_same env_solid_pair (builder_pixel_at env_solid_pair 1 0)
        (builder_pixel_at env_solid_pair 0 0) = true ∧
      builder_pixel_at env_solid_pair 0 (-1) = none ∧
      (stage_1_tick env_solid_pair (builder_init env_solid_pair)).map
          (fun r => r.1.cluster_indices) = some [1, 2] :=
  ⟨by decide, by decide, by decide⟩

set_option maxHeartbeats 2000000 in
/-- C4, code bug.  Running `env_two_colors` to completion, Stage 2 merges
cluster 1 into its only neighbour, cluster 2, with `deepen = false` (the
`deepen` predicate is constantly false).  Afterwards the source cluster's
index list is empty and it is not an output cluster — but its `merged_into`
field still holds the default `0`, not the target `2`: the source only
assigns `merged_into` on the `deepen` path. -/
theorem C4_merged_into_not_set :
    (builder_run env_two_colors 12 (builder_init env_two_colors)).map
        (fun st =>
          ((st.clusters.getD 1 default).indices,
            (st.clusters.getD 1 default).merged_into,
            st.clusters_output)) =
      some ([], 0, [2]) ∧
      (builder_run env_two_colors 12 (builder_init env_two_colors)).map
        (fun st =>
          ((st.clusters.getD 2 default).indices, st.cluster_indices,
            st.stage)) = some ([1, 0], [2, 2], 3) ∧
      (0 : Nat) ≠ 2 :=
  ⟨by decide, by decide, by decide⟩

set_option maxHeartbeats 4000000 in
/-- C1, code bug.  Running `env_keyed_ring` to completion (final stage 3,
i.e. Stage 2 completed): the centre cluster 1 = {pixel 4} is isolated among
kept keyed pixels and is silently skipped (its histogram bin is not the last
and the keying action is `Keep`), while the keyed cluster 0 is emitted via
the `area > hierarchical` branch.  The only output cluster is 0, whose
indices miss pixel 4, and pixel 4's label is 1, not 0 — so the union of the
output clusters' indices plus the label-0 pixels is a strict subset of
`{0, …, 8}`, violating the partition invariant. -/
theorem C1_partition_violation :
    (builder_run env_keyed_ring 12 (builder_init env_keyed_ring)).map
        (fun st =>
          (st.clusters_output, st.cluster_indices,
            (st.clusters.getD 0 default).indices,
            (st.clusters.getD 1 default).indices, st.stage)) =
      some ([0], [0, 0, 0, 0, 1, 0, 0, 0, 0], [0, 1, 2, 3, 5, 6, 7, 8],
        [4], 3) ∧
      4 ∉ ([0, 1, 2, 3, 5, 6, 7, 8] : List Nat) :=
  ⟨by decide, by decide⟩

set_option maxHeartbeats 2000000 in
/-- C10, confirmed (Stage-1 scope, where the cited keying code lives).
When the configured key equals the default `#00000000`, keying is disabled:
the Stage-1 pixel step coincides with the keying-free labelling chain
`stage_1_step_unkeyed` — pixels whose color is exactly `#00000000` are
labelled and clustered like any other pixel — and both the step and a whole
Stage-1 tick are independent of the configured `keying_action`. -/
theorem C10_keying_inert (env : BuilderEnv) (hkey : env.key = Color.zero) :
    (∀ st i, stage_1_step env st i = stage_1_step_unkeyed env st i) ∧
      (∀ (a₁ a₂ : KeyingAction) (st : BuilderState) (i : Nat),
        stage_1_step { env with keying_action := a₁ } st i =
          stage_1_step { env with keying_action := a₂ } st i) ∧
      (∀ (a₁ a₂ : KeyingAction) (st : BuilderState),
        stage_1_tick { env with keying_action := a₁ } st =
          stage_1_tick { env with keying_action := a₂ } st) := by
  obtain ⟨w, h, px, dg, hi, bs, key, ka, sm, df, dp, hl⟩ := env
  simp only [BuilderEnv.key] at hkey
  subst hkey
  have hstep : ∀ (a : KeyingAction) (st : BuilderState) (i : Nat),
      stage_1_step ⟨w, h, px, dg, hi, bs, Color.zero, a, sm, df, dp, hl⟩ st i =
        stage_1_step_unkeyed
          ⟨w, h, px, dg, hi, bs, Color.zero, a, sm, df, dp, hl⟩ st i := by
    intro a st i
    simp only [stage_1_step, stage_1_step_unkeyed]
    simp
  have hscan : ∀ (a : KeyingAction) (st : BuilderState) (i : Nat),
      stage_1_scan ⟨w, h, px, dg, hi, bs, Color.zero, a, sm, df, dp, hl⟩ st i =
        stage_1_scan
          ⟨w, h, px, dg, hi, bs, Color.zero, ka, sm, df, dp, hl⟩ st i := by
    intro a st i
    rfl
  have hassign : ∀ (a : KeyingAction) (st : BuilderState) (i : Nat) (c : Color),
      stage_1_assign ⟨w, h, px, dg, hi, bs, Color.zero, a, sm, df, dp, hl⟩ st i c =
        stage_1_assign
          ⟨w, h, px, dg, hi, bs, Color.zero, ka, sm, df, dp, hl⟩ st i c := by
    intro a st i c
    rfl
  have hstep2 : ∀ (a₁ a₂ : KeyingAction) (st : BuilderState) (i : Nat),
      stage_1_step ⟨w, h, px, dg, hi, bs, Color.zero, a₁, sm, df, dp, hl⟩ st i =
        stage_1_step
          ⟨w, h, px, dg, hi, bs, Color.zero, a₂, sm, df, dp, hl⟩ st i := by
    intro a₁ a₂ st i
    rw [hstep, hstep]
    simp only [stage_1_step_unkeyed]
    rw [hscan a₁, hscan a₂]
    refine congrArg _ (funext fun c => ?_)
    rw [hassign a₁, hassign a₂]
  refine ⟨hstep ka, hstep2, ?_⟩
  intro a₁ a₂ st
  simp only [stage_1_tick]
  rw [show
    ((fun acc i => Option.bind acc fun s =>
        stage_1_step ⟨w, h, px, dg, hi, bs, Color.zero, a₁, sm, df, dp, hl⟩ s i) :
      Option BuilderState → Nat → Option BuilderState) =
    (fun acc i => Option.bind acc fun s =>
        stage_1_step ⟨w, h, px, dg, hi, bs, Color.zero, a₂, sm, df, dp, hl⟩ s i)
    from funext fun acc => funext fun i =>
      congrArg _ (funext fun s => hstep2 a₁ a₂ s i)]

/-- C10, witness: the keying-inertness at the concrete no-key environment
`env_solid_pair` and its initial state. -/
theorem C10_keying_inert_witness :
    stage_1_step env_solid_pair (builder_init env_solid_pair) 0 =
      stage_1_step_unkeyed env_solid_pair (builder_init env_solid_pair) 0 ∧
    stage_1_step { env_solid_pair with keying_action := .keep }
        (builder_init env_solid_pair) 0 =
      stage_1_step { env_solid_pair with keying_action := .discard }
        (builder_init env_solid_pair) 0 ∧
    stage_1_tick { env_solid_pair with keying_action := .keep }
        (builder_init env_solid_pair) =
      stage_1_tick { env_solid_pair with keying_action := .discard }
        (builder_init env_solid_pair) :=
  ⟨(C10_keying_inert env_solid_pair rfl).1 _ _,
    (C10_keying_inert env_solid_pair rfl).2.1 _ _ _ _,
    (C10_keying_inert env_solid_pair rfl).2.2 _ _ _⟩

/-- C5, code bug.  `Cluster::to_image_with_hole` shadows its `width`
parameter (the enclosing image width) with `rect.width()`, so pixel indices
are decoded with the wrong stride.  For the cluster of the three pixels
`(0,0), (1,0), (0,1)` of a 3-wide image — indices `[0, 1, 3]`, tight rect
`2 × 2` — the claim says pixel `(0,1)` of the rendering must be set (because
`(0+1)·3 + 0 = 3` is an index) and `(1,1)` must be clear (because
`(1+1)·3 ... `, i.e. `4`, is not); the code renders the exact opposite,
decoding index `3` as `(3 % 2, 3 / 2) = (1,1)`. -/
theorem C5_width_shadow_bug :
    cluster_to_image_with_hole
        ⟨[0, 1, 3], [], 0, 0, ColorSum.zero, ColorSum.zero, ⟨0, 0, 2, 2⟩, 0⟩
        3 true =
      some ⟨2, 2, [true, true, false, true]⟩ ∧
      (1 * 3 + 0 ∈ ([0, 1, 3] : List Nat)) ∧
      (BinaryImage.mk 2 2 [true, true, false, true]).get_pixel_safe 0 1 =
        false ∧
      (1 * 3 + 1 ∉ ([0, 1, 3] : List Nat)) ∧
      (BinaryImage.mk 2 2 [true, true, false, true]).get_pixel_safe 1 1 =
        true := by
  refine ⟨by decide, by decide, by decide, by decide, by decide⟩

/-- Helper: `path_reduce` on a non-empty path, with the `let`s inlined. -/
theorem path_reduce_cons (p0 : PointQ) (r : List PointQ) (tolerance : ℚ) :
    path_reduce (p0 :: r) tolerance =
      if (p0 :: r).getLast? ≠ some p0 then .error ()
      else if reduce_x_extent (p0 :: r) p0 < tolerance ∧
          reduce_y_extent (p0 :: r) p0 < tolerance then .ok none
      else if (reduce_combined (p0 :: r) p0 tolerance).length ≤ 3 then .ok none
      else .ok (some (reduce_combined (p0 :: r) p0 tolerance)) := rfl

/-- C7, counterexample.  The thin closed diamond
`[(0,0), (3,10), (0,20), (-3,10), (0,0)]` at tolerance `7` has x-extent
`6 < 7`, yet `Path::reduce` is not degenerate there — it returns the five
points unchanged: the source requires BOTH extents below the tolerance
(`&&`), not either one (as the claim states). -/
theorem C7_reduce_counterexample :
    reduce_x_extent
        [(⟨0, 0⟩ : PointQ), ⟨3, 10⟩, ⟨0, 20⟩, ⟨-3, 10⟩, ⟨0, 0⟩] ⟨0, 0⟩ < 7 ∧
      path_reduce [(⟨0, 0⟩ : PointQ), ⟨3, 10⟩, ⟨0, 20⟩, ⟨-3, 10⟩, ⟨0, 0⟩] 7 =
        .ok (some [(⟨0, 0⟩ : PointQ), ⟨3, 10⟩, ⟨0, 20⟩, ⟨-3, 10⟩, ⟨0, 0⟩]) := by
  constructor
  · norm_num [reduce_x_extent, reduce_corners, List.enum, List.enumFrom]
  · norm_num [path_reduce, reduce_x_extent, reduce_y_extent, reduce_corners,
      List.enum, List.enumFrom, reduce_combined, sort_by_key, sort_insert,
      slice_incl, reduce_points]

/-- C7, amended.  For every non-empty closed path, the reducer signals
"degenerate" (`ok none`) precisely when BOTH the x-extent AND the y-extent
are below the tolerance, or the combined reduced result has at most 3
points; in particular, the closed unit square of 5 points is returned
unchanged at tolerance 0.5 and is degenerate at tolerance 2.0. -/
theorem C7_reduce_degenerate (path : List PointQ) (p0 : PointQ)
    (r : List PointQ) (tolerance : ℚ) (hcons : path = p0 :: r)
    (hclosed : path.getLast? = some p0) :
    (path_reduce path tolerance = .ok none ↔
      (reduce_x_extent path p0 < tolerance ∧
        reduce_y_extent path p0 < tolerance) ∨
        (reduce_combined path p0 tolerance).length ≤ 3) ∧
      path_reduce [(⟨0, 0⟩ : PointQ), ⟨1, 0⟩, ⟨1, 1⟩, ⟨0, 1⟩, ⟨0, 0⟩] (1 / 2) =
        .ok (some [(⟨0, 0⟩ : PointQ), ⟨1, 0⟩, ⟨1, 1⟩, ⟨0, 1⟩, ⟨0, 0⟩]) ∧
      path_reduce [(⟨0, 0⟩ : PointQ), ⟨1, 0⟩, ⟨1, 1⟩, ⟨0, 1⟩, ⟨0, 0⟩] 2 =
        .ok none := by
  refine ⟨?_, ?_, ?_⟩
  · subst hcons
    rw [path_reduce_cons, if_neg (by simp [hclosed])]
    by_cases hext : reduce_x_extent (p0 :: r) p0 < tolerance ∧
        reduce_y_extent (p0 :: r) p0 < tolerance
    · rw [if_pos hext]
      simp [hext]
    · rw [if_neg hext]
      by_cases hlen : (reduce_combined (p0 :: r) p0 tolerance).length ≤ 3
      · rw [if_pos hlen]
        simp [hlen]
      · rw [if_neg hlen]
        simp [hext, hlen]
  · norm_num [path_reduce, reduce_x_extent, reduce_y_extent, reduce_corners,
      List.enum, List.enumFrom, reduce_combined, sort_by_key, sort_insert,
      slice_incl, reduce_points]
  · norm_num [path_reduce, reduce_x_extent, reduce_y_extent, reduce_corners,
      List.enum, List.enumFrom]

/-- C7, witness: the amended degeneracy criterion at the closed unit square
with tolerance 2 (both extents are 1 < 2, so it is degenerate). -/
theorem C7_reduce_degenerate_witness :
    (path_reduce [(⟨0, 0⟩ : PointQ), ⟨1, 0⟩, ⟨1, 1⟩, ⟨0, 1⟩, ⟨0, 0⟩] 2 =
      .ok none ↔
      (reduce_x_extent [(⟨0, 0⟩ : PointQ), ⟨1, 0⟩, ⟨1, 1⟩, ⟨0, 1⟩, ⟨0, 0⟩]
          ⟨0, 0⟩ < 2 ∧
        reduce_y_extent [(⟨0, 0⟩ : PointQ), ⟨1, 0⟩, ⟨1, 1⟩, ⟨0, 1⟩, ⟨0, 0⟩]
          ⟨0, 0⟩ < 2) ∨
        (reduce_combined [(⟨0, 0⟩ : PointQ), ⟨1, 0⟩, ⟨1, 1⟩, ⟨0, 1⟩, ⟨0, 0⟩]
            ⟨0, 0⟩ 2).length ≤ 3) ∧
      path_reduce [(⟨0, 0⟩ : PointQ), ⟨1, 0⟩, ⟨1, 1⟩, ⟨0, 1⟩, ⟨0, 0⟩] (1 / 2) =
        .ok (some [(⟨0, 0⟩ : PointQ), ⟨1, 0⟩, ⟨1, 1⟩, ⟨0, 1⟩, ⟨0, 0⟩]) ∧
      path_reduce [(⟨0, 0⟩ : PointQ), ⟨1, 0⟩, ⟨1, 1⟩, ⟨0, 1⟩, ⟨0, 0⟩] 2 =
        .ok none :=
  C7_reduce_degenerate _ _ _ _ rfl rfl

/-- Helper: a list whose `getLast?` is `some a` splits as `l₀ ++ [a]`. -/
theorem eq_append_of_getLast? {α : Type} {l : List α} {a : α}
    (h : l.getLast? = some a) : ∃ l₀, l = l₀ ++ [a] := by
  have hne : l ≠ [] := by rintro rfl; simp at h
  have h3 : l.getLast hne = a := by
    rw [List.getLast?_eq_getLast l hne] at h
    exact Option.some.inj h
  exact ⟨l.dropLast, by rw [← h3]; exact (List.dropLast_append_getLast hne).symm⟩

/-- C9, counterexample.  For the already-closed three-point polyline
`P₀ = [(0,0), (1,0), (0,0)]` the two claimed identities do not both hold:
`to_closed P₀ = P₀`, so `to_open (to_closed P₀)` drops the repeated last
point and returns `[(0,0), (1,0)] ≠ P₀`. -/
theorem C9_roundtrip_counterexample :
    ¬ (to_closed (to_open [(⟨0, 0⟩ : PointI32), ⟨1, 0⟩, ⟨0, 0⟩]) =
        [(⟨0, 0⟩ : PointI32), ⟨1, 0⟩, ⟨0, 0⟩] ∧
      to_open (to_closed [(⟨0, 0⟩ : PointI32), ⟨1, 0⟩, ⟨0, 0⟩]) =
        [(⟨0, 0⟩ : PointI32), ⟨1, 0⟩, ⟨0, 0⟩]) := by
  decide

/-- C9, amended.  For an already-closed polyline `P` (head equals last) with
at least two points and whose opened version is genuinely open
(`P[len-2] ≠ P[0]`): `to_closed (to_open P) = P` holds, while the second
round trip returns the opened path — `to_open (to_closed P) = to_open P`,
which is `P` without its repeated last point, not `P` itself. -/
theorem C9_closed_roundtrip (p : List PointI32)
    (hclosed : p.getLast? = p.head?) (hlen : 2 ≤ p.length)
    (hopen : p.dropLast.getLast? ≠ p.head?) :
    to_closed (to_open p) = p ∧
      to_open (to_closed p) = to_open p ∧ to_open p = p.dropLast := by
  obtain ⟨a, r, rfl⟩ : ∃ a r, p = a :: r := by
    cases p with
    | nil => simp at hlen
    | cons a r => exact ⟨a, r, rfl⟩
  have hlast : (a :: r).getLast? = some a := by rw [hclosed]; rfl
  obtain ⟨r₀', hr₀'⟩ := eq_append_of_getLast? hlast
  cases r₀' with
  | nil =>
    have : r = [] := by simpa using hr₀'
    subst this
    simp at hlen
  | cons b r₀ =>
    have hab : a = b := by
      have := congrArg List.head? hr₀'
      simpa using this
    subst hab
    have hr : r = r₀ ++ [a] := by
      have := congrArg List.tail hr₀'
      simpa using this
    subst hr
    have hdrop : (a :: (r₀ ++ [a])).dropLast = a :: r₀ := by
      rw [← List.cons_append, List.dropLast_concat]
    have hcondp : (a :: (r₀ ++ [a])).getLast? = some a := by
      rw [← List.cons_append, List.getLast?_concat]
    have hopen' : ¬ ((a :: r₀).getLast? = some a) := by
      rw [hdrop] at hopen
      intro hcon
      apply hopen
      rw [hcon]
      rfl
    have h1 : to_open (a :: (r₀ ++ [a])) = a :: r₀ := by
      show (if (a :: (r₀ ++ [a])).getLast? = some a
        then (a :: (r₀ ++ [a])).dropLast else a :: (r₀ ++ [a])) = a :: r₀
      rw [if_pos hcondp, hdrop]
    have h2 : to_closed (a :: r₀) = a :: (r₀ ++ [a]) := by
      show (if (a :: r₀).getLast? = some a
        then a :: r₀ else (a :: r₀) ++ [a]) = a :: (r₀ ++ [a])
      rw [if_neg hopen']
      simp
    have h3 : to_closed (a :: (r₀ ++ [a])) = a :: (r₀ ++ [a]) := by
      show (if (a :: (r₀ ++ [a])).getLast? = some a
        then a :: (r₀ ++ [a]) else (a :: (r₀ ++ [a])) ++ [a]) = a :: (r₀ ++ [a])
      rw [if_pos hcondp]
    refine ⟨by rw [h1, h2], by rw [h3], by rw [h1, hdrop]⟩

/-- C9, witness: the amended round trip at the closed unit square. -/
theorem C9_closed_roundtrip_witness :
    to_closed (to_open [(⟨0, 0⟩ : PointI32), ⟨1, 0⟩, ⟨1, 1⟩, ⟨0, 1⟩, ⟨0, 0⟩]) =
        [(⟨0, 0⟩ : PointI32), ⟨1, 0⟩, ⟨1, 1⟩, ⟨0, 1⟩, ⟨0, 0⟩] ∧
      to_open (to_closed [(⟨0, 0⟩ : PointI32), ⟨1, 0⟩, ⟨1, 1⟩, ⟨0, 1⟩, ⟨0, 0⟩]) =
        to_open [(⟨0, 0⟩ : PointI32), ⟨1, 0⟩, ⟨1, 1⟩, ⟨0, 1⟩, ⟨0, 0⟩] ∧
      to_open [(⟨0, 0⟩ : PointI32), ⟨1, 0⟩, ⟨1, 1⟩, ⟨0, 1⟩, ⟨0, 0⟩] =
        [(⟨0, 0⟩ : PointI32), ⟨1, 0⟩, ⟨1, 1⟩, ⟨0, 1⟩, ⟨0, 0⟩].dropLast :=
  C9_closed_roundtrip _ (by decide) (by decide) (by decide)


/-- Heron's product under the square root, as a polynomial identity in the
three side lengths. -/
theorem heron_poly (u v w : ℝ) :
    ((u + v + w) / 2) * (((u + v + w) / 2) - u) * (((u + v + w) / 2) - v) *
      (((u + v + w) / 2) - w) =
    (2 * (u ^ 2 * v ^ 2 + v ^ 2 * w ^ 2 + w ^ 2 * u ^ 2) -
      u ^ 4 - v ^ 4 - w ^ 4) / 16 := by ring

/-- What `evaluate_penalty` actually computes: the squared triangle area
`(cross/2)^2 = signed_area^2 / 4` divided by the FIRST power of the base
length `|a - c|` (the code divides `area * area` by `l3`, not `l3 * l3`). -/
theorem evaluate_penalty_eq (a b c : PointI32) :
    evaluate_penalty a b c =
      ((signed_area a b c : ℤ) : ℝ) ^ 2 / 4 /
        Real.sqrt (((c.x - a.x) * (c.x - a.x) + (c.y - a.y) * (c.y - a.y) : ℤ) : ℝ) := by
  simp only [evaluate_penalty]
  push_cast
  set s1 : ℝ := ((a.x : ℝ) - b.x) * ((a.x : ℝ) - b.x) + ((a.y : ℝ) - b.y) * ((a.y : ℝ) - b.y) with hs1
  set s2 : ℝ := ((b.x : ℝ) - c.x) * ((b.x : ℝ) - c.x) + ((b.y : ℝ) - c.y) * ((b.y : ℝ) - c.y) with hs2
  set s3 : ℝ := ((c.x : ℝ) - a.x) * ((c.x : ℝ) - a.x) + ((c.y : ℝ) - a.y) * ((c.y : ℝ) - a.y) with hs3
  have hs1n : 0 ≤ s1 := add_nonneg (mul_self_nonneg _) (mul_self_nonneg _)
  have hs2n : 0 ≤ s2 := add_nonneg (mul_self_nonneg _) (mul_self_nonneg _)
  have hs3n : 0 ≤ s3 := add_nonneg (mul_self_nonneg _) (mul_self_nonneg _)
  have e1 : Real.sqrt s1 ^ 2 = s1 := Real.sq_sqrt hs1n
  have e2 : Real.sqrt s2 ^ 2 = s2 := Real.sq_sqrt hs2n
  have e3 : Real.sqrt s3 ^ 2 = s3 := Real.sq_sqrt hs3n
  have e1' : Real.sqrt s1 ^ 4 = s1 ^ 2 := by
    rw [show (4 : ℕ) = 2 * 2 from rfl, pow_mul, e1]
  have e2' : Real.sqrt s2 ^ 4 = s2 ^ 2 := by
    rw [show (4 : ℕ) = 2 * 2 from rfl, pow_mul, e2]
  have e3' : Real.sqrt s3 ^ 4 = s3 ^ 2 := by
    rw [show (4 : ℕ) = 2 * 2 from rfl, pow_mul, e3]
  have hprod :
      ((Real.sqrt s1 + Real.sqrt s2 + Real.sqrt s3) / 2) *
        (((Real.sqrt s1 + Real.sqrt s2 + Real.sqrt s3) / 2) - Real.sqrt s1) *
        (((Real.sqrt s1 + Real.sqrt s2 + Real.sqrt s3) / 2) - Real.sqrt s2) *
        (((Real.sqrt s1 + Real.sqrt s2 + Real.sqrt s3) / 2) - Real.sqrt s3) =
      4 * ((signed_area a b c : ℤ) : ℝ) ^ 2 / 16 := by
    rw [heron_poly, e1, e2, e3, e1', e2', e3']
    rw [hs1, hs2, hs3]
    simp only [signed_area]
    push_cast
    ring
  rw [hprod]
  rw [Real.mul_self_sqrt (by positivity)]
  rw [show (4 : ℝ) * ((signed_area a b c : ℤ) : ℝ) ^ 2 / 16 =
    ((signed_area a b c : ℤ) : ℝ) ^ 2 / 4 by ring]

/-- The interior of the segment `(last, last + 1)` is empty, so its maximum
penalty is `0`. -/
theorem past_delta_succ_self (path : List PointI32) (last : Nat) :
    past_delta path last (last + 1) = 0 := by
  simp [past_delta]

theorem body_skip (path : List PointI32) (len last k : Nat)
    (res : List PointI32) (hk0 : k ≠ 0) (hk : k = last + 1) :
    limit_penalties_body path len (last, res) k = (last, res) := by
  simp only [limit_penalties_body]
  rw [if_neg hk0, if_pos hk, if_pos ⟨hk0, hk⟩]

theorem body_zero (path : List PointI32) (len last : Nat)
    (res : List PointI32) (hlen : len - 1 ≠ 0) :
    limit_penalties_body path len (last, res) 0 =
      (last, res ++ [path.getD 0 default]) := by
  have h2 : ¬ (0 : Nat) = len - 1 := by omega
  simp [limit_penalties_body, h2]

theorem body_hit (path : List PointI32) (len last k : Nat)
    (res : List PointI32) (hk0 : k ≠ 0) (hne : k ≠ last + 1)
    (hp : past_delta path last k ≥ 1) (hlast : k ≠ len - 1) :
    limit_penalties_body path len (last, res) k =
      (k - 1, res ++ [path.getD (k - 1) default]) := by
  simp only [limit_penalties_body]
  rw [if_neg hk0, if_neg hne, if_pos hp]
  rw [if_neg (by simp [hne]), if_neg hlast]

theorem body_hit_last (path : List PointI32) (len last k : Nat)
    (res : List PointI32) (hk0 : k ≠ 0) (hne : k ≠ last + 1)
    (hp : past_delta path last k ≥ 1) (hlast : k = len - 1) :
    limit_penalties_body path len (last, res) k =
      (k - 1, res ++ [path.getD (k - 1) default] ++ [path.getD k default]) := by
  simp only [limit_penalties_body]
  rw [if_neg hk0, if_neg hne, if_pos hp]
  rw [if_neg (by simp [hne]), if_pos hlast]

theorem body_miss (path : List PointI32) (len last k : Nat)
    (res : List PointI32) (hk0 : k ≠ 0) (hne : k ≠ last + 1)
    (hp : ¬ past_delta path last k ≥ 1) (hlast : k ≠ len - 1) :
    limit_penalties_body path len (last, res) k = (last, res) := by
  simp only [limit_penalties_body]
  rw [if_neg hk0, if_neg hne, if_neg hp]
  rw [if_neg (by simp [hne]), if_neg hlast]

theorem body_miss_last (path : List PointI32) (len last k : Nat)
    (res : List PointI32) (hk0 : k ≠ 0) (hne : k ≠ last + 1)
    (hp : ¬ past_delta path last k ≥ 1) (hlast : k = len - 1) :
    limit_penalties_body path len (last, res) k =
      (last, res ++ [path.getD k default]) := by
  simp only [limit_penalties_body]
  rw [if_neg hk0, if_neg hne, if_neg hp]
  rw [if_neg (by simp [hne]), if_pos hlast]

theorem limit_fold_from (path : List PointI32) (len : Nat)
    (hlen : len = path.length) (h3 : 3 ≤ len) :
    ∀ (m k last : Nat) (res : List PointI32), m = len - k → 1 ≤ k →
      k ≤ len - 1 → (last + 2 ≤ k ∨ (last = 0 ∧ k = 1)) →
      ((List.range' k m).foldl (limit_penalties_body path len)
          (last, res)).2 =
        res ++ limit_spec_scan path last k ++ [path.getD (len - 1) default] := by
  intro m
  induction m with
  | zero => intro k last res hm h1 h2 _; omega
  | succ m ih =>
    intro k last res hm h1 h2 hinv
    rw [List.range'_succ, List.foldl_cons]
    have hkne0 : k ≠ 0 := by omega
    have hklt : k < path.length := by omega
    rcases hinv with hinv | hinv
    · have hkne : k ≠ last + 1 := by omega
      by_cases hp : past_delta path last k ≥ 1
      · by_cases hlast : k = len - 1
        · have hm0 : m = 0 := by omega
          subst hm0
          rw [body_hit_last path len last k res hkne0 hkne hp hlast]
          simp only [List.range'_zero, List.foldl_nil]
          conv_rhs => rw [limit_spec_scan]
          rw [dif_pos hklt, if_pos hp]
          conv_rhs => rw [limit_spec_scan]
          rw [dif_neg (by omega : ¬ k + 1 < path.length)]
          subst hlast
          simp
        · rw [body_hit path len last k res hkne0 hkne hp hlast]
          conv_rhs => rw [limit_spec_scan]
          rw [dif_pos hklt, if_pos hp]
          rw [ih (k + 1) (k - 1) (res ++ [path.getD (k - 1) default])
            (by omega) (by omega) (by omega) (by omega)]
          simp
      · by_cases hlast : k = len - 1
        · have hm0 : m = 0 := by omega
          subst hm0
          rw [body_miss_last path len last k res hkne0 hkne hp hlast]
          simp only [List.range'_zero, List.foldl_nil]
          conv_rhs => rw [limit_spec_scan]
          rw [dif_pos hklt, if_neg hp]
          conv_rhs => rw [limit_spec_scan]
          rw [dif_neg (by omega : ¬ k + 1 < path.length)]
          simp [hlast]
        · rw [body_miss path len last k res hkne0 hkne hp hlast]
          conv_rhs => rw [limit_spec_scan]
          rw [dif_pos hklt, if_neg hp]
          exact ih (k + 1) last res (by omega) (by omega) (by omega)
            (by omega)
    · obtain ⟨hl0, hk1⟩ := hinv
      subst hl0 hk1
      rw [body_skip path len 0 1 res (by omega) rfl]
      have hp : ¬ past_delta path 0 1 ≥ 1 := by
        rw [show (1 : Nat) = 0 + 1 from rfl, past_delta_succ_self]
        norm_num
      conv_rhs => rw [limit_spec_scan]
      rw [dif_pos (by omega : 1 < path.length), if_neg hp]
      exact ih 2 0 res (by omega) (by omega) (by omega) (by omega)

theorem limit_penalties_eq_spec (path : List PointI32) :
    limit_penalties path = limit_spec path := by
  rcases hlen : path.length with _ | n
  · simp [limit_penalties, limit_spec, hlen]
  · rcases n with _ | n
    · -- length 1
      simp only [limit_penalties, limit_spec, hlen]
      norm_num
      rw [show List.range 1 = [0] from rfl]
      simp only [List.foldl_cons, List.foldl_nil]
      simp only [limit_penalties_body]
      norm_num
      rw [limit_spec_scan]
      rw [dif_neg (by omega : ¬ 1 < path.length)]
    · rcases n with _ | n
      · -- length 2
        simp only [limit_penalties, limit_spec, hlen]
        norm_num
        rw [show List.range 2 = [0, 1] from rfl]
        simp only [List.foldl_cons, List.foldl_nil]
        rw [show limit_penalties_body path 2 (0, []) 0 =
          (0, [path.getD 0 default]) by
            simp only [limit_penalties_body]; norm_num]
        rw [body_skip path 2 0 1 [path.getD 0 default] (by omega) rfl]
        simp [List.getD]
      · -- length ≥ 3
        have h3 : 3 ≤ path.length := by omega
        simp only [limit_penalties, limit_spec, hlen]
        rw [if_neg (by omega : ¬ n + 1 + 1 + 1 = 0),
          if_neg (by omega : ¬ (n + 3 : Nat) = 0),
          if_neg (by omega : ¬ (n + 3 : Nat) = 2)]
        rw [List.range_eq_range']
        rw [show List.range' 0 (n + 3) = 0 :: List.range' 1 (n + 2) from rfl]
        rw [List.foldl_cons]
        rw [show limit_penalties_body path (n + 3) (0, []) 0 =
          (0, [path.getD 0 default]) by
            rw [body_zero path (n + 3) 0 [] (by omega)]; simp]
        have heq := limit_fold_from path (n + 3) (by omega) (by omega)
          (n + 2) 1 0 [path.getD 0 default] (by omega) (by omega) (by omega)
          (Or.inr ⟨rfl, rfl⟩)
        rw [show n + 1 + 1 + 1 = n + 3 from rfl]
        rw [heq]
        simp

/-- C6, counterexample: at `a = (0,0)`, `b = (1,3)`, `c = (2,0)` the code's
penalty is `9/2` while the claimed `(2 Area)^2 / |a-c|^2` is `9`; and on the
path `[(0,0), (1,1), (4,0)]` the maximum penalty of the middle point is
exactly `1.0` — it does not strictly exceed the tolerance — yet the code
keeps that point (its test is `>= 1.0`, not `> 1.0`). -/
theorem C6_penalty_counterexample :
    evaluate_penalty ⟨0, 0⟩ ⟨1, 3⟩ ⟨2, 0⟩ = 9 / 2 ∧
    ((signed_area ⟨0, 0⟩ ⟨1, 3⟩ ⟨2, 0⟩ : ℤ) : ℝ) ^ 2 /
        ((((⟨2, 0⟩ : PointI32).x - (⟨0, 0⟩ : PointI32).x) *
            ((⟨2, 0⟩ : PointI32).x - (⟨0, 0⟩ : PointI32).x) +
          ((⟨2, 0⟩ : PointI32).y - (⟨0, 0⟩ : PointI32).y) *
            ((⟨2, 0⟩ : PointI32).y - (⟨0, 0⟩ : PointI32).y) : ℤ) : ℝ) = 9 ∧
    (9 / 2 : ℝ) ≠ 9 ∧
    past_delta [⟨0, 0⟩, ⟨1, 1⟩, ⟨4, 0⟩] 0 2 = 1 ∧
    limit_penalties [⟨0, 0⟩, ⟨1, 1⟩, ⟨4, 0⟩] =
      [⟨0, 0⟩, ⟨1, 1⟩, ⟨4, 0⟩] := by
  have hpen1 : evaluate_penalty ⟨0, 0⟩ ⟨1, 1⟩ ⟨4, 0⟩ = 1 := by
    rw [evaluate_penalty_eq]
    norm_num [signed_area]
    rw [show ((16 : ℝ)) = 4 ^ 2 by norm_num, Real.sqrt_sq (by norm_num : (0:ℝ) ≤ 4)]
    norm_num
  have hpd : past_delta [⟨0, 0⟩, ⟨1, 1⟩, ⟨4, 0⟩] 0 2 = 1 := by
    simp only [past_delta]
    rw [show List.range' (0 + 1) (2 - (0 + 1)) = [1] from rfl]
    simp only [List.map_cons, List.map_nil, List.foldl_cons, List.foldl_nil]
    simp only [List.getD]
    norm_num
    rw [hpen1]
    norm_num
  refine ⟨?_, ?_, by norm_num, hpd, ?_⟩
  · rw [evaluate_penalty_eq]
    norm_num [signed_area]
    rw [show Real.sqrt 4 = 2 by
      rw [show (4 : ℝ) = 2 ^ 2 by norm_num, Real.sqrt_sq two_pos.le]]
  · norm_num [signed_area]
  · simp only [limit_penalties]
    norm_num
    rw [show List.range 3 = [0, 1, 2] from rfl]
    simp only [List.foldl_cons, List.foldl_nil]
    rw [body_zero _ 3 0 [] (by omega)]
    rw [body_skip _ 3 0 1 _ (by omega) rfl]
    rw [body_hit_last _ 3 0 2 _ (by omega) (by omega) (by rw [hpd]) rfl]
    simp [List.getD]

/-- C6: (amended) the penalty of `(a, b, c)` is the squared triangle area
divided by the first power of the base length, `signed_area^2 / 4 / |a-c|`
(not the squared perpendicular distance `(2 Area)^2 / |a-c|^2`), and the
simplifier emits the predecessor of the first point whose maximum penalty
against the segment from the last-kept point reaches `1.0` (`>=`, not `>`)
and restarts from it, as captured by `limit_spec`. -/
theorem C6_penalty_loop :
    (∀ a b c : PointI32,
      evaluate_penalty a b c =
        ((signed_area a b c : ℤ) : ℝ) ^ 2 / 4 /
          Real.sqrt
            (((c.x - a.x) * (c.x - a.x) + (c.y - a.y) * (c.y - a.y) : ℤ) : ℝ)) ∧
    ∀ path : List PointI32, limit_penalties path = limit_spec path :=
  ⟨evaluate_penalty_eq, limit_penalties_eq_spec⟩

/-- The direction angle of a unit vector has that vector as `(cos, sin)` and
lies in `(-pi, pi]`. -/
theorem smooth_angle_spec (u : PointR) (hu : u.x * u.x + u.y * u.y = 1) :
    Real.cos (smooth_angle u) = u.x ∧ Real.sin (smooth_angle u) = u.y ∧
      -Real.pi < smooth_angle u ∧ smooth_angle u ≤ Real.pi := by
  have hx2 : u.x ^ 2 ≤ 1 := by nlinarith [mul_self_nonneg u.y]
  have hx1 : -1 ≤ u.x := by nlinarith
  have hx1' : u.x ≤ 1 := by nlinarith
  have hcos : Real.cos (Real.arccos u.x) = u.x := Real.cos_arccos hx1 hx1'
  have hsin : Real.sin (Real.arccos u.x) = Real.sqrt (1 - u.x ^ 2) :=
    Real.sin_arccos u.x
  have hyy : Real.sqrt (1 - u.x ^ 2) = |u.y| := by
    rw [show 1 - u.x ^ 2 = u.y ^ 2 by nlinarith]
    exact Real.sqrt_sq_eq_abs u.y
  by_cases hy : u.y < 0
  · have hxne : u.x ≠ -1 := by
      intro h
      have : u.y * u.y = 0 := by nlinarith
      have := mul_self_eq_zero.mp this
      linarith
    have harcLt : Real.arccos u.x < Real.pi := by
      rcases lt_or_eq_of_le (Real.arccos_le_pi u.x) with h | h
      · exact h
      · exfalso
        apply hxne
        rw [← hcos, h, Real.cos_pi]
    simp only [smooth_angle, if_pos hy]
    refine ⟨by rw [Real.cos_neg, hcos], ?_, by linarith, ?_⟩
    · rw [Real.sin_neg, hsin, hyy, abs_of_neg hy]
      ring
    · have := Real.arccos_nonneg u.x
      linarith [Real.pi_pos]
  · push_neg at hy
    simp only [smooth_angle, if_neg (not_lt.mpr hy)]
    refine ⟨hcos, ?_, ?_, Real.arccos_le_pi u.x⟩
    · rw [hsin, hyy, abs_of_nonneg hy]
    · have := Real.arccos_nonneg u.x
      linarith [Real.pi_pos]

/-- `signed_angle_difference` is the difference normalized into `(-pi, pi]`,
so it is nonnegative exactly when the sine of the difference is. -/
theorem sad_nonneg_iff_sin (α β : ℝ) (hα1 : -Real.pi < α) (hα2 : α ≤ Real.pi)
    (hβ1 : -Real.pi < β) (hβ2 : β ≤ Real.pi) :
    (0 ≤ signed_angle_difference α β ↔ 0 ≤ Real.sin (β - α)) := by
  have hπ := Real.pi_pos
  have key : signed_angle_difference α β ≤ Real.pi ∧
      -Real.pi < signed_angle_difference α β ∧
      Real.sin (signed_angle_difference α β) = Real.sin (β - α) := by
    simp only [signed_angle_difference]
    by_cases h1 : α > β
    · rw [if_pos h1]
      by_cases h2 : β + 2 * Real.pi - α > Real.pi
      · rw [if_pos h2]
        refine ⟨by linarith, by linarith, ?_⟩
        rw [show β + 2 * Real.pi - α - 2 * Real.pi = β - α by ring]
      · rw [if_neg h2]
        refine ⟨by linarith, by linarith, ?_⟩
        rw [show β + 2 * Real.pi - α = β - α + 2 * Real.pi by ring,
          Real.sin_add_two_pi]
    · rw [if_neg h1]
      push_neg at h1
      by_cases h2 : β - α > Real.pi
      · rw [if_pos h2]
        refine ⟨by linarith, by linarith, ?_⟩
        rw [Real.sin_sub_two_pi]
      · rw [if_neg h2]
        exact ⟨by linarith, by linarith, rfl⟩
  obtain ⟨hle, hgt, hsin⟩ := key
  rw [← hsin]
  constructor
  · intro h
    exact Real.sin_nonneg_of_nonneg_of_le_pi h hle
  · intro h
    by_contra hneg
    push_neg at hneg
    have := Real.sin_neg_of_neg_of_neg_pi_lt hneg hgt
    linarith

/-- Normalizing a vector of nonzero norm yields a unit vector. -/
theorem normalize_unit (p : PointR) (hp : norm_f64 p ≠ 0) :
    (normalize_f64 p).x * (normalize_f64 p).x +
      (normalize_f64 p).y * (normalize_f64 p).y = 1 := by
  have hnn : 0 ≤ p.x * p.x + p.y * p.y :=
    add_nonneg (mul_self_nonneg _) (mul_self_nonneg _)
  have hsq : norm_f64 p * norm_f64 p = p.x * p.x + p.y * p.y :=
    Real.mul_self_sqrt hnn
  simp only [normalize_f64]
  field_simp
  linarith [hsq]

theorem norm_pos (p : PointR) (hp : norm_f64 p ≠ 0) : 0 < norm_f64 p :=
  lt_of_le_of_ne (Real.sqrt_nonneg _) (Ne.symm hp)

/-- The sign test of the signed angle between two nonzero vectors is the
sign of their cross product. -/
theorem sad_nonneg_iff_cross (p q : PointR) (hp : norm_f64 p ≠ 0)
    (hq : norm_f64 q ≠ 0) :
    (0 ≤ signed_angle_difference (smooth_angle (normalize_f64 p))
        (smooth_angle (normalize_f64 q)) ↔
      0 ≤ p.x * q.y - p.y * q.x) := by
  obtain ⟨hcp, hsp, hbp1, hbp2⟩ :=
    smooth_angle_spec (normalize_f64 p) (normalize_unit p hp)
  obtain ⟨hcq, hsq, hbq1, hbq2⟩ :=
    smooth_angle_spec (normalize_f64 q) (normalize_unit q hq)
  rw [sad_nonneg_iff_sin _ _ hbp1 hbp2 hbq1 hbq2]
  rw [Real.sin_sub, hsp, hsq, hcp, hcq]
  have hpp := norm_pos p hp
  have hqp := norm_pos q hq
  simp only [normalize_f64]
  rw [show q.y / norm_f64 q * (p.x / norm_f64 p) -
      q.x / norm_f64 q * (p.y / norm_f64 p) =
    (p.x * q.y - p.y * q.x) / (norm_f64 p * norm_f64 q) by ring]
  constructor
  · intro h
    by_contra hneg
    push_neg at hneg
    have : (p.x * q.y - p.y * q.x) / (norm_f64 p * norm_f64 q) < 0 :=
      div_neg_of_neg_of_pos hneg (mul_pos hpp hqp)
    linarith
  · intro h
    exact div_nonneg h (mul_pos hpp hqp).le

theorem retract_dab_nonneg_iff (a b d : PointR)
    (hda : norm_f64 (a.sub d) ≠ 0) (hab : norm_f64 (b.sub a) ≠ 0) :
    (0 ≤ retract_dab a b d ↔
      0 ≤ (a.x - d.x) * (b.y - a.y) - (a.y - d.y) * (b.x - a.x)) :=
  sad_nonneg_iff_cross (a.sub d) (b.sub a) hda hab

theorem retract_abc_nonneg_iff (a b c : PointR)
    (hab : norm_f64 (b.sub a) ≠ 0) (hbc : norm_f64 (c.sub b) ≠ 0) :
    (0 ≤ retract_abc a b c ↔
      0 ≤ (b.x - a.x) * (c.y - b.y) - (b.y - a.y) * (c.x - b.x)) :=
  sad_nonneg_iff_cross (b.sub a) (c.sub b) hab hbc

/-- C8, counterexample: at `a = (0,0)`, `b = (2,0)`, `c = (0,2)`,
`d = (0,1)` the signed angles DAB and ABC are both nonnegative (same sign),
yet the code returns the four control points untouched — the inner points
are not replaced by any common intersection point (they differ from each
other), refuting `retract exactly when the signs agree`: the code retracts
when the sign bits differ. -/
theorem C8_retract_counterexample :
    0 ≤ retract_dab ⟨0, 0⟩ ⟨2, 0⟩ ⟨0, 1⟩ ∧
    0 ≤ retract_abc ⟨0, 0⟩ ⟨2, 0⟩ ⟨0, 2⟩ ∧
    retract_handles ⟨0, 0⟩ ⟨2, 0⟩ ⟨0, 2⟩ ⟨0, 1⟩ =
      .ok [⟨0, 0⟩, ⟨2, 0⟩, ⟨0, 2⟩, ⟨0, 1⟩] ∧
    ∀ p : PointR,
      [(⟨0, 0⟩ : PointR), ⟨2, 0⟩, ⟨0, 2⟩, ⟨0, 1⟩] ≠ [⟨0, 0⟩, p, p, ⟨0, 1⟩] := by
  have hda : norm_f64 ((⟨0, 0⟩ : PointR).sub ⟨0, 1⟩) ≠ 0 := by
    simp only [norm_f64, PointR.sub]
    rw [Real.sqrt_ne_zero']
    norm_num
  have hab : norm_f64 ((⟨2, 0⟩ : PointR).sub ⟨0, 0⟩) ≠ 0 := by
    simp only [norm_f64, PointR.sub]
    rw [Real.sqrt_ne_zero']
    norm_num
  have hbc : norm_f64 ((⟨0, 2⟩ : PointR).sub ⟨2, 0⟩) ≠ 0 := by
    simp only [norm_f64, PointR.sub]
    rw [Real.sqrt_ne_zero']
    norm_num
  have h1 : 0 ≤ retract_dab ⟨0, 0⟩ ⟨2, 0⟩ ⟨0, 1⟩ := by
    rw [retract_dab_nonneg_iff _ _ _ hda hab]
    norm_num
  have h2 : 0 ≤ retract_abc ⟨0, 0⟩ ⟨2, 0⟩ ⟨0, 2⟩ := by
    rw [retract_abc_nonneg_iff _ _ _ hab hbc]
    norm_num
  refine ⟨h1, h2, ?_, ?_⟩
  · simp only [retract_handles]
    rw [if_pos (iff_of_true h1 h2)]
  · intro p h
    simp only [List.cons.injEq] at h
    obtain ⟨-, hb, hc, -⟩ := h
    rw [← hb] at hc
    have := congrArg PointR.x hc
    norm_num at this

/-- C8: (amended) the inner control points are replaced by
`find_intersection` of lines `ab` and `cd` exactly when the sign bits of
the signed angles DAB and ABC DIFFER (the claim has the condition
inverted); when they agree the points are returned untouched.  The parallel
half survives for a geometric reason: for nondegenerate control points with
line `ab` parallel to line `cd`, the cross products `da x ab` and
`ab x bc` coincide, the two signs therefore agree, and the code returns the
points untouched without reaching `find_intersection`'s parallel panic. -/
theorem C8_retract_amended :
    (∀ a b c d : PointR,
      (0 ≤ retract_dab a b d ↔ 0 ≤ retract_abc a b c) →
      retract_handles a b c d = .ok [a, b, c, d]) ∧
    (∀ a b c d : PointR,
      ¬ (0 ≤ retract_dab a b d ↔ 0 ≤ retract_abc a b c) →
      retract_handles a b c d =
        (smooth_find_intersection a b c d).map fun p => [a, p, p, d]) ∧
    (∀ a b c d : PointR, norm_f64 (a.sub d) ≠ 0 → norm_f64 (b.sub a) ≠ 0 →
      norm_f64 (c.sub b) ≠ 0 →
      (b.x - a.x) * (d.y - c.y) - (b.y - a.y) * (d.x - c.x) = 0 →
      retract_handles a b c d = .ok [a, b, c, d]) := by
  refine ⟨?_, ?_, ?_⟩
  · intro a b c d h
    simp only [retract_handles]
    rw [if_pos h]
  · intro a b c d h
    simp only [retract_handles]
    rw [if_neg h]
  · intro a b c d hda hab hbc hpar
    simp only [retract_handles]
    rw [if_pos ?_]
    rw [retract_dab_nonneg_iff a b d hda hab,
      retract_abc_nonneg_iff a b c hab hbc]
    rw [show (a.x - d.x) * (b.y - a.y) - (a.y - d.y) * (b.x - a.x) =
      (b.x - a.x) * (c.y - b.y) - (b.y - a.y) * (c.x - b.x) by
        linear_combination hpar]

/-- C8, witness: the amended theorem at the unit square `(0,0), (1,0),
(1,1), (0,1)`, whose sides `ab` and `cd` are parallel. -/
theorem C8_retract_amended_witness :
    retract_handles ⟨0, 0⟩ ⟨1, 0⟩ ⟨1, 1⟩ ⟨0, 1⟩ =
      .ok [⟨0, 0⟩, ⟨1, 0⟩, ⟨1, 1⟩, ⟨0, 1⟩] :=
  C8_retract_amended.2.2 ⟨0, 0⟩ ⟨1, 0⟩ ⟨1, 1⟩ ⟨0, 1⟩
    (by simp only [norm_f64, PointR.sub]
        rw [Real.sqrt_ne_zero']
        norm_num)
    (by simp only [norm_f64, PointR.sub]
        rw [Real.sqrt_ne_zero']
        norm_num)
    (by simp only [norm_f64, PointR.sub]
        rw [Real.sqrt_ne_zero']
        norm_num)
    (by norm_num)

theorem pixelSet_bounds (img : BinaryImage) (p : PointI32)
    (h : pixelSet img p) :
    0 ≤ p.x ∧ p.x < (img.width : Int) ∧ 0 ≤ p.y ∧ p.y < (img.height : Int) := by
  by_contra hc
  simp only [pixelSet, BinaryImage.get_pixel_safe] at h
  rw [if_neg] at h
  · exact Bool.false_ne_true h
  · intro hcond
    exact hc hcond

theorem procd_coords_inj (img : BinaryImage) (n m : Nat) (p q : PointI32)
    (hp : procd img n p) (hq : procd img m q)
    (hx : p.x.toNat = q.x.toNat) (hy : p.y.toNat = q.y.toNat) : p = q := by
  obtain ⟨hp1, hp2, hp3, hp4, hp5⟩ := hp
  obtain ⟨hq1, hq2, hq3, hq4, hq5⟩ := hq
  have : p.x = q.x := by omega
  have : p.y = q.y := by omega
  cases p; cases q
  simp_all

theorem adjacent_symm (diagonal : Bool) (p q : PointI32)
    (h : adjacent diagonal p q) : adjacent diagonal q p := by
  rcases h with h | ⟨hd, h1, h2⟩
  · left; omega
  · right; exact ⟨hd, by omega, by omega⟩

theorem connectedThroughSet_symm (img : BinaryImage) (diagonal : Bool)
    (p q : PointI32) (h : connectedThroughSet img diagonal p q) :
    connectedThroughSet img diagonal q p := by
  refine Relation.ReflTransGen.symmetric ?_ h
  intro a b ⟨ha, hb, hadj⟩
  exact ⟨hb, ha, adjacent_symm diagonal a b hadj⟩

theorem connectedThroughSet_single (img : BinaryImage) (diagonal : Bool)
    (p q : PointI32) (hp : pixelSet img p) (hq : pixelSet img q)
    (h : adjacent diagonal p q) : connectedThroughSet img diagonal p q :=
  Relation.ReflTransGen.single ⟨hp, hq, h⟩

theorem getD_set_self (l : List α) (i : Nat) (hi : i < l.length) (a d : α) :
    (l.set i a).getD i d = a := by
  rw [List.getD_eq_getElem?_getD, List.getElem?_set_self (by simpa using hi)]
  rfl

theorem getD_set_other (l : List α) (i j : Nat) (hij : i ≠ j) (a d : α) :
    (l.set i a).getD j d = l.getD j d := by
  rw [List.getD_eq_getElem?_getD, List.getElem?_set_ne hij,
    List.getD_eq_getElem?_getD]

theorem combine_foldl_fixed (points : List PointI32)
    (m0 : Nat → Nat → Nat) (cto : Nat) (a b : Nat) (h : m0 a b = cto) :
    points.foldl
      (fun m o => fun a b => if a = o.x.toNat ∧ b = o.y.toNat then cto
        else m a b) m0 a b = cto := by
  induction points generalizing m0 with
  | nil => exact h
  | cons o rest ih =>
    rw [List.foldl_cons]
    apply ih
    by_cases hc : a = o.x.toNat ∧ b = o.y.toNat
    · rw [if_pos hc]
    · rw [if_neg hc]; exact h

theorem combine_foldl_mem (points : List PointI32)
    (m0 : Nat → Nat → Nat) (cto : Nat) (a b : Nat)
    (h : ∃ o ∈ points, a = o.x.toNat ∧ b = o.y.toNat) :
    points.foldl
      (fun m o => fun a b => if a = o.x.toNat ∧ b = o.y.toNat then cto
        else m a b) m0 a b = cto := by
  induction points generalizing m0 with
  | nil => simp at h
  | cons o rest ih =>
    rw [List.foldl_cons]
    obtain ⟨o', ho', hco'⟩ := h
    rcases List.mem_cons.mp ho' with rfl | hmem
    · apply combine_foldl_fixed
      rw [if_pos hco']
    · exact ih _ ⟨o', hmem, hco'⟩

theorem combine_foldl_not_mem (points : List PointI32)
    (m0 : Nat → Nat → Nat) (cto : Nat) (a b : Nat)
    (h : ∀ o ∈ points, ¬ (a = o.x.toNat ∧ b = o.y.toNat)) :
    points.foldl
      (fun m o => fun a b => if a = o.x.toNat ∧ b = o.y.toNat then cto
        else m a b) m0 a b = m0 a b := by
  induction points generalizing m0 with
  | nil => rfl
  | cons o rest ih =>
    rw [List.foldl_cons]
    rw [ih _ fun o' ho' => h o' (List.mem_cons_of_mem o ho')]
    rw [if_neg (h o (List.mem_cons_self o rest))]

theorem combine_len (cs : List BinCluster) (m : Nat → Nat → Nat)
    (i j : Nat) : (combine_cluster cs m i j).1.length = cs.length := by
  simp [combine_cluster]

theorem combine_getD_from (cs : List BinCluster) (m : Nat → Nat → Nat)
    (i j : Nat) (hij : i ≠ j) (hi : i < cs.length) :
    (combine_cluster cs m i j).1.getD i default =
      { cs.getD i default with points := [] } := by
  simp only [combine_cluster]
  rw [getD_set_other _ j i (Ne.symm hij)]
  rw [getD_set_self _ i hi]

theorem combine_getD_to (cs : List BinCluster) (m : Nat → Nat → Nat)
    (i j : Nat) (hij : i ≠ j) (hj : j < cs.length) :
    (combine_cluster cs m i j).1.getD j default =
      { cs.getD j default with
        points := (cs.getD j default).points ++ (cs.getD i default).points
        rect := (cs.getD j default).rect.merge (cs.getD i default).rect } := by
  simp only [combine_cluster]
  rw [getD_set_self _ j (by simpa using hj)]
  rw [getD_set_other _ i j hij]

theorem combine_getD_other (cs : List BinCluster) (m : Nat → Nat → Nat)
    (i j k : Nat) (hki : k ≠ i) (hkj : k ≠ j) :
    (combine_cluster cs m i j).1.getD k default = cs.getD k default := by
  simp only [combine_cluster]
  rw [getD_set_other _ j k (Ne.symm hkj), getD_set_other _ i k (Ne.symm hki)]

theorem combine_map_apply_mem (cs : List BinCluster) (m : Nat → Nat → Nat)
    (i j : Nat) (a b : Nat)
    (h : ∃ o ∈ (cs.getD i default).points, a = o.x.toNat ∧ b = o.y.toNat) :
    (combine_cluster cs m i j).2 a b = j := by
  simp only [combine_cluster]
  exact combine_foldl_mem _ _ _ _ _ h

theorem combine_map_apply_not_mem (cs : List BinCluster)
    (m : Nat → Nat → Nat) (i j : Nat) (a b : Nat)
    (h : ∀ o ∈ (cs.getD i default).points, ¬ (a = o.x.toNat ∧ b = o.y.toNat)) :
    (combine_cluster cs m i j).2 a b = m a b := by
  simp only [combine_cluster]
  exact combine_foldl_not_mem _ _ _ _ _ h

theorem procd_mk (img : BinaryImage) (n : Nat) (a b : Nat)
    (ha : a < img.width) (hb : b < img.height)
    (hi : b * img.width + a < n) : procd img n ⟨a, b⟩ := by
  simp only [procd, Int.toNat_natCast]
  omega

theorem combine_preserves (img : BinaryImage) (diagonal : Bool) (n : Nat)
    (st : LabelState) (hInv : ScanInv img diagonal n st)
    (pf pt : PointI32) (hpf : procd img n pf) (hpfs : pixelSet img pf)
    (hpt : procd img n pt) (hpts : pixelSet img pt)
    (hconn : connectedThroughSet img diagonal pf pt)
    (hne : labelOf st pf ≠ labelOf st pt) (ci' : Nat)
    (hslot' : ci' = st.clusters.length ∨
      (ci' + 1 = st.clusters.length ∧
        ((combine_cluster st.clusters st.clustermap (labelOf st pf)
            (labelOf st pt)).1.getD ci' default).points = [])) :
    ScanInv img diagonal n
      ⟨(combine_cluster st.clusters st.clustermap (labelOf st pf)
          (labelOf st pt)).1, st.rect,
        (combine_cluster st.clusters st.clustermap (labelOf st pf)
          (labelOf st pt)).2, ci'⟩ ∧
    (∀ p, procd img n p → pixelSet img p →
      (combine_cluster st.clusters st.clustermap (labelOf st pf)
          (labelOf st pt)).2 p.x.toNat p.y.toNat =
        if labelOf st p = labelOf st pf then labelOf st pt
        else labelOf st p) := by
  set cf := labelOf st pf with hcf
  set ct := labelOf st pt with hct
  have hcf_lt : cf < st.clusters.length := hInv.label_lt pf hpf hpfs
  have hct_lt : ct < st.clusters.length := hInv.label_lt pt hpt hpts
  have hlen := combine_len st.clusters st.clustermap cf ct
  have hmap : ∀ p, procd img n p → pixelSet img p →
      (combine_cluster st.clusters st.clustermap cf ct).2
          p.x.toNat p.y.toNat =
        if labelOf st p = cf then ct else labelOf st p := by
    intro p hp hps
    by_cases hl : labelOf st p = cf
    · rw [if_pos hl]
      apply combine_map_apply_mem
      exact ⟨p, by rw [← hl]; exact hInv.mem_own p hp hps, rfl, rfl⟩
    · rw [if_neg hl]
      apply combine_map_apply_not_mem
      intro o ho hco
      obtain ⟨hop, hos, hol⟩ := hInv.mem_inv cf hcf_lt o ho
      exact hl (by rw [procd_coords_inj img n n p o hp hop hco.1 hco.2, hol])
  have hlab : ∀ p, procd img n p → pixelSet img p →
      labelOf ⟨(combine_cluster st.clusters st.clustermap cf ct).1, st.rect,
        (combine_cluster st.clusters st.clustermap cf ct).2, ci'⟩ p =
        if labelOf st p = cf then ct else labelOf st p := hmap
  refine ⟨⟨?_, ?_, ?_, ?_, ?_, ?_, ?_, ?_, ?_⟩, hmap⟩
  · -- label_lt
    intro p hp hps
    rw [hlab p hp hps, hlen]
    by_cases hl : labelOf st p = cf
    · rw [if_pos hl]; exact hct_lt
    · rw [if_neg hl]; exact hInv.label_lt p hp hps
  · -- mem_own
    intro p hp hps
    rw [hlab p hp hps]
    by_cases hl : labelOf st p = cf
    · rw [if_pos hl]
      rw [combine_getD_to st.clusters st.clustermap cf ct hne hct_lt]
      apply List.mem_append_right
      rw [← hl]
      exact hInv.mem_own p hp hps
    · rw [if_neg hl]
      by_cases hl2 : labelOf st p = ct
      · rw [hl2, combine_getD_to st.clusters st.clustermap cf ct hne hct_lt]
        apply List.mem_append_left
        rw [← hl2]
        exact hInv.mem_own p hp hps
      · rw [combine_getD_other st.clusters st.clustermap cf ct
          (labelOf st p) hl hl2]
        exact hInv.mem_own p hp hps
  · -- mem_inv
    intro c hc p hpmem
    simp only at hpmem
    rw [hlen] at hc
    by_cases hcc : c = cf
    · rw [hcc, combine_getD_from st.clusters st.clustermap cf ct hne
        hcf_lt] at hpmem
      simp at hpmem
    · by_cases hcc2 : c = ct
      · rw [hcc2, combine_getD_to st.clusters st.clustermap cf ct hne
          hct_lt] at hpmem
        rcases List.mem_append.mp hpmem with hmem | hmem
        · obtain ⟨h1, h2, h3⟩ := hInv.mem_inv ct hct_lt p hmem
          refine ⟨h1, h2, ?_⟩
          rw [hlab p h1 h2, if_neg (by rw [h3]; exact fun hh => hne hh.symm),
            h3, hcc2]
        · obtain ⟨h1, h2, h3⟩ := hInv.mem_inv cf hcf_lt p hmem
          refine ⟨h1, h2, ?_⟩
          rw [hlab p h1 h2, if_pos h3, hcc2]
      · rw [combine_getD_other st.clusters st.clustermap cf ct c hcc
          hcc2] at hpmem
        obtain ⟨h1, h2, h3⟩ := hInv.mem_inv c hc p hpmem
        refine ⟨h1, h2, ?_⟩
        rw [hlab p h1 h2, if_neg (by rw [h3]; exact hcc), h3]
  · -- conn
    intro p q hp hps hq hqs hl
    rw [hlab p hp hps, hlab q hq hqs] at hl
    by_cases h1 : labelOf st p = cf
    · rw [if_pos h1] at hl
      by_cases h2 : labelOf st q = cf
      · exact hInv.conn p q hp hps hq hqs (by rw [h1, h2])
      · rw [if_neg h2] at hl
        have c1 : connectedThroughSet img diagonal p pf :=
          hInv.conn p pf hp hps hpf hpfs (by rw [h1])
        have c2 : connectedThroughSet img diagonal pt q :=
          hInv.conn pt q hpt hpts hq hqs (by rw [← hl])
        exact (c1.trans hconn).trans c2
    · rw [if_neg h1] at hl
      by_cases h2 : labelOf st q = cf
      · rw [if_pos h2] at hl
        have c1 : connectedThroughSet img diagonal p pt :=
          hInv.conn p pt hp hps hpt hpts (by rw [hl])
        have c2 : connectedThroughSet img diagonal pf q :=
          hInv.conn pf q hpf hpfs hq hqs (by rw [h2])
        exact (c1.trans
          (connectedThroughSet_symm img diagonal pf pt hconn)).trans c2
      · rw [if_neg h2] at hl
        exact hInv.conn p q hp hps hq hqs hl
  · -- slot
    rcases hslot' with h | ⟨h1, h2⟩
    · left; rw [hlen]; exact h
    · right; exact ⟨by rw [hlen]; exact h1, h2⟩
  · -- adj_h
    intro a b ha hb hi hs1 hs2
    have hp1 : procd img n ⟨a, b⟩ := procd_mk img n a b (by omega) hb (by omega)
    have hp2 : procd img n ⟨a + 1, b⟩ := procd_mk img n (a + 1) b ha hb hi
    have := hInv.adj_h a b ha hb hi hs1 hs2
    rw [hlab _ hp1 hs1, hlab _ hp2 hs2, this]
  · -- adj_v
    intro a b ha hb hi hs1 hs2
    have hp1 : procd img n ⟨a, b⟩ :=
      procd_mk img n a b ha (by omega) (by nlinarith)
    have hp2 : procd img n ⟨a, b + 1⟩ := procd_mk img n a (b + 1) ha hb hi
    have := hInv.adj_v a b ha hb hi hs1 hs2
    rw [hlab _ hp1 hs1, hlab _ hp2 hs2, this]
  · -- adj_d
    intro hdg a b ha hb hi hs1 hs2
    have hp1 : procd img n ⟨a, b⟩ :=
      procd_mk img n a b (by omega) (by omega) (by nlinarith)
    have hp2 : procd img n ⟨a + 1, b + 1⟩ :=
      procd_mk img n (a + 1) (b + 1) ha hb hi
    have := hInv.adj_d hdg a b ha hb hi hs1 hs2
    rw [hlab _ hp1 hs1, hlab _ hp2 hs2, this]
  · -- adj_a
    intro hdg a b ha hb hi hs1 hs2
    have hp1 : procd img n ⟨a, b + 1⟩ :=
      procd_mk img n a (b + 1) (by omega) hb (by omega)
    have hp2 : procd img n ⟨a + 1, b⟩ :=
      procd_mk img n (a + 1) b ha (by omega) (by nlinarith)
    have := hInv.adj_a hdg a b ha hb hi hs1 hs2
    rw [hlab _ hp1 hs1, hlab _ hp2 hs2, this]

theorem row_uniq (w a b c d : Nat) (hb : b < w) (hd : d < w)
    (h : a * w + b = c * w + d) : a = c ∧ b = d := by
  have hac : a = c := by
    by_contra hne
    rcases Nat.lt_or_ge a c with hlt | hge
    · have h1 : (a + 1) * w ≤ c * w := Nat.mul_le_mul_right w hlt
      nlinarith
    · have hgt : c < a := by omega
      have h1 : (c + 1) * w ≤ a * w := Nat.mul_le_mul_right w hgt
      nlinarith
  subst hac
  omega

theorem procd_mono (img : BinaryImage) (n : Nat) (p : PointI32)
    (h : procd img n p) : procd img (n + 1) p := by
  obtain ⟨h1, h2, h3, h4, h5⟩ := h
  exact ⟨h1, h2, h3, h4, by omega⟩

theorem procd_succ (img : BinaryImage) (n xn yn : Nat)
    (hx : xn < img.width) (hy : yn < img.height)
    (hxy : yn * img.width + xn = n) (p : PointI32) :
    procd img (n + 1) p ↔ procd img n p ∨ p = ⟨xn, yn⟩ := by
  obtain ⟨px, py⟩ := p
  simp only [procd, PointI32.mk.injEq]
  constructor
  · intro ⟨h1, h2, h3, h4, h5⟩
    by_cases hlt : py.toNat * img.width + px.toNat < n
    · exact Or.inl ⟨h1, h2, h3, h4, hlt⟩
    · right
      have hidx : py.toNat * img.width + px.toNat = n := by omega
      have hpx : px.toNat < img.width := by omega
      obtain ⟨hu1, hu2⟩ := row_uniq img.width py.toNat px.toNat yn xn hpx hx
        (by omega)
      constructor
      · omega
      · omega
  · intro h
    rcases h with ⟨h1, h2, h3, h4, h5⟩ | ⟨h1, h2⟩
    · exact ⟨h1, h2, h3, h4, by omega⟩
    · subst h1; subst h2
      simp only [Int.toNat_natCast]
      refine ⟨by positivity, by exact_mod_cast hx, by positivity,
        by exact_mod_cast hy, by omega⟩

theorem scan_inv_zero (img : BinaryImage) (diagonal : Bool) :
    ScanInv img diagonal 0 ⟨[], ⟨0, 0, 0, 0⟩, fun _ _ => 0, 0⟩ := by
  refine ⟨?_, ?_, ?_, ?_, ?_, ?_, ?_, ?_, ?_⟩
  · intro p hp _; exact absurd hp.2.2.2.2 (by omega)
  · intro p hp _; exact absurd hp.2.2.2.2 (by omega)
  · intro c hc; simp at hc
  · intro p q hp _ _ _ _; exact absurd hp.2.2.2.2 (by omega)
  · left; rfl
  · intro a b _ _ hi; omega
  · intro a b _ _ hi; omega
  · intro _ a b _ _ hi; omega
  · intro _ a b _ _ hi; omega

theorem assign_preserves (img : BinaryImage) (diagonal : Bool) (n : Nat)
    (mid : LabelState) (hmid : ScanInv img diagonal n mid)
    (xn yn : Nat) (hx : xn < img.width) (hy : yn < img.height)
    (hxy : yn * img.width + xn = n)
    (hv : pixelSet img ⟨xn, yn⟩) (target : Nat) (q : PointI32)
    (hq : procd img n q) (hqs : pixelSet img q)
    (hql : labelOf mid q = target)
    (hadj : adjacent diagonal ⟨xn, yn⟩ q)
    (hL : ∀ a b : Nat, a + 1 = xn → b = yn → pixelSet img ⟨a, b⟩ →
      labelOf mid ⟨a, b⟩ = target)
    (hU : ∀ a b : Nat, a = xn → b + 1 = yn → pixelSet img ⟨a, b⟩ →
      labelOf mid ⟨a, b⟩ = target)
    (hUL : diagonal = true → ∀ a b : Nat, a + 1 = xn → b + 1 = yn →
      pixelSet img ⟨a, b⟩ → labelOf mid ⟨a, b⟩ = target)
    (hUR : diagonal = true → ∀ a b : Nat, a + 1 = xn → b + 1 = yn →
      pixelSet img ⟨a, b + 1⟩ → pixelSet img ⟨a + 1, b⟩ →
      labelOf mid ⟨a, b + 1⟩ = labelOf mid ⟨a + 1, b⟩)
    (rect1 : BoundingRect) :
    ScanInv img diagonal (n + 1)
      ⟨mid.clusters.set target
          ((mid.clusters.getD target default).add ⟨xn, yn⟩), rect1,
        fun a b => if a = xn ∧ b = yn then target else mid.clustermap a b,
        mid.clusterindex⟩ := by
  have htar_lt : target < mid.clusters.length := hql ▸ hmid.label_lt q hq hqs
  have hpos_procd : procd img (n + 1) (⟨xn, yn⟩ : PointI32) :=
    procd_mk img (n + 1) xn yn hx hy (by omega)
  have hcoords : ∀ p : PointI32, procd img n p →
      ¬ (p.x.toNat = xn ∧ p.y.toNat = yn) := by
    intro p hp ⟨h1, h2⟩
    obtain ⟨_, _, _, _, h5⟩ := hp
    rw [h1, h2] at h5
    omega
  have hlab_old : ∀ p : PointI32, procd img n p →
      labelOf ⟨mid.clusters.set target
          ((mid.clusters.getD target default).add ⟨xn, yn⟩), rect1,
        fun a b => if a = xn ∧ b = yn then target else mid.clustermap a b,
        mid.clusterindex⟩ p = labelOf mid p := by
    intro p hp
    simp only [labelOf]
    rw [if_neg (hcoords p hp)]
  have hlab_pos : labelOf ⟨mid.clusters.set target
          ((mid.clusters.getD target default).add ⟨xn, yn⟩), rect1,
        fun a b => if a = xn ∧ b = yn then target else mid.clustermap a b,
        mid.clusterindex⟩ ⟨xn, yn⟩ = target := by
    simp [labelOf]
  have hlen : (mid.clusters.set target
      ((mid.clusters.getD target default).add ⟨xn, yn⟩)).length =
      mid.clusters.length := List.length_set mid.clusters target _
  refine ⟨?_, ?_, ?_, ?_, ?_, ?_, ?_, ?_, ?_⟩
  · -- label_lt
    intro p hp hps
    rcases (procd_succ img n xn yn hx hy hxy p).mp hp with hold | rfl
    · rw [hlab_old p hold]
      simp only [hlen]
      exact hmid.label_lt p hold hps
    · rw [hlab_pos]
      simp only [hlen]
      exact htar_lt
  · -- mem_own
    intro p hp hps
    rcases (procd_succ img n xn yn hx hy hxy p).mp hp with hold | rfl
    · rw [hlab_old p hold]
      by_cases hc : labelOf mid p = target
      · rw [hc]
        simp only
        rw [getD_set_self _ target htar_lt]
        simp only [BinCluster.add]
        exact List.mem_append_left _ (hc ▸ hmid.mem_own p hold hps)
      · simp only
        rw [getD_set_other _ target _ (fun hh => hc hh.symm)]
        exact hmid.mem_own p hold hps
    · rw [hlab_pos]
      simp only
      rw [getD_set_self _ target htar_lt]
      simp only [BinCluster.add]
      exact List.mem_append_right _ (List.mem_singleton_self _)
  · -- mem_inv
    intro c hc p hpmem
    simp only [hlen] at hc
    simp only at hpmem
    by_cases hcc : c = target
    · subst hcc
      rw [getD_set_self _ c htar_lt] at hpmem
      simp only [BinCluster.add] at hpmem
      rcases List.mem_append.mp hpmem with hmem | hmem
      · obtain ⟨h1, h2, h3⟩ := hmid.mem_inv c hc p hmem
        exact ⟨procd_mono img n p h1, h2, by rw [hlab_old p h1, h3]⟩
      · rw [List.mem_singleton.mp hmem]
        exact ⟨hpos_procd, hv, hlab_pos⟩
    · rw [getD_set_other _ target c (fun hh => hcc hh.symm)] at hpmem
      obtain ⟨h1, h2, h3⟩ := hmid.mem_inv c hc p hpmem
      exact ⟨procd_mono img n p h1, h2, by rw [hlab_old p h1, h3]⟩
  · -- conn
    intro p p2 hp hps hp2 hp2s hl
    have hconnq : connectedThroughSet img diagonal (⟨xn, yn⟩ : PointI32) q :=
      connectedThroughSet_single img diagonal _ q hv hqs hadj
    rcases (procd_succ img n xn yn hx hy hxy p).mp hp with hold | rfl <;>
      rcases (procd_succ img n xn yn hx hy hxy p2).mp hp2 with hold2 | rfl
    · rw [hlab_old p hold, hlab_old p2 hold2] at hl
      exact hmid.conn p p2 hold hps hold2 hp2s hl
    · rw [hlab_old p hold, hlab_pos] at hl
      have hcq : connectedThroughSet img diagonal p q :=
        hmid.conn p q hold hps hq hqs (by rw [hl, hql])
      exact hcq.trans (connectedThroughSet_symm img diagonal _ _ hconnq)
    · rw [hlab_pos, hlab_old p2 hold2] at hl
      have hcq : connectedThroughSet img diagonal q p2 :=
        hmid.conn q p2 hq hqs hold2 hp2s (by rw [hql, hl])
      exact hconnq.trans hcq
    · exact Relation.ReflTransGen.refl
  · -- slot
    rcases hmid.slot with h | ⟨h1, h2⟩
    · left; simp only [hlen]; exact h
    · right
      refine ⟨by simp only [hlen]; exact h1, ?_⟩
      have hne : target ≠ mid.clusterindex := by
        intro hh
        have := hmid.mem_own q hq hqs
        rw [hql, hh, h2] at this
        simp at this
      simp only
      rw [getD_set_other _ target _ hne]
      exact h2
  · -- adj_h
    intro a b ha hb hi hs1 hs2
    rcases Nat.lt_or_ge (b * img.width + (a + 1)) n with hlt | hge
    · have hp1 : procd img n ⟨a, b⟩ :=
        procd_mk img n a b (by omega) hb (by omega)
      have hp2 : procd img n ⟨a + 1, b⟩ := procd_mk img n (a + 1) b ha hb hlt
      rw [hlab_old _ hp1, hlab_old _ hp2]
      exact hmid.adj_h a b ha hb hlt hs1 hs2
    · have hidx : b * img.width + (a + 1) = n := by omega
      obtain ⟨hu1, hu2⟩ := row_uniq img.width b (a + 1) yn xn ha hx
        (by omega)
      have hp1 : procd img n ⟨a, b⟩ :=
        procd_mk img n a b (by omega) hb (by omega)
      rw [hlab_old _ hp1]
      have hpt2 : (⟨(a : Int) + 1, (b : Int)⟩ : PointI32) =
          (⟨(xn : Int), (yn : Int)⟩ : PointI32) := by
        simp only [PointI32.mk.injEq]
        omega
      rw [hpt2, hlab_pos]
      exact hL a b (by omega) (by omega) hs1
  · -- adj_v
    intro a b ha hb hi hs1 hs2
    rcases Nat.lt_or_ge ((b + 1) * img.width + a) n with hlt | hge
    · have hp1 : procd img n ⟨a, b⟩ :=
        procd_mk img n a b ha (by omega) (by nlinarith)
      have hp2 : procd img n ⟨a, b + 1⟩ := procd_mk img n a (b + 1) ha hb hlt
      rw [hlab_old _ hp1, hlab_old _ hp2]
      exact hmid.adj_v a b ha hb hlt hs1 hs2
    · have hidx : (b + 1) * img.width + a = n := by omega
      obtain ⟨hu1, hu2⟩ := row_uniq img.width (b + 1) a yn xn ha hx
        (by omega)
      have hp1 : procd img n ⟨a, b⟩ :=
        procd_mk img n a b ha (by omega) (by nlinarith)
      rw [hlab_old _ hp1]
      have hpt2 : (⟨(a : Int), (b : Int) + 1⟩ : PointI32) =
          (⟨(xn : Int), (yn : Int)⟩ : PointI32) := by
        simp only [PointI32.mk.injEq]
        omega
      rw [hpt2, hlab_pos]
      exact hU a b (by omega) (by omega) hs1
  · -- adj_d
    intro hdg a b ha hb hi hs1 hs2
    rcases Nat.lt_or_ge ((b + 1) * img.width + (a + 1)) n with hlt | hge
    · have hp1 : procd img n ⟨a, b⟩ :=
        procd_mk img n a b (by omega) (by omega) (by nlinarith)
      have hp2 : procd img n ⟨a + 1, b + 1⟩ :=
        procd_mk img n (a + 1) (b + 1) ha hb hlt
      rw [hlab_old _ hp1, hlab_old _ hp2]
      exact hmid.adj_d hdg a b ha hb hlt hs1 hs2
    · have hidx : (b + 1) * img.width + (a + 1) = n := by omega
      obtain ⟨hu1, hu2⟩ := row_uniq img.width (b + 1) (a + 1) yn xn ha hx
        (by omega)
      have hp1 : procd img n ⟨a, b⟩ :=
        procd_mk img n a b (by omega) (by omega) (by nlinarith)
      rw [hlab_old _ hp1]
      have hpt2 : (⟨(a : Int) + 1, (b : Int) + 1⟩ : PointI32) =
          (⟨(xn : Int), (yn : Int)⟩ : PointI32) := by
        simp only [PointI32.mk.injEq]
        omega
      rw [hpt2, hlab_pos]
      exact hUL hdg a b (by omega) (by omega) hs1
  · -- adj_a
    intro hdg a b ha hb hi hs1 hs2
    have hexp : (b + 1) * img.width = b * img.width + img.width := by ring
    rcases Nat.lt_or_ge ((b + 1) * img.width + (a + 1)) n with hlt | hge
    · have hp1 : procd img n ⟨(a : Int), (b : Int) + 1⟩ := by
        have h := procd_mk img n a (b + 1) (by omega) hb (by omega)
        exact_mod_cast h
      have hp2 : procd img n ⟨(a : Int) + 1, (b : Int)⟩ := by
        have h := procd_mk img n (a + 1) b ha (by omega) (by omega)
        exact_mod_cast h
      rw [hlab_old _ hp1, hlab_old _ hp2]
      exact hmid.adj_a hdg a b ha hb hlt hs1 hs2
    · have hidx : (b + 1) * img.width + (a + 1) = n := by omega
      obtain ⟨hu1, hu2⟩ := row_uniq img.width (b + 1) (a + 1) yn xn ha hx
        (by omega)
      have hp1 : procd img n ⟨(a : Int), (b : Int) + 1⟩ := by
        have h := procd_mk img n a (b + 1) (by omega) hb (by omega)
        exact_mod_cast h
      have hp2 : procd img n ⟨(a : Int) + 1, (b : Int)⟩ := by
        have h := procd_mk img n (a + 1) b ha (by omega) (by omega)
        exact_mod_cast h
      rw [hlab_old _ hp1, hlab_old _ hp2]
      exact hUR hdg a b (by omega) (by omega) hs1 hs2

theorem getD_append_left (l l2 : List α) (j : Nat) (h : j < l.length)
    (d : α) : (l ++ l2).getD j d = l.getD j d := by
  rw [List.getD_eq_getElem?_getD, List.getElem?_append_left h,
    List.getD_eq_getElem?_getD]

theorem getD_snoc_self (l : List α) (x d : α) :
    (l ++ [x]).getD l.length d = x := by
  rw [List.getD_eq_getElem?_getD, List.getElem?_append_right (le_refl _)]
  simp

theorem fresh_preserves (img : BinaryImage) (diagonal : Bool) (n : Nat)
    (mid : LabelState) (hmid : ScanInv img diagonal n mid)
    (xn yn : Nat) (hx : xn < img.width) (hy : yn < img.height)
    (hxy : yn * img.width + xn = n)
    (hv : pixelSet img ⟨xn, yn⟩)
    (hnL : ∀ a b : Nat, a + 1 = xn → b = yn → ¬ pixelSet img ⟨a, b⟩)
    (hnU : ∀ a b : Nat, a = xn → b + 1 = yn → ¬ pixelSet img ⟨a, b⟩)
    (hnUL : diagonal = true → ∀ a b : Nat, a + 1 = xn → b + 1 = yn →
      ¬ pixelSet img ⟨a, b⟩)
    (rect1 : BoundingRect) :
    ScanInv img diagonal (n + 1)
      ⟨(if mid.clusterindex < mid.clusters.length
          then mid.clusters.set mid.clusterindex
            (BinCluster.add ⟨[], ⟨0, 0, 0, 0⟩⟩ ⟨xn, yn⟩)
          else mid.clusters ++ [BinCluster.add ⟨[], ⟨0, 0, 0, 0⟩⟩ ⟨xn, yn⟩]),
        rect1,
        fun a b => if a = xn ∧ b = yn then mid.clusterindex
          else mid.clustermap a b,
        mid.clusterindex + 1⟩ := by
  set newc := BinCluster.add ⟨[], ⟨0, 0, 0, 0⟩⟩ (⟨xn, yn⟩ : PointI32)
    with hnewc
  set cs1 := if mid.clusterindex < mid.clusters.length
    then mid.clusters.set mid.clusterindex newc
    else mid.clusters ++ [newc] with hcs1
  have hpos_procd : procd img (n + 1) (⟨xn, yn⟩ : PointI32) :=
    procd_mk img (n + 1) xn yn hx hy (by omega)
  have hcoords : ∀ p : PointI32, procd img n p →
      ¬ (p.x.toNat = xn ∧ p.y.toNat = yn) := by
    intro p hp ⟨h1, h2⟩
    obtain ⟨_, _, _, _, h5⟩ := hp
    rw [h1, h2] at h5
    omega
  have hfresh : ∀ p : PointI32, procd img n p → pixelSet img p →
      labelOf mid p ≠ mid.clusterindex := by
    intro p hp hps hl
    rcases hmid.slot with h | ⟨h1, h2⟩
    · have := hmid.label_lt p hp hps
      omega
    · have := hmid.mem_own p hp hps
      rw [hl, h2] at this
      simp at this
  have hlen1 : cs1.length = if mid.clusterindex < mid.clusters.length
      then mid.clusters.length else mid.clusters.length + 1 := by
    rw [hcs1]
    by_cases hc : mid.clusterindex < mid.clusters.length
    · rw [if_pos hc, if_pos hc, List.length_set]
    · rw [if_neg hc, if_neg hc, List.length_append, List.length_singleton]
  have hlen_lt : mid.clusters.length ≤ cs1.length := by
    rw [hlen1]; by_cases hc : mid.clusterindex < mid.clusters.length
    · rw [if_pos hc]
    · rw [if_neg hc]; omega
  have hci_lt : mid.clusterindex < cs1.length := by
    rw [hlen1]
    by_cases hc : mid.clusterindex < mid.clusters.length
    · rw [if_pos hc]; exact hc
    · rw [if_neg hc]
      rcases hmid.slot with h | ⟨h1, _⟩ <;> omega
  have hgetD_ci : cs1.getD mid.clusterindex default = newc := by
    rw [hcs1]
    by_cases hc : mid.clusterindex < mid.clusters.length
    · rw [if_pos hc]
      exact getD_set_self _ mid.clusterindex hc newc default
    · rw [if_neg hc]
      rcases hmid.slot with h | ⟨h1, _⟩
      · rw [h]
        exact getD_snoc_self _ newc default
      · exfalso; omega
  have hgetD_other : ∀ c, c ≠ mid.clusterindex → c < mid.clusters.length →
      cs1.getD c default = mid.clusters.getD c default := by
    intro c hcne hclt
    rw [hcs1]
    by_cases hc : mid.clusterindex < mid.clusters.length
    · rw [if_pos hc]
      exact getD_set_other _ mid.clusterindex c (fun hh => hcne hh.symm)
        newc default
    · rw [if_neg hc]
      exact getD_append_left _ _ c hclt default
  have hlab_old : ∀ p : PointI32, procd img n p →
      labelOf ⟨cs1, rect1,
        fun a b => if a = xn ∧ b = yn then mid.clusterindex
          else mid.clustermap a b,
        mid.clusterindex + 1⟩ p = labelOf mid p := by
    intro p hp
    simp only [labelOf]
    rw [if_neg (hcoords p hp)]
  have hlab_pos : labelOf ⟨cs1, rect1,
      fun a b => if a = xn ∧ b = yn then mid.clusterindex
        else mid.clustermap a b,
      mid.clusterindex + 1⟩ ⟨xn, yn⟩ = mid.clusterindex := by
    simp [labelOf]
  refine ⟨?_, ?_, ?_, ?_, ?_, ?_, ?_, ?_, ?_⟩
  · -- label_lt
    intro p hp hps
    rcases (procd_succ img n xn yn hx hy hxy p).mp hp with hold | rfl
    · rw [hlab_old p hold]
      exact lt_of_lt_of_le (hmid.label_lt p hold hps) hlen_lt
    · rw [hlab_pos]
      exact hci_lt
  · -- mem_own
    intro p hp hps
    rcases (procd_succ img n xn yn hx hy hxy p).mp hp with hold | rfl
    · rw [hlab_old p hold]
      simp only
      rw [hgetD_other _ (hfresh p hold hps) (hmid.label_lt p hold hps)]
      exact hmid.mem_own p hold hps
    · rw [hlab_pos]
      simp only
      rw [hgetD_ci, hnewc]
      simp [BinCluster.add]
  · -- mem_inv
    intro c hc p hpmem
    simp only at hpmem
    by_cases hcc : c = mid.clusterindex
    · rw [hcc, hgetD_ci, hnewc] at hpmem
      simp only [BinCluster.add] at hpmem
      simp only [List.nil_append, List.mem_singleton] at hpmem
      rw [hpmem, hcc]
      exact ⟨hpos_procd, hv, hlab_pos⟩
    · have hclt : c < mid.clusters.length := by
        rw [hlen1] at hc
        by_cases h2 : mid.clusterindex < mid.clusters.length
        · rw [if_pos h2] at hc; exact hc
        · rw [if_neg h2] at hc
          rcases hmid.slot with h | ⟨h1, _⟩ <;> omega
      rw [hgetD_other _ hcc hclt] at hpmem
      obtain ⟨h1, h2, h3⟩ := hmid.mem_inv c hclt p hpmem
      exact ⟨procd_mono img n p h1, h2, by rw [hlab_old p h1, h3]⟩
  · -- conn
    intro p p2 hp hps hp2 hp2s hl
    rcases (procd_succ img n xn yn hx hy hxy p).mp hp with hold | rfl <;>
      rcases (procd_succ img n xn yn hx hy hxy p2).mp hp2 with hold2 | rfl
    · rw [hlab_old p hold, hlab_old p2 hold2] at hl
      exact hmid.conn p p2 hold hps hold2 hp2s hl
    · rw [hlab_old p hold, hlab_pos] at hl
      exact absurd hl (hfresh p hold hps)
    · rw [hlab_pos, hlab_old p2 hold2] at hl
      exact absurd hl.symm (hfresh p2 hold2 hp2s)
    · exact Relation.ReflTransGen.refl
  · -- slot
    left
    simp only
    rw [hlen1]
    by_cases hc : mid.clusterindex < mid.clusters.length
    · rw [if_pos hc]
      rcases hmid.slot with h | ⟨h1, _⟩ <;> omega
    · rw [if_neg hc]
      rcases hmid.slot with h | ⟨h1, _⟩ <;> omega
  · -- adj_h
    intro a b ha hb hi hs1 hs2
    rcases Nat.lt_or_ge (b * img.width + (a + 1)) n with hlt | hge
    · have hp1 : procd img n ⟨a, b⟩ :=
        procd_mk img n a b (by omega) hb (by omega)
      have hp2 : procd img n ⟨(a : Int) + 1, (b : Int)⟩ := by
        have h := procd_mk img n (a + 1) b ha hb hlt
        exact_mod_cast h
      rw [hlab_old _ hp1, hlab_old _ hp2]
      exact hmid.adj_h a b ha hb hlt hs1 hs2
    · exfalso
      have hidx : b * img.width + (a + 1) = n := by omega
      obtain ⟨hu1, hu2⟩ := row_uniq img.width b (a + 1) yn xn ha hx
        (by omega)
      exact hnL a b (by omega) (by omega) hs1
  · -- adj_v
    intro a b ha hb hi hs1 hs2
    have hexp : (b + 1) * img.width = b * img.width + img.width := by ring
    rcases Nat.lt_or_ge ((b + 1) * img.width + a) n with hlt | hge
    · have hp1 : procd img n ⟨a, b⟩ :=
        procd_mk img n a b ha (by omega) (by omega)
      have hp2 : procd img n ⟨(a : Int), (b : Int) + 1⟩ := by
        have h := procd_mk img n a (b + 1) ha hb hlt
        exact_mod_cast h
      rw [hlab_old _ hp1, hlab_old _ hp2]
      exact hmid.adj_v a b ha hb hlt hs1 hs2
    · exfalso
      have hidx : (b + 1) * img.width + a = n := by omega
      obtain ⟨hu1, hu2⟩ := row_uniq img.width (b + 1) a yn xn ha hx
        (by omega)
      exact hnU a b (by omega) (by omega) hs1
  · -- adj_d
    intro hdg a b ha hb hi hs1 hs2
    have hexp : (b + 1) * img.width = b * img.width + img.width := by ring
    rcases Nat.lt_or_ge ((b + 1) * img.width + (a + 1)) n with hlt | hge
    · have hp1 : procd img n ⟨a, b⟩ :=
        procd_mk img n a b (by omega) (by omega) (by omega)
      have hp2 : procd img n ⟨(a : Int) + 1, (b : Int) + 1⟩ := by
        have h := procd_mk img n (a + 1) (b + 1) ha hb hlt
        exact_mod_cast h
      rw [hlab_old _ hp1, hlab_old _ hp2]
      exact hmid.adj_d hdg a b ha hb hlt hs1 hs2
    · exfalso
      have hidx : (b + 1) * img.width + (a + 1) = n := by omega
      obtain ⟨hu1, hu2⟩ := row_uniq img.width (b + 1) (a + 1) yn xn ha hx
        (by omega)
      exact hnUL hdg a b (by omega) (by omega) hs1
  · -- adj_a
    intro hdg a b ha hb hi hs1 hs2
    have hexp : (b + 1) * img.width = b * img.width + img.width := by ring
    rcases Nat.lt_or_ge ((b + 1) * img.width + (a + 1)) n with hlt | hge
    · have hp1 : procd img n ⟨(a : Int), (b : Int) + 1⟩ := by
        have h := procd_mk img n a (b + 1) (by omega) hb (by omega)
        exact_mod_cast h
      have hp2 : procd img n ⟨(a : Int) + 1, (b : Int)⟩ := by
        have h := procd_mk img n (a + 1) b ha (by omega) (by omega)
        exact_mod_cast h
      rw [hlab_old _ hp1, hlab_old _ hp2]
      exact hmid.adj_a hdg a b ha hb hlt hs1 hs2
    · exfalso
      have hidx : (b + 1) * img.width + (a + 1) = n := by omega
      obtain ⟨hu1, hu2⟩ := row_uniq img.width (b + 1) (a + 1) yn xn ha hx
        (by omega)
      exact hnU (a + 1) b (by omega) (by omega) (by exact_mod_cast hs2)

theorem unset_preserves (img : BinaryImage) (diagonal : Bool) (n : Nat)
    (mid : LabelState) (hmid : ScanInv img diagonal n mid)
    (xn yn : Nat) (hx : xn < img.width) (hy : yn < img.height)
    (hxy : yn * img.width + xn = n)
    (hnv : ¬ pixelSet img ⟨xn, yn⟩)
    (hUR : diagonal = true → ∀ a b : Nat, a + 1 = xn → b + 1 = yn →
      pixelSet img ⟨a, b + 1⟩ → pixelSet img ⟨a + 1, b⟩ →
      labelOf mid ⟨a, b + 1⟩ = labelOf mid ⟨a + 1, b⟩) :
    ScanInv img diagonal (n + 1) mid := by
  have hold : ∀ p : PointI32, procd img (n + 1) p → pixelSet img p →
      procd img n p := by
    intro p hp hps
    rcases (procd_succ img n xn yn hx hy hxy p).mp hp with hold | rfl
    · exact hold
    · exact absurd hps hnv
  refine ⟨?_, ?_, ?_, ?_, hmid.slot, ?_, ?_, ?_, ?_⟩
  · intro p hp hps
    exact hmid.label_lt p (hold p hp hps) hps
  · intro p hp hps
    exact hmid.mem_own p (hold p hp hps) hps
  · intro c hc p hpmem
    obtain ⟨h1, h2, h3⟩ := hmid.mem_inv c hc p hpmem
    exact ⟨procd_mono img n p h1, h2, h3⟩
  · intro p q hp hps hq hqs hl
    exact hmid.conn p q (hold p hp hps) hps (hold q hq hqs) hqs hl
  · -- adj_h
    intro a b ha hb hi hs1 hs2
    rcases Nat.lt_or_ge (b * img.width + (a + 1)) n with hlt | hge
    · exact hmid.adj_h a b ha hb hlt hs1 hs2
    · exfalso
      have hidx : b * img.width + (a + 1) = n := by omega
      obtain ⟨hu1, hu2⟩ := row_uniq img.width b (a + 1) yn xn ha hx
        (by omega)
      apply hnv
      rw [show (⟨(xn : Int), (yn : Int)⟩ : PointI32) =
        ⟨(a : Int) + 1, (b : Int)⟩ by simp only [PointI32.mk.injEq]; omega]
      exact hs2
  · -- adj_v
    intro a b ha hb hi hs1 hs2
    rcases Nat.lt_or_ge ((b + 1) * img.width + a) n with hlt | hge
    · exact hmid.adj_v a b ha hb hlt hs1 hs2
    · exfalso
      have hidx : (b + 1) * img.width + a = n := by omega
      obtain ⟨hu1, hu2⟩ := row_uniq img.width (b + 1) a yn xn ha hx
        (by omega)
      apply hnv
      rw [show (⟨(xn : Int), (yn : Int)⟩ : PointI32) =
        ⟨(a : Int), (b : Int) + 1⟩ by simp only [PointI32.mk.injEq]; omega]
      exact hs2
  · -- adj_d
    intro hdg a b ha hb hi hs1 hs2
    rcases Nat.lt_or_ge ((b + 1) * img.width + (a + 1)) n with hlt | hge
    · exact hmid.adj_d hdg a b ha hb hlt hs1 hs2
    · exfalso
      have hidx : (b + 1) * img.width + (a + 1) = n := by omega
      obtain ⟨hu1, hu2⟩ := row_uniq img.width (b + 1) (a + 1) yn xn ha hx
        (by omega)
      apply hnv
      rw [show (⟨(xn : Int), (yn : Int)⟩ : PointI32) =
        ⟨(a : Int) + 1, (b : Int) + 1⟩ by simp only [PointI32.mk.injEq]; omega]
      exact hs2
  · -- adj_a
    intro hdg a b ha hb hi hs1 hs2
    rcases Nat.lt_or_ge ((b + 1) * img.width + (a + 1)) n with hlt | hge
    · exact hmid.adj_a hdg a b ha hb hlt hs1 hs2
    · have hidx : (b + 1) * img.width + (a + 1) = n := by omega
      obtain ⟨hu1, hu2⟩ := row_uniq img.width (b + 1) (a + 1) yn xn ha hx
        (by omega)
      exact hUR hdg a b (by omega) (by omega) hs1 hs2

theorem procd_up (img : BinaryImage) (n xn yn : Nat) (hx : xn < img.width)
    (hy : yn < img.height) (hyn1 : 0 < yn)
    (hxy : yn * img.width + xn = n) :
    procd img n ⟨(xn : Int), (yn : Int) - 1⟩ := by
  have hexp : yn * img.width = (yn - 1) * img.width + img.width := by
    have h1 : yn - 1 + 1 = yn := by omega
    calc yn * img.width = (yn - 1 + 1) * img.width := by rw [h1]
    _ = (yn - 1) * img.width + img.width := by ring
  simp only [procd]
  refine ⟨by positivity, by exact_mod_cast hx, by omega,
    by exact_mod_cast (by omega : (yn : Int) - 1 < (img.height : Int)), ?_⟩
  rw [Int.toNat_natCast, show ((yn : Int) - 1).toNat = yn - 1 by omega]
  omega

theorem procd_left (img : BinaryImage) (n xn yn : Nat) (hx : xn < img.width)
    (hy : yn < img.height) (hxn1 : 0 < xn)
    (hxy : yn * img.width + xn = n) :
    procd img n ⟨(xn : Int) - 1, (yn : Int)⟩ := by
  simp only [procd]
  refine ⟨by omega, by exact_mod_cast (by omega : (xn : Int) - 1 <
    (img.width : Int)), by positivity, by exact_mod_cast hy, ?_⟩
  rw [Int.toNat_natCast, show ((xn : Int) - 1).toNat = xn - 1 by omega]
  omega

theorem procd_ul (img : BinaryImage) (n xn yn : Nat) (hx : xn < img.width)
    (hy : yn < img.height) (hxn1 : 0 < xn) (hyn1 : 0 < yn)
    (hxy : yn * img.width + xn = n) :
    procd img n ⟨(xn : Int) - 1, (yn : Int) - 1⟩ := by
  have hexp : yn * img.width = (yn - 1) * img.width + img.width := by
    have h1 : yn - 1 + 1 = yn := by omega
    calc yn * img.width = (yn - 1 + 1) * img.width := by rw [h1]
    _ = (yn - 1) * img.width + img.width := by ring
  simp only [procd]
  refine ⟨by omega, by exact_mod_cast (by omega : (xn : Int) - 1 <
      (img.width : Int)), by omega,
    by exact_mod_cast (by omega : (yn : Int) - 1 < (img.height : Int)), ?_⟩
  rw [show ((xn : Int) - 1).toNat = xn - 1 by omega,
    show ((yn : Int) - 1).toNat = yn - 1 by omega]
  omega

theorem labelOf_pos_pt (st : LabelState) (xn yn : Nat) :
    labelOf st ⟨(xn : Int), (yn : Int)⟩ = st.clustermap xn yn := by
  simp only [labelOf, Int.toNat_natCast]

theorem labelOf_up_pt (st : LabelState) (xn yn : Nat) (hyn1 : 0 < yn) :
    labelOf st ⟨(xn : Int), (yn : Int) - 1⟩ =
      st.clustermap xn (yn - 1) := by
  simp only [labelOf, Int.toNat_natCast]
  rw [show ((yn : Int) - 1).toNat = yn - 1 by omega]

theorem labelOf_left_pt (st : LabelState) (xn yn : Nat) (hxn1 : 0 < xn) :
    labelOf st ⟨(xn : Int) - 1, (yn : Int)⟩ =
      st.clustermap (xn - 1) yn := by
  simp only [labelOf, Int.toNat_natCast]
  rw [show ((xn : Int) - 1).toNat = xn - 1 by omega]

theorem labelOf_ul_pt (st : LabelState) (xn yn : Nat) (hxn1 : 0 < xn)
    (hyn1 : 0 < yn) :
    labelOf st ⟨(xn : Int) - 1, (yn : Int) - 1⟩ =
      st.clustermap (xn - 1) (yn - 1) := by
  simp only [labelOf]
  rw [show ((xn : Int) - 1).toNat = xn - 1 by omega,
    show ((yn : Int) - 1).toNat = yn - 1 by omega]

theorem adj_pos_up (diagonal : Bool) (xn yn : Nat) :
    adjacent diagonal ⟨(xn : Int), (yn : Int)⟩
      ⟨(xn : Int), (yn : Int) - 1⟩ :=
  Or.inl (by
    show ((xn : Int) - xn).natAbs + ((yn : Int) - ((yn : Int) - 1)).natAbs = 1
    omega)

theorem adj_pos_left (diagonal : Bool) (xn yn : Nat) :
    adjacent diagonal ⟨(xn : Int), (yn : Int)⟩
      ⟨(xn : Int) - 1, (yn : Int)⟩ :=
  Or.inl (by
    show ((xn : Int) - ((xn : Int) - 1)).natAbs +
      ((yn : Int) - yn).natAbs = 1
    omega)

theorem adj_pos_ul (xn yn : Nat) :
    adjacent true ⟨(xn : Int), (yn : Int)⟩
      ⟨(xn : Int) - 1, (yn : Int) - 1⟩ :=
  Or.inr ⟨rfl,
    by show ((xn : Int) - ((xn : Int) - 1)).natAbs = 1; omega,
    by show ((yn : Int) - ((yn : Int) - 1)).natAbs = 1; omega⟩

theorem adj_left_up (xn yn : Nat) :
    adjacent true ⟨(xn : Int) - 1, (yn : Int)⟩
      ⟨(xn : Int), (yn : Int) - 1⟩ :=
  Or.inr ⟨rfl,
    by show (((xn : Int) - 1) - (xn : Int)).natAbs = 1; omega,
    by show ((yn : Int) - ((yn : Int) - 1)).natAbs = 1; omega⟩

theorem pre_ul_up (img : BinaryImage) (diagonal : Bool) (n : Nat)
    (st : LabelState) (hInv : ScanInv img diagonal n st) (xn yn : Nat)
    (hx : xn < img.width) (hy : yn < img.height) (hxn1 : 0 < xn)
    (hyn1 : 0 < yn) (hxy : yn * img.width + xn = n)
    (hsul : pixelSet img ⟨(xn : Int) - 1, (yn : Int) - 1⟩)
    (hsup : pixelSet img ⟨(xn : Int), (yn : Int) - 1⟩) :
    labelOf st ⟨(xn : Int) - 1, (yn : Int) - 1⟩ =
      labelOf st ⟨(xn : Int), (yn : Int) - 1⟩ := by
  have hexp : yn * img.width = (yn - 1) * img.width + img.width := by
    have h1 : yn - 1 + 1 = yn := by omega
    calc yn * img.width = (yn - 1 + 1) * img.width := by rw [h1]
    _ = (yn - 1) * img.width + img.width := by ring
  have hpt1 : (⟨((xn - 1 : Nat) : Int), ((yn - 1 : Nat) : Int)⟩ : PointI32) =
      ⟨(xn : Int) - 1, (yn : Int) - 1⟩ := by
    simp only [PointI32.mk.injEq]; omega
  have hpt2 : (⟨((xn - 1 : Nat) : Int) + 1, ((yn - 1 : Nat) : Int)⟩ :
      PointI32) = ⟨(xn : Int), (yn : Int) - 1⟩ := by
    simp only [PointI32.mk.injEq]; omega
  have := hInv.adj_h (xn - 1) (yn - 1) (by omega) (by omega) (by omega)
    (by rw [hpt1]; exact hsul) (by rw [hpt2]; exact hsup)
  rw [hpt1, hpt2] at this
  exact this

theorem pre_ul_left (img : BinaryImage) (diagonal : Bool) (n : Nat)
    (st : LabelState) (hInv : ScanInv img diagonal n st) (xn yn : Nat)
    (hx : xn < img.width) (hy : yn < img.height) (hxn1 : 0 < xn)
    (hyn1 : 0 < yn) (hxy : yn * img.width + xn = n)
    (hsul : pixelSet img ⟨(xn : Int) - 1, (yn : Int) - 1⟩)
    (hsleft : pixelSet img ⟨(xn : Int) - 1, (yn : Int)⟩) :
    labelOf st ⟨(xn : Int) - 1, (yn : Int) - 1⟩ =
      labelOf st ⟨(xn : Int) - 1, (yn : Int)⟩ := by
  have hpt1 : (⟨((xn - 1 : Nat) : Int), ((yn - 1 : Nat) : Int)⟩ : PointI32) =
      ⟨(xn : Int) - 1, (yn : Int) - 1⟩ := by
    simp only [PointI32.mk.injEq]; omega
  have hpt2 : (⟨((xn - 1 : Nat) : Int), ((yn - 1 : Nat) : Int) + 1⟩ :
      PointI32) = ⟨(xn : Int) - 1, (yn : Int)⟩ := by
    simp only [PointI32.mk.injEq]; omega
  have hidx : (yn - 1 + 1) * img.width + (xn - 1) < n := by
    have h1 : yn - 1 + 1 = yn := by omega
    rw [h1]; omega
  have := hInv.adj_v (xn - 1) (yn - 1) (by omega) (by omega) hidx
    (by rw [hpt1]; exact hsul) (by rw [hpt2]; exact hsleft)
  rw [hpt1, hpt2] at this
  exact this

set_option maxHeartbeats 2000000 in
theorem scan_step_inv (img : BinaryImage) (diagonal : Bool) (n : Nat)
    (st st2 : LabelState) (hn : n < img.height * img.width)
    (hInv : ScanInv img diagonal n st)
    (hstep : to_clusters_step img diagonal st n = some st2) :
    ScanInv img diagonal (n + 1) st2 := by
  have hw : 0 < img.width := by
    rcases Nat.eq_zero_or_pos img.width with h | h
    · rw [h, Nat.mul_zero] at hn; omega
    · exact h
  simp only [to_clusters_step] at hstep
  set xn := n % img.width with hxn
  set yn := n / img.width with hyn
  have hx : xn < img.width := Nat.mod_lt n hw
  have hy : yn < img.height := by
    rw [hyn]
    exact Nat.div_lt_of_lt_mul (by rw [Nat.mul_comm] at hn; exact hn)
  have hxy : yn * img.width + xn = n := by
    rw [hxn, hyn, Nat.mul_comm]
    exact Nat.div_add_mod n img.width
  by_cases hv : img.get_pixel_safe (↑xn) (↑yn) = true
  · rw [if_pos hv] at hstep
    by_cases hvu : img.get_pixel_safe (↑xn) (↑yn - 1) = true
    · rw [if_pos hvu] at hstep
      have hyn1 : 0 < yn := by
        have h0 : (0 : Int) ≤ (yn : Int) - 1 :=
          (pixelSet_bounds img ⟨(xn : Int), (yn : Int) - 1⟩ hvu).2.2.1
        omega
      have hlu : labelOf st ⟨(xn : Int), (yn : Int) - 1⟩ =
          st.clustermap xn (yn - 1) := labelOf_up_pt st xn yn hyn1
      have hpu : procd img n ⟨(xn : Int), (yn : Int) - 1⟩ :=
        procd_up img n xn yn hx hy hyn1 hxy
      by_cases hm : ((img.get_pixel_safe (↑xn) (↑yn) || diagonal) &&
          img.get_pixel_safe (↑xn) (↑yn - 1) &&
          img.get_pixel_safe (↑xn - 1) (↑yn) &&
          decide ((if 0 < xn then st.clustermap (xn - 1) yn else 0) ≠
            if 0 < yn then st.clustermap xn (yn - 1) else 0)) = true
      · have hm2 := hm
        simp only [Bool.and_eq_true, decide_eq_true_eq] at hm2
        obtain ⟨⟨⟨hVD, hVU⟩, hVL⟩, hneq⟩ := hm2
        have hxn1 : 0 < xn := by
          have h0 : (0 : Int) ≤ (xn : Int) - 1 :=
            (pixelSet_bounds img ⟨(xn : Int) - 1, (yn : Int)⟩ hVL).1
          omega
        rw [if_pos hm] at hstep
        rw [if_pos hxn1, if_pos hyn1] at hstep hneq
        have hll : labelOf st ⟨(xn : Int) - 1, (yn : Int)⟩ =
            st.clustermap (xn - 1) yn := labelOf_left_pt st xn yn hxn1
        have hpl : procd img n ⟨(xn : Int) - 1, (yn : Int)⟩ :=
          procd_left img n xn yn hx hy hxn1 hxy
        have hsetL : pixelSet img (⟨(xn : Int) - 1, (yn : Int)⟩ :
            PointI32) := hVL
        have hsetP : pixelSet img (⟨(xn : Int), (yn : Int)⟩ :
            PointI32) := hv
        have hsetU : pixelSet img (⟨(xn : Int), (yn : Int) - 1⟩ :
            PointI32) := hVU
        have hconnlu : connectedThroughSet img diagonal
            ⟨(xn : Int) - 1, (yn : Int)⟩ ⟨(xn : Int), (yn : Int) - 1⟩ := by
          refine Relation.ReflTransGen.head
            ⟨hsetL, hsetP,
              adjacent_symm diagonal _ _ (adj_pos_left diagonal xn yn)⟩
            (connectedThroughSet_single img diagonal _ _ hsetP hsetU
              (adj_pos_up diagonal xn yn))
        rw [← hll, ← hlu] at hstep hneq
        have hpul : 0 < xn → 0 < yn →
            procd img n ⟨(xn : Int) - 1, (yn : Int) - 1⟩ :=
          fun h1 h2 => procd_ul img n xn yn hx hy h1 h2 hxy
        by_cases hsz : (st.clusters.getD
            (labelOf st ⟨(xn : Int) - 1, (yn : Int)⟩) default).size ≤
            (st.clusters.getD
            (labelOf st ⟨(xn : Int), (yn : Int) - 1⟩) default).size
        · rw [if_pos hsz] at hstep
          have happly : ∀ ci2 : Nat,
              (ci2 = st.clusters.length ∨
                (ci2 + 1 = st.clusters.length ∧
                ((combine_cluster st.clusters st.clustermap
                  (labelOf st ⟨(xn : Int) - 1, (yn : Int)⟩)
                  (labelOf st ⟨(xn : Int), (yn : Int) - 1⟩)).1.getD
                  ci2 default).points = [])) →
              ScanInv img diagonal (n + 1)
                ⟨((combine_cluster st.clusters st.clustermap
                    (labelOf st ⟨(xn : Int) - 1, (yn : Int)⟩)
                    (labelOf st ⟨(xn : Int), (yn : Int) - 1⟩)).1.set
                  (labelOf st ⟨(xn : Int), (yn : Int) - 1⟩)
                  (((combine_cluster st.clusters st.clustermap
                    (labelOf st ⟨(xn : Int) - 1, (yn : Int)⟩)
                    (labelOf st ⟨(xn : Int), (yn : Int) - 1⟩)).1.getD
                    (labelOf st ⟨(xn : Int), (yn : Int) - 1⟩) default).add
                    ⟨(xn : Int), (yn : Int)⟩)),
                  st.rect.add_x_y (↑xn) (↑yn),
                  fun a b => if a = xn ∧ b = yn
                    then labelOf st ⟨(xn : Int), (yn : Int) - 1⟩
                    else (combine_cluster st.clusters st.clustermap
                      (labelOf st ⟨(xn : Int) - 1, (yn : Int)⟩)
                      (labelOf st ⟨(xn : Int), (yn : Int) - 1⟩)).2 a b,
                  ci2⟩ := by
            intro ci2 hslot2
            obtain ⟨hmidInv, hdesc⟩ := combine_preserves img diagonal n st
              hInv (⟨(xn : Int) - 1, (yn : Int)⟩ : PointI32)
              (⟨(xn : Int), (yn : Int) - 1⟩ : PointI32)
              hpl hVL hpu hVU hconnlu hneq ci2 hslot2
            have e2 := hdesc _ hpu hVU
            rw [if_neg (fun hh => hneq hh.symm)] at e2
            refine assign_preserves img diagonal n _ hmidInv xn yn hx hy hxy
              hv (labelOf st ⟨(xn : Int), (yn : Int) - 1⟩)
              (⟨(xn : Int), (yn : Int) - 1⟩ : PointI32) hpu hVU e2
              (adj_pos_up diagonal xn yn) ?_ ?_ ?_ ?_
              (st.rect.add_x_y (↑xn) (↑yn))
            · intro a b ha hb hset
              have hpt : (⟨(a : Int), (b : Int)⟩ : PointI32) =
                  ⟨(xn : Int) - 1, (yn : Int)⟩ := by
                simp only [PointI32.mk.injEq]; omega
              rw [hpt] at hset ⊢
              have e1 := hdesc _ hpl hVL
              rw [if_pos rfl] at e1
              exact e1
            · intro a b ha hb hset
              have hpt : (⟨(a : Int), (b : Int)⟩ : PointI32) =
                  ⟨(xn : Int), (yn : Int) - 1⟩ := by
                simp only [PointI32.mk.injEq]; omega
              rw [hpt] at hset ⊢
              exact e2
            · intro hdg a b ha hb hset
              have hpt : (⟨(a : Int), (b : Int)⟩ : PointI32) =
                  ⟨(xn : Int) - 1, (yn : Int) - 1⟩ := by
                simp only [PointI32.mk.injEq]; omega
              rw [hpt] at hset ⊢
              have hequl : labelOf st ⟨(xn : Int) - 1, (yn : Int) - 1⟩ =
                  labelOf st ⟨(xn : Int), (yn : Int) - 1⟩ :=
                pre_ul_up img diagonal n st hInv xn yn hx hy hxn1 hyn1 hxy
                  hset hVU
              have e3 := hdesc _ (hpul hxn1 hyn1) hset
              rw [if_neg (by rw [hequl]; exact fun hh => hneq hh.symm)] at e3
              exact e3.trans hequl
            · intro hdg a b ha hb hs1 hs2
              have hpt1 : (⟨(a : Int), (b : Int) + 1⟩ : PointI32) =
                  ⟨(xn : Int) - 1, (yn : Int)⟩ := by
                simp only [PointI32.mk.injEq]; omega
              have hpt2 : (⟨(a : Int) + 1, (b : Int)⟩ : PointI32) =
                  ⟨(xn : Int), (yn : Int) - 1⟩ := by
                simp only [PointI32.mk.injEq]; omega
              rw [hpt1] at hs1 ⊢
              rw [hpt2] at hs2 ⊢
              have e1 := hdesc _ hpl hVL
              rw [if_pos rfl] at e1
              show (combine_cluster st.clusters st.clustermap _ _).2 _ _ =
                (combine_cluster st.clusters st.clustermap _ _).2 _ _
              rw [e1, e2]
          by_cases hru : 0 < st.clusterindex ∧
              labelOf st ⟨(xn : Int) - 1, (yn : Int)⟩ =
                st.clusterindex - 1 ∧
              st.clusterindex = st.clusters.length
          · rw [if_pos hru] at hstep
            obtain rfl := Option.some.inj hstep
            refine happly (st.clusterindex - 1) (Or.inr ⟨by omega, ?_⟩)
            rw [show st.clusterindex - 1 =
              labelOf st ⟨(xn : Int) - 1, (yn : Int)⟩ by omega]
            rw [combine_getD_from st.clusters st.clustermap _ _ hneq
              (hInv.label_lt _ hpl hVL)]
          · rw [if_neg hru] at hstep
            obtain rfl := Option.some.inj hstep
            refine happly st.clusterindex ?_
            rcases hInv.slot with h | ⟨h1, h2⟩
            · exact Or.inl h
            · refine Or.inr ⟨h1, ?_⟩
              rw [combine_getD_other st.clusters st.clustermap
                (labelOf st ⟨(xn : Int) - 1, (yn : Int)⟩)
                (labelOf st ⟨(xn : Int), (yn : Int) - 1⟩)
                st.clusterindex ?_ ?_]
              · exact h2
              · intro hh
                have := hInv.mem_own _ hpl hVL
                rw [← hh, h2] at this
                simp at this
              · intro hh
                have := hInv.mem_own _ hpu hVU
                rw [← hh, h2] at this
                simp at this
        · rw [if_neg hsz] at hstep
          obtain rfl := Option.some.inj hstep
          have hslot2 : st.clusterindex = st.clusters.length ∨
              (st.clusterindex + 1 = st.clusters.length ∧
              ((combine_cluster st.clusters st.clustermap
                (labelOf st ⟨(xn : Int), (yn : Int) - 1⟩)
                (labelOf st ⟨(xn : Int) - 1, (yn : Int)⟩)).1.getD
                st.clusterindex default).points = []) := by
            rcases hInv.slot with h | ⟨h1, h2⟩
            · exact Or.inl h
            · refine Or.inr ⟨h1, ?_⟩
              rw [combine_getD_other st.clusters st.clustermap
                (labelOf st ⟨(xn : Int), (yn : Int) - 1⟩)
                (labelOf st ⟨(xn : Int) - 1, (yn : Int)⟩)
                st.clusterindex ?_ ?_]
              · exact h2
              · intro hh
                have := hInv.mem_own _ hpu hVU
                rw [← hh, h2] at this
                simp at this
              · intro hh
                have := hInv.mem_own _ hpl hVL
                rw [← hh, h2] at this
                simp at this
          obtain ⟨hmidInv, hdesc⟩ := combine_preserves img diagonal n st
            hInv (⟨(xn : Int), (yn : Int) - 1⟩ : PointI32)
            (⟨(xn : Int) - 1, (yn : Int)⟩ : PointI32)
            hpu hVU hpl hVL
            (connectedThroughSet_symm img diagonal _ _ hconnlu)
            (fun hh => hneq hh.symm) st.clusterindex hslot2
          have e2 := hdesc _ hpu hVU
          rw [if_pos rfl] at e2
          refine assign_preserves img diagonal n _ hmidInv xn yn hx hy hxy
            hv (labelOf st ⟨(xn : Int) - 1, (yn : Int)⟩)
            (⟨(xn : Int) - 1, (yn : Int)⟩ : PointI32) hpl hVL ?_
            (adj_pos_left diagonal xn yn) ?_ ?_ ?_ ?_
            (st.rect.add_x_y (↑xn) (↑yn))
          · have e1 := hdesc _ hpl hVL
            rw [if_neg hneq] at e1
            exact e1
          · intro a b ha hb hset
            have hpt : (⟨(a : Int), (b : Int)⟩ : PointI32) =
                ⟨(xn : Int) - 1, (yn : Int)⟩ := by
              simp only [PointI32.mk.injEq]; omega
            rw [hpt] at hset ⊢
            have e1 := hdesc _ hpl hVL
            rw [if_neg hneq] at e1
            exact e1
          · intro a b ha hb hset
            have hpt : (⟨(a : Int), (b : Int)⟩ : PointI32) =
                ⟨(xn : Int), (yn : Int) - 1⟩ := by
              simp only [PointI32.mk.injEq]; omega
            rw [hpt] at hset ⊢
            exact e2
          · intro hdg a b ha hb hset
            have hpt : (⟨(a : Int), (b : Int)⟩ : PointI32) =
                ⟨(xn : Int) - 1, (yn : Int) - 1⟩ := by
              simp only [PointI32.mk.injEq]; omega
            rw [hpt] at hset ⊢
            have hequl : labelOf st ⟨(xn : Int) - 1, (yn : Int) - 1⟩ =
                labelOf st ⟨(xn : Int), (yn : Int) - 1⟩ :=
              pre_ul_up img diagonal n st hInv xn yn hx hy hxn1 hyn1 hxy
                hset hVU
            have e3 := hdesc _ (hpul hxn1 hyn1) hset
            rw [if_pos hequl] at e3
            exact e3
          · intro hdg a b ha hb hs1 hs2
            have hpt1 : (⟨(a : Int), (b : Int) + 1⟩ : PointI32) =
                ⟨(xn : Int) - 1, (yn : Int)⟩ := by
              simp only [PointI32.mk.injEq]; omega
            have hpt2 : (⟨(a : Int) + 1, (b : Int)⟩ : PointI32) =
                ⟨(xn : Int), (yn : Int) - 1⟩ := by
              simp only [PointI32.mk.injEq]; omega
            rw [hpt1] at hs1 ⊢
            rw [hpt2] at hs2 ⊢
            have e1 := hdesc _ hpl hVL
            rw [if_neg hneq] at e1
            show (combine_cluster st.clusters st.clustermap _ _).2 _ _ =
              (combine_cluster st.clusters st.clustermap _ _).2 _ _
            rw [e1, e2]
      · -- no merge, assign to the up cluster
        rw [if_neg hm] at hstep
        rw [if_pos hyn1] at hstep
        rw [← hlu] at hstep
        obtain rfl := Option.some.inj hstep
        refine assign_preserves img diagonal n st hInv xn yn hx hy hxy
          hv (labelOf st ⟨(xn : Int), (yn : Int) - 1⟩)
          (⟨(xn : Int), (yn : Int) - 1⟩ : PointI32) hpu hvu rfl
          (adj_pos_up diagonal xn yn) ?_ ?_ ?_ ?_
          (st.rect.add_x_y (↑xn) (↑yn))
        · intro a b ha hb hset
          have hxn1 : 0 < xn := by omega
          have hpt : (⟨(a : Int), (b : Int)⟩ : PointI32) =
              ⟨(xn : Int) - 1, (yn : Int)⟩ := by
            simp only [PointI32.mk.injEq]; omega
          rw [hpt] at hset ⊢
          have hCLCU : (if 0 < xn then st.clustermap (xn - 1) yn else 0) =
              (if 0 < yn then st.clustermap xn (yn - 1) else 0) := by
            by_contra hne
            exact hm (by rw [hvu, hset, hv]; simp [hne])
          rw [labelOf_left_pt st xn yn hxn1, labelOf_up_pt st xn yn hyn1]
          rw [if_pos hxn1, if_pos hyn1] at hCLCU
          exact hCLCU
        · intro a b ha hb hset
          have hpt : (⟨(a : Int), (b : Int)⟩ : PointI32) =
              ⟨(xn : Int), (yn : Int) - 1⟩ := by
            simp only [PointI32.mk.injEq]; omega
          rw [hpt]
        · intro hdg a b ha hb hset
          have hxn1 : 0 < xn := by omega
          have hpt : (⟨(a : Int), (b : Int)⟩ : PointI32) =
              ⟨(xn : Int) - 1, (yn : Int) - 1⟩ := by
            simp only [PointI32.mk.injEq]; omega
          rw [hpt] at hset ⊢
          exact pre_ul_up img diagonal n st hInv xn yn hx hy hxn1 hyn1 hxy
            hset hvu
        · intro hdg a b ha hb hs1 hs2
          have hxn1 : 0 < xn := by omega
          have hpt1 : (⟨(a : Int), (b : Int) + 1⟩ : PointI32) =
              ⟨(xn : Int) - 1, (yn : Int)⟩ := by
            simp only [PointI32.mk.injEq]; omega
          have hpt2 : (⟨(a : Int) + 1, (b : Int)⟩ : PointI32) =
              ⟨(xn : Int), (yn : Int) - 1⟩ := by
            simp only [PointI32.mk.injEq]; omega
          rw [hpt1] at hs1 ⊢
          rw [hpt2] at hs2 ⊢
          have hCLCU : (if 0 < xn then st.clustermap (xn - 1) yn else 0) =
              (if 0 < yn then st.clustermap xn (yn - 1) else 0) := by
            by_contra hne
            exact hm (by rw [hvu, hs1, hv]; simp [hne])
          rw [labelOf_left_pt st xn yn hxn1, labelOf_up_pt st xn yn hyn1]
          rw [if_pos hxn1, if_pos hyn1] at hCLCU
          exact hCLCU
    · rw [if_neg hvu] at hstep
      have hvu2 : img.get_pixel_safe (↑xn) (↑yn - 1) = false := by
        rcases Bool.eq_false_or_eq_true (img.get_pixel_safe (↑xn) (↑yn - 1))
          with h | h
        · exact absurd h hvu
        · exact h
      have hmf : ¬ ((img.get_pixel_safe (↑xn) (↑yn) || diagonal) &&
          img.get_pixel_safe (↑xn) (↑yn - 1) &&
          img.get_pixel_safe (↑xn - 1) (↑yn) &&
          decide ((if 0 < xn then st.clustermap (xn - 1) yn else 0) ≠
            if 0 < yn then st.clustermap xn (yn - 1) else 0)) = true := by
        rw [hvu2]; simp
      rw [if_neg hmf] at hstep
      by_cases hvl : img.get_pixel_safe (↑xn - 1) (↑yn) = true
      · rw [if_pos hvl] at hstep
        have hxn1 : 0 < xn := by
          have h0 : (0 : Int) ≤ (xn : Int) - 1 :=
            (pixelSet_bounds img ⟨(xn : Int) - 1, (yn : Int)⟩ hvl).1
          omega
        rw [if_pos hxn1] at hstep
        rw [← labelOf_left_pt st xn yn hxn1] at hstep
        obtain rfl := Option.some.inj hstep
        have hpl : procd img n ⟨(xn : Int) - 1, (yn : Int)⟩ :=
          procd_left img n xn yn hx hy hxn1 hxy
        refine assign_preserves img diagonal n st hInv xn yn hx hy hxy
          hv (labelOf st ⟨(xn : Int) - 1, (yn : Int)⟩)
          (⟨(xn : Int) - 1, (yn : Int)⟩ : PointI32) hpl hvl rfl
          (adj_pos_left diagonal xn yn) ?_ ?_ ?_ ?_
          (st.rect.add_x_y (↑xn) (↑yn))
        · intro a b ha hb hset
          have hpt : (⟨(a : Int), (b : Int)⟩ : PointI32) =
              ⟨(xn : Int) - 1, (yn : Int)⟩ := by
            simp only [PointI32.mk.injEq]; omega
          rw [hpt]
        · intro a b ha hb hset
          have hpt : (⟨(a : Int), (b : Int)⟩ : PointI32) =
              ⟨(xn : Int), (yn : Int) - 1⟩ := by
            simp only [PointI32.mk.injEq]; omega
          rw [hpt] at hset
          exact absurd hset hvu
        · intro hdg a b ha hb hset
          have hyn1 : 0 < yn := by omega
          have hpt : (⟨(a : Int), (b : Int)⟩ : PointI32) =
              ⟨(xn : Int) - 1, (yn : Int) - 1⟩ := by
            simp only [PointI32.mk.injEq]; omega
          rw [hpt] at hset ⊢
          exact pre_ul_left img diagonal n st hInv xn yn hx hy hxn1 hyn1
            hxy hset hvl
        · intro hdg a b ha hb hs1 hs2
          have hpt2 : (⟨(a : Int) + 1, (b : Int)⟩ : PointI32) =
              ⟨(xn : Int), (yn : Int) - 1⟩ := by
            simp only [PointI32.mk.injEq]; omega
          rw [hpt2] at hs2
          exact absurd hs2 hvu
      · rw [if_neg hvl] at hstep
        by_cases hud : (img.get_pixel_safe (↑xn - 1) (↑yn - 1) &&
            diagonal) = true
        · rw [if_pos hud] at hstep
          have hm2 := hud
          simp only [Bool.and_eq_true] at hm2
          obtain ⟨hvul, hdg⟩ := hm2
          have hxn1 : 0 < xn := by
            have h0 : (0 : Int) ≤ (xn : Int) - 1 :=
              (pixelSet_bounds img ⟨(xn : Int) - 1, (yn : Int) - 1⟩ hvul).1
            omega
          have hyn1 : 0 < yn := by
            have h0 : (0 : Int) ≤ (yn : Int) - 1 :=
              (pixelSet_bounds img ⟨(xn : Int) - 1, (yn : Int) - 1⟩
                hvul).2.2.1
            omega
          rw [if_pos (⟨hxn1, hyn1⟩ : 0 < xn ∧ 0 < yn)] at hstep
          rw [← labelOf_ul_pt st xn yn hxn1 hyn1] at hstep
          obtain rfl := Option.some.inj hstep
          have hpul : procd img n ⟨(xn : Int) - 1, (yn : Int) - 1⟩ :=
            procd_ul img n xn yn hx hy hxn1 hyn1 hxy
          refine assign_preserves img diagonal n st hInv xn yn hx hy hxy
            hv (labelOf st ⟨(xn : Int) - 1, (yn : Int) - 1⟩)
            (⟨(xn : Int) - 1, (yn : Int) - 1⟩ : PointI32) hpul hvul rfl
            ?_ ?_ ?_ ?_ ?_
            (st.rect.add_x_y (↑xn) (↑yn))
          · rw [hdg]
            exact adj_pos_ul xn yn
          · intro a b ha hb hset
            have hpt : (⟨(a : Int), (b : Int)⟩ : PointI32) =
                ⟨(xn : Int) - 1, (yn : Int)⟩ := by
              simp only [PointI32.mk.injEq]; omega
            rw [hpt] at hset
            exact absurd hset hvl
          · intro a b ha hb hset
            have hpt : (⟨(a : Int), (b : Int)⟩ : PointI32) =
                ⟨(xn : Int), (yn : Int) - 1⟩ := by
              simp only [PointI32.mk.injEq]; omega
            rw [hpt] at hset
            exact absurd hset hvu
          · intro hdg2 a b ha hb hset
            have hpt : (⟨(a : Int), (b : Int)⟩ : PointI32) =
                ⟨(xn : Int) - 1, (yn : Int) - 1⟩ := by
              simp only [PointI32.mk.injEq]; omega
            rw [hpt]
          · intro hdg2 a b ha hb hs1 hs2
            have hpt2 : (⟨(a : Int) + 1, (b : Int)⟩ : PointI32) =
                ⟨(xn : Int), (yn : Int) - 1⟩ := by
              simp only [PointI32.mk.injEq]; omega
            rw [hpt2] at hs2
            exact absurd hs2 hvu
        · rw [if_neg hud] at hstep
          by_cases hov : st.clusterindex + 1 = monoImageMax
          · rw [if_pos hov] at hstep
            exact absurd hstep (by simp)
          · rw [if_neg hov] at hstep
            obtain rfl := Option.some.inj hstep
            refine fresh_preserves img diagonal n st hInv xn yn hx hy hxy
              hv ?_ ?_ ?_ (st.rect.add_x_y (↑xn) (↑yn))
            · intro a b ha hb hset
              have hpt : (⟨(a : Int), (b : Int)⟩ : PointI32) =
                  ⟨(xn : Int) - 1, (yn : Int)⟩ := by
                simp only [PointI32.mk.injEq]; omega
              rw [hpt] at hset
              exact hvl hset
            · intro a b ha hb hset
              have hpt : (⟨(a : Int), (b : Int)⟩ : PointI32) =
                  ⟨(xn : Int), (yn : Int) - 1⟩ := by
                simp only [PointI32.mk.injEq]; omega
              rw [hpt] at hset
              exact hvu hset
            · intro hdg a b ha hb hset
              have hpt : (⟨(a : Int), (b : Int)⟩ : PointI32) =
                  ⟨(xn : Int) - 1, (yn : Int) - 1⟩ := by
                simp only [PointI32.mk.injEq]; omega
              rw [hpt] at hset
              exact hud (by rw [hdg]; simp only [Bool.and_true]; exact hset)
  · rw [if_neg hv] at hstep
    have hnv : ¬ pixelSet img (⟨(xn : Int), (yn : Int)⟩ : PointI32) :=
      fun hh => hv hh
    by_cases hm : ((img.get_pixel_safe (↑xn) (↑yn) || diagonal) &&
        img.get_pixel_safe (↑xn) (↑yn - 1) &&
        img.get_pixel_safe (↑xn - 1) (↑yn) &&
        decide ((if 0 < xn then st.clustermap (xn - 1) yn else 0) ≠
          if 0 < yn then st.clustermap xn (yn - 1) else 0)) = true
    · -- merge fires with v unset
      have hm' := hm
      simp only [Bool.and_eq_true, decide_eq_true_eq] at hm'
      obtain ⟨⟨⟨hVD, hVU⟩, hVL⟩, hneq⟩ := hm'
      have hVfalse : img.get_pixel_safe (↑xn) (↑yn) = false := by
        rcases Bool.eq_false_or_eq_true (img.get_pixel_safe (↑xn) (↑yn))
          with h | h
        · exact absurd h hv
        · exact h
      have hdg : diagonal = true := by
        rw [hVfalse] at hVD
        simpa using hVD
      have hyn1 : 0 < yn := by
        have h0 : (0 : Int) ≤ (yn : Int) - 1 :=
          (pixelSet_bounds img ⟨(xn : Int), (yn : Int) - 1⟩ hVU).2.2.1
        omega
      have hxn1 : 0 < xn := by
        have h0 : (0 : Int) ≤ (xn : Int) - 1 :=
          (pixelSet_bounds img ⟨(xn : Int) - 1, (yn : Int)⟩ hVL).1
        omega
      rw [if_pos hm] at hstep
      rw [if_pos hxn1, if_pos hyn1] at hstep hneq
      have hll : labelOf st ⟨(xn : Int) - 1, (yn : Int)⟩ =
          st.clustermap (xn - 1) yn := labelOf_left_pt st xn yn hxn1
      have hlu : labelOf st ⟨(xn : Int), (yn : Int) - 1⟩ =
          st.clustermap xn (yn - 1) := labelOf_up_pt st xn yn hyn1
      have hpl : procd img n ⟨(xn : Int) - 1, (yn : Int)⟩ :=
        procd_left img n xn yn hx hy hxn1 hxy
      have hpu : procd img n ⟨(xn : Int), (yn : Int) - 1⟩ :=
        procd_up img n xn yn hx hy hyn1 hxy
      have hconnlu : connectedThroughSet img diagonal
          ⟨(xn : Int) - 1, (yn : Int)⟩ ⟨(xn : Int), (yn : Int) - 1⟩ :=
        connectedThroughSet_single img diagonal _ _ hVL hVU
          (by rw [hdg]; exact adj_left_up xn yn)
      rw [← hll, ← hlu] at hstep hneq
      by_cases hsz : (st.clusters.getD
          (labelOf st ⟨(xn : Int) - 1, (yn : Int)⟩) default).size ≤
          (st.clusters.getD
          (labelOf st ⟨(xn : Int), (yn : Int) - 1⟩) default).size
      · rw [if_pos hsz] at hstep
        by_cases hru : 0 < st.clusterindex ∧
            labelOf st ⟨(xn : Int) - 1, (yn : Int)⟩ = st.clusterindex - 1 ∧
            st.clusterindex = st.clusters.length
        · rw [if_pos hru] at hstep
          obtain rfl := Option.some.inj hstep
          obtain ⟨hmidInv, hdesc⟩ := combine_preserves img diagonal n st hInv
            (⟨(xn : Int) - 1, (yn : Int)⟩ : PointI32)
            (⟨(xn : Int), (yn : Int) - 1⟩ : PointI32)
            hpl hVL hpu hVU hconnlu hneq (st.clusterindex - 1)
            (Or.inr ⟨by omega, by
              rw [show st.clusterindex - 1 =
                labelOf st ⟨(xn : Int) - 1, (yn : Int)⟩ by omega]
              rw [combine_getD_from st.clusters st.clustermap _ _ hneq
                (hInv.label_lt _ hpl hVL)]⟩)
          refine unset_preserves img diagonal n _ hmidInv xn yn hx hy hxy
            hnv ?_
          intro _ a b ha hb hs1 hs2
          have hpt1 : (⟨(a : Int), (b : Int) + 1⟩ : PointI32) =
              ⟨(xn : Int) - 1, (yn : Int)⟩ := by
            simp only [PointI32.mk.injEq]; omega
          have hpt2 : (⟨(a : Int) + 1, (b : Int)⟩ : PointI32) =
              ⟨(xn : Int), (yn : Int) - 1⟩ := by
            simp only [PointI32.mk.injEq]; omega
          rw [hpt1, hpt2]
          have e1 := hdesc _ hpl hVL
          have e2 := hdesc _ hpu hVU
          rw [if_pos rfl] at e1
          rw [if_neg (fun hh => hneq hh.symm)] at e2
          show (combine_cluster st.clusters st.clustermap _ _).2 _ _ =
            (combine_cluster st.clusters st.clustermap _ _).2 _ _
          rw [e1, e2]
        · rw [if_neg hru] at hstep
          obtain rfl := Option.some.inj hstep
          have hslot2 : st.clusterindex = st.clusters.length ∨
              (st.clusterindex + 1 = st.clusters.length ∧
              ((combine_cluster st.clusters st.clustermap
                (labelOf st ⟨(xn : Int) - 1, (yn : Int)⟩)
                (labelOf st ⟨(xn : Int), (yn : Int) - 1⟩)).1.getD
                st.clusterindex default).points = []) := by
            rcases hInv.slot with h | ⟨h1, h2⟩
            · exact Or.inl h
            · refine Or.inr ⟨h1, ?_⟩
              rw [combine_getD_other st.clusters st.clustermap
                (labelOf st ⟨(xn : Int) - 1, (yn : Int)⟩)
                (labelOf st ⟨(xn : Int), (yn : Int) - 1⟩)
                st.clusterindex ?_ ?_]
              · exact h2
              · intro hh
                have := hInv.mem_own _ hpl hVL
                rw [← hh, h2] at this
                simp at this
              · intro hh
                have := hInv.mem_own _ hpu hVU
                rw [← hh, h2] at this
                simp at this
          obtain ⟨hmidInv, hdesc⟩ := combine_preserves img diagonal n st hInv
            (⟨(xn : Int) - 1, (yn : Int)⟩ : PointI32)
            (⟨(xn : Int), (yn : Int) - 1⟩ : PointI32)
            hpl hVL hpu hVU hconnlu hneq st.clusterindex hslot2
          refine unset_preserves img diagonal n _ hmidInv xn yn hx hy hxy
            hnv ?_
          intro _ a b ha hb hs1 hs2
          have hpt1 : (⟨(a : Int), (b : Int) + 1⟩ : PointI32) =
              ⟨(xn : Int) - 1, (yn : Int)⟩ := by
            simp only [PointI32.mk.injEq]; omega
          have hpt2 : (⟨(a : Int) + 1, (b : Int)⟩ : PointI32) =
              ⟨(xn : Int), (yn : Int) - 1⟩ := by
            simp only [PointI32.mk.injEq]; omega
          rw [hpt1, hpt2]
          have e1 := hdesc _ hpl hVL
          have e2 := hdesc _ hpu hVU
          rw [if_pos rfl] at e1
          rw [if_neg (fun hh => hneq hh.symm)] at e2
          show (combine_cluster st.clusters st.clustermap _ _).2 _ _ =
            (combine_cluster st.clusters st.clustermap _ _).2 _ _
          rw [e1, e2]
      · rw [if_neg hsz] at hstep
        obtain rfl := Option.some.inj hstep
        have hslot2 : st.clusterindex = st.clusters.length ∨
            (st.clusterindex + 1 = st.clusters.length ∧
            ((combine_cluster st.clusters st.clustermap
              (labelOf st ⟨(xn : Int), (yn : Int) - 1⟩)
              (labelOf st ⟨(xn : Int) - 1, (yn : Int)⟩)).1.getD
              st.clusterindex default).points = []) := by
          rcases hInv.slot with h | ⟨h1, h2⟩
          · exact Or.inl h
          · refine Or.inr ⟨h1, ?_⟩
            rw [combine_getD_other st.clusters st.clustermap
              (labelOf st ⟨(xn : Int), (yn : Int) - 1⟩)
              (labelOf st ⟨(xn : Int) - 1, (yn : Int)⟩)
              st.clusterindex ?_ ?_]
            · exact h2
            · intro hh
              have := hInv.mem_own _ hpu hVU
              rw [← hh, h2] at this
              simp at this
            · intro hh
              have := hInv.mem_own _ hpl hVL
              rw [← hh, h2] at this
              simp at this
        obtain ⟨hmidInv, hdesc⟩ := combine_preserves img diagonal n st hInv
          (⟨(xn : Int), (yn : Int) - 1⟩ : PointI32)
          (⟨(xn : Int) - 1, (yn : Int)⟩ : PointI32)
          hpu hVU hpl hVL
          (connectedThroughSet_symm img diagonal _ _ hconnlu)
          (fun hh => hneq hh.symm) st.clusterindex hslot2
        refine unset_preserves img diagonal n _ hmidInv xn yn hx hy hxy
          hnv ?_
        intro _ a b ha hb hs1 hs2
        have hpt1 : (⟨(a : Int), (b : Int) + 1⟩ : PointI32) =
            ⟨(xn : Int) - 1, (yn : Int)⟩ := by
          simp only [PointI32.mk.injEq]; omega
        have hpt2 : (⟨(a : Int) + 1, (b : Int)⟩ : PointI32) =
            ⟨(xn : Int), (yn : Int) - 1⟩ := by
          simp only [PointI32.mk.injEq]; omega
        rw [hpt1, hpt2]
        have e1 := hdesc _ hpl hVL
        have e2 := hdesc _ hpu hVU
        rw [if_neg hneq] at e1
        rw [if_pos rfl] at e2
        show (combine_cluster st.clusters st.clustermap _ _).2 _ _ =
          (combine_cluster st.clusters st.clustermap _ _).2 _ _
        rw [e1, e2]
    · -- no merge, v unset: the state is unchanged
      rw [if_neg hm] at hstep
      obtain rfl := Option.some.inj hstep
      refine unset_preserves img diagonal n st hInv xn yn hx hy hxy hnv ?_
      intro hdg a b ha hb hs1 hs2
      have hxn1 : 0 < xn := by omega
      have hyn1 : 0 < yn := by omega
      have hpt1 : (⟨(a : Int), (b : Int) + 1⟩ : PointI32) =
          ⟨(xn : Int) - 1, (yn : Int)⟩ := by
        simp only [PointI32.mk.injEq]; omega
      have hpt2 : (⟨(a : Int) + 1, (b : Int)⟩ : PointI32) =
          ⟨(xn : Int), (yn : Int) - 1⟩ := by
        simp only [PointI32.mk.injEq]; omega
      rw [hpt1] at hs1 ⊢
      rw [hpt2] at hs2 ⊢
      have hVU : img.get_pixel_safe (↑xn) (↑yn - 1) = true := hs2
      have hVL : img.get_pixel_safe (↑xn - 1) (↑yn) = true := hs1
      have hCLCU : (if 0 < xn then st.clustermap (xn - 1) yn else 0) =
          (if 0 < yn then st.clustermap xn (yn - 1) else 0) := by
        by_contra hne
        exact hm (by rw [hVU, hVL, hdg]; simp [hne])
      rw [labelOf_left_pt st xn yn hxn1, labelOf_up_pt st xn yn hyn1]
      rw [if_pos hxn1, if_pos hyn1] at hCLCU
      exact hCLCU

theorem scan_run_inv (img : BinaryImage) (diagonal : Bool) (n : Nat)
    (hn : n ≤ img.height * img.width) (st : LabelState)
    (hrun : to_clusters_run img diagonal n = some st) :
    ScanInv img diagonal n st := by
  induction n generalizing st with
  | zero =>
    simp only [to_clusters_run] at hrun
    obtain rfl := Option.some.inj hrun
    exact scan_inv_zero img diagonal
  | succ m ih =>
    simp only [to_clusters_run] at hrun
    rcases hprev : to_clusters_run img diagonal m with _ | stm
    · rw [hprev] at hrun; simp at hrun
    · rw [hprev] at hrun
      exact scan_step_inv img diagonal m stm st (by omega)
        (ih (by omega) stm hprev) hrun

theorem idx_lt (w h aa bb : Nat) (ha : aa < w) (hb : bb < h) :
    bb * w + aa < h * w := by
  calc bb * w + aa < bb * w + w := by omega
  _ = (bb + 1) * w := by ring
  _ ≤ h * w := Nat.mul_le_mul_right _ (by omega)

theorem pixelSet_procd (img : BinaryImage) (p : PointI32)
    (h : pixelSet img p) : procd img (img.height * img.width) p := by
  obtain ⟨h1, h2, h3, h4⟩ := pixelSet_bounds img p h
  exact ⟨h1, h2, h3, h4,
    idx_lt img.width img.height p.x.toNat p.y.toNat (by omega) (by omega)⟩

theorem final_adj_label (img : BinaryImage) (diagonal : Bool)
    (st : LabelState)
    (hInv : ScanInv img diagonal (img.height * img.width) st)
    (p q : PointI32) (hp : pixelSet img p) (hq : pixelSet img q)
    (hadj : adjacent diagonal p q) : labelOf st p = labelOf st q := by
  obtain ⟨px, py⟩ := p
  obtain ⟨qx, qy⟩ := q
  obtain ⟨hp1, hp2, hp3, hp4⟩ := pixelSet_bounds img _ hp
  obtain ⟨hq1, hq2, hq3, hq4⟩ := pixelSet_bounds img _ hq
  simp only at hp1 hp2 hp3 hp4 hq1 hq2 hq3 hq4
  have hpw : px.toNat < img.width := by omega
  have hph : py.toNat < img.height := by omega
  have hqw : qx.toNat < img.width := by omega
  have hqh : qy.toNat < img.height := by omega
  rcases hadj with habs | ⟨hdg, habs1, habs2⟩
  · simp only at habs
    have hcases : (px = qx + 1 ∧ py = qy) ∨ (qx = px + 1 ∧ py = qy) ∨
        (px = qx ∧ py = qy + 1) ∨ (px = qx ∧ qy = py + 1) := by omega
    rcases hcases with ⟨e1, e2⟩ | ⟨e1, e2⟩ | ⟨e1, e2⟩ | ⟨e1, e2⟩
    · have hquse : (⟨qx, qy⟩ : PointI32) =
          ⟨(qx.toNat : Int), (qy.toNat : Int)⟩ := by
        simp only [PointI32.mk.injEq]; omega
      have hpuse : (⟨px, py⟩ : PointI32) =
          ⟨(qx.toNat : Int) + 1, (qy.toNat : Int)⟩ := by
        simp only [PointI32.mk.injEq]; omega
      rw [hquse, hpuse]
      exact (hInv.adj_h qx.toNat qy.toNat (by omega) hqh
        (idx_lt img.width img.height (qx.toNat + 1) qy.toNat (by omega) hqh)
        (hquse ▸ hq) (hpuse ▸ hp)).symm
    · have hpuse : (⟨px, py⟩ : PointI32) =
          ⟨(px.toNat : Int), (py.toNat : Int)⟩ := by
        simp only [PointI32.mk.injEq]; omega
      have hquse : (⟨qx, qy⟩ : PointI32) =
          ⟨(px.toNat : Int) + 1, (py.toNat : Int)⟩ := by
        simp only [PointI32.mk.injEq]; omega
      rw [hquse, hpuse]
      exact hInv.adj_h px.toNat py.toNat (by omega) hph
        (idx_lt img.width img.height (px.toNat + 1) py.toNat (by omega) hph)
        (hpuse ▸ hp) (hquse ▸ hq)
    · have hquse : (⟨qx, qy⟩ : PointI32) =
          ⟨(qx.toNat : Int), (qy.toNat : Int)⟩ := by
        simp only [PointI32.mk.injEq]; omega
      have hpuse : (⟨px, py⟩ : PointI32) =
          ⟨(qx.toNat : Int), (qy.toNat : Int) + 1⟩ := by
        simp only [PointI32.mk.injEq]; omega
      rw [hquse, hpuse]
      exact (hInv.adj_v qx.toNat qy.toNat hqw (by omega)
        (idx_lt img.width img.height qx.toNat (qy.toNat + 1) hqw (by omega))
        (hquse ▸ hq) (hpuse ▸ hp)).symm
    · have hpuse : (⟨px, py⟩ : PointI32) =
          ⟨(px.toNat : Int), (py.toNat : Int)⟩ := by
        simp only [PointI32.mk.injEq]; omega
      have hquse : (⟨qx, qy⟩ : PointI32) =
          ⟨(px.toNat : Int), (py.toNat : Int) + 1⟩ := by
        simp only [PointI32.mk.injEq]; omega
      rw [hquse, hpuse]
      exact hInv.adj_v px.toNat py.toNat hpw (by omega)
        (idx_lt img.width img.height px.toNat (py.toNat + 1) hpw (by omega))
        (hpuse ▸ hp) (hquse ▸ hq)
  · simp only at habs1 habs2
    have hcases : (px = qx + 1 ∧ py = qy + 1) ∨
        (qx = px + 1 ∧ qy = py + 1) ∨ (px = qx + 1 ∧ qy = py + 1) ∨
        (qx = px + 1 ∧ py = qy + 1) := by omega
    rcases hcases with ⟨e1, e2⟩ | ⟨e1, e2⟩ | ⟨e1, e2⟩ | ⟨e1, e2⟩
    · have hquse : (⟨qx, qy⟩ : PointI32) =
          ⟨(qx.toNat : Int), (qy.toNat : Int)⟩ := by
        simp only [PointI32.mk.injEq]; omega
      have hpuse : (⟨px, py⟩ : PointI32) =
          ⟨(qx.toNat : Int) + 1, (qy.toNat : Int) + 1⟩ := by
        simp only [PointI32.mk.injEq]; omega
      rw [hquse, hpuse]
      exact (hInv.adj_d hdg qx.toNat qy.toNat (by omega) (by omega)
        (idx_lt img.width img.height (qx.toNat + 1) (qy.toNat + 1)
          (by omega) (by omega))
        (hquse ▸ hq) (hpuse ▸ hp)).symm
    · have hpuse : (⟨px, py⟩ : PointI32) =
          ⟨(px.toNat : Int), (py.toNat : Int)⟩ := by
        simp only [PointI32.mk.injEq]; omega
      have hquse : (⟨qx, qy⟩ : PointI32) =
          ⟨(px.toNat : Int) + 1, (py.toNat : Int) + 1⟩ := by
        simp only [PointI32.mk.injEq]; omega
      rw [hquse, hpuse]
      exact hInv.adj_d hdg px.toNat py.toNat (by omega) (by omega)
        (idx_lt img.width img.height (px.toNat + 1) (py.toNat + 1)
          (by omega) (by omega))
        (hpuse ▸ hp) (hquse ▸ hq)
    · have hquse : (⟨qx, qy⟩ : PointI32) =
          ⟨(qx.toNat : Int), (py.toNat : Int) + 1⟩ := by
        simp only [PointI32.mk.injEq]; omega
      have hpuse : (⟨px, py⟩ : PointI32) =
          ⟨(qx.toNat : Int) + 1, (py.toNat : Int)⟩ := by
        simp only [PointI32.mk.injEq]; omega
      rw [hquse, hpuse]
      exact (hInv.adj_a hdg qx.toNat py.toNat (by omega) (by omega)
        (idx_lt img.width img.height (qx.toNat + 1) (py.toNat + 1)
          (by omega) (by omega))
        (hquse ▸ hq) (hpuse ▸ hp)).symm
    · have hpuse : (⟨px, py⟩ : PointI32) =
          ⟨(px.toNat : Int), (qy.toNat : Int) + 1⟩ := by
        simp only [PointI32.mk.injEq]; omega
      have hquse : (⟨qx, qy⟩ : PointI32) =
          ⟨(px.toNat : Int) + 1, (qy.toNat : Int)⟩ := by
        simp only [PointI32.mk.injEq]; omega
      rw [hquse, hpuse]
      exact hInv.adj_a hdg px.toNat qy.toNat (by omega) (by omega)
        (idx_lt img.width img.height (px.toNat + 1) (qy.toNat + 1)
          (by omega) (by omega))
        (hpuse ▸ hp) (hquse ▸ hq)

theorem final_conn_label (img : BinaryImage) (diagonal : Bool)
    (st : LabelState)
    (hInv : ScanInv img diagonal (img.height * img.width) st)
    (p q : PointI32) (hconn : connectedThroughSet img diagonal p q) :
    labelOf st p = labelOf st q := by
  induction hconn with
  | refl => rfl
  | tail hab hbc ih =>
    obtain ⟨hsb, hsc, hadj⟩ := hbc
    exact ih.trans (final_adj_label img diagonal st hInv _ _ hsb hsc hadj)

theorem countP_eq_one_of_unique (l : List α) (d : α) (pr : α → Bool)
    (i : Nat) (hi : i < l.length) (hpi : pr (l.getD i d) = true)
    (huni : ∀ j, j < l.length → pr (l.getD j d) = true → j = i) :
    l.countP pr = 1 := by
  induction l generalizing i with
  | nil => simp at hi
  | cons x xs ih =>
    rw [List.countP_cons]
    rcases i with _ | i2
    · have hx : pr x = true := hpi
      rw [hx]
      have hzero : xs.countP pr = 0 := by
        rw [List.countP_eq_zero]
        intro a ha hpa
        obtain ⟨j, hj, hja⟩ := List.mem_iff_getElem.mp ha
        have hget : (x :: xs).getD (j + 1) d = a := by
          show xs.getD j d = a
          rw [List.getD_eq_getElem xs d hj]
          exact hja
        have := huni (j + 1) (by simp only [List.length_cons]; omega)
          (by rw [hget]; exact hpa)
        omega
      rw [hzero]
      simp
    · have hx : pr x = false := by
        rcases Bool.eq_false_or_eq_true (pr x) with h | h
        · have := huni 0 (by simp only [List.length_cons]; omega) h
          omega
        · exact h
      rw [hx]
      simp only [Bool.false_eq_true, if_false, Nat.add_zero]
      exact ih i2 (by simp only [List.length_cons] at hi; omega) hpi
        (fun j hj hpj => by
          have := huni (j + 1) (by simp only [List.length_cons]; omega) hpj
          omega)

/-- C2: `to_clusters` places every set pixel in exactly one returned
cluster, and two set pixels lie in the same returned cluster exactly when
they are connected through set pixels under 4-neighbour adjacency, extended
with the diagonal neighbours when `diagonal` is set. -/
theorem C2_to_clusters_partition (img : BinaryImage) (diagonal : Bool)
    (cs : BinClusters) (hres : to_clusters img diagonal = some cs)
    (p q : PointI32) (hp : pixelSet img p) (hq : pixelSet img q) :
    (cs.clusters.countP fun c => decide (p ∈ c.points)) = 1 ∧
    ((∃ c ∈ cs.clusters, p ∈ c.points ∧ q ∈ c.points) ↔
      connectedThroughSet img diagonal p q) := by
  simp only [to_clusters] at hres
  rcases hrun : to_clusters_run img diagonal (img.height * img.width)
    with _ | st
  · rw [hrun] at hres; simp at hres
  · rw [hrun] at hres
    obtain rfl := Option.some.inj hres
    have hInv := scan_run_inv img diagonal _ (le_refl _) st hrun
    have hpP := pixelSet_procd img p hp
    have hqP := pixelSet_procd img q hq
    constructor
    · show ((st.clusters.filter _).countP fun c => decide (p ∈ c.points)) = 1
      rw [List.countP_filter]
      apply countP_eq_one_of_unique _ default _ (labelOf st p)
        (hInv.label_lt p hpP hp)
      · simp only [Bool.and_eq_true, decide_eq_true_eq]
        refine ⟨hInv.mem_own p hpP hp, ?_⟩
        have hmem := hInv.mem_own p hpP hp
        simp only [BinCluster.size]
        intro h0
        rw [List.length_eq_zero.mp h0] at hmem
        simp at hmem
      · intro j hj hpj
        simp only [Bool.and_eq_true, decide_eq_true_eq] at hpj
        exact ((hInv.mem_inv j hj p hpj.1).2.2).symm
    · constructor
      · rintro ⟨c, hcmem, hpc, hqc⟩
        have hcmem2 := List.mem_of_mem_filter hcmem
        obtain ⟨j, hj, hjc⟩ := List.mem_iff_getElem.mp hcmem2
        have hgetD : st.clusters.getD j default = c := by
          rw [List.getD_eq_getElem st.clusters default hj]
          exact hjc
        have h1 := (hInv.mem_inv j hj p (hgetD ▸ hpc)).2.2
        have h2 := (hInv.mem_inv j hj q (hgetD ▸ hqc)).2.2
        exact hInv.conn p q hpP hp hqP hq (by rw [h1, h2])
      · intro hconn
        have hlab := final_conn_label img diagonal st hInv p q hconn
        refine ⟨st.clusters.getD (labelOf st p) default, ?_, ?_, ?_⟩
        · rw [List.mem_filter]
          constructor
          · rw [List.getD_eq_getElem st.clusters default
              (hInv.label_lt p hpP hp)]
            exact List.getElem_mem _
          · simp only [decide_eq_true_eq, BinCluster.size]
            have hmem := hInv.mem_own p hpP hp
            intro h0
            rw [List.length_eq_zero.mp h0] at hmem
            simp at hmem
        · exact hInv.mem_own p hpP hp
        · rw [hlab]
          exact hInv.mem_own q hqP hq

/-- C2, witness: the 2x2 image with its two diagonal pixels set, under
`diagonal = true`: both pixels land in the single output cluster, and they
are indeed diagonally connected. -/
theorem C2_to_clusters_partition_witness :
    ((⟨[⟨[⟨0, 0⟩, ⟨1, 1⟩], ⟨0, 0, 2, 2⟩⟩], ⟨0, 0, 2, 2⟩⟩ :
        BinClusters).clusters.countP
      fun c => decide ((⟨0, 0⟩ : PointI32) ∈ c.points)) = 1 ∧
    ((∃ c ∈ (⟨[⟨[⟨0, 0⟩, ⟨1, 1⟩], ⟨0, 0, 2, 2⟩⟩], ⟨0, 0, 2, 2⟩⟩ :
          BinClusters).clusters,
        (⟨0, 0⟩ : PointI32) ∈ c.points ∧ (⟨1, 1⟩ : PointI32) ∈ c.points) ↔
      connectedThroughSet ⟨2, 2, [true, false, false, true]⟩ true
        ⟨0, 0⟩ ⟨1, 1⟩) :=
  C2_to_clusters_partition ⟨2, 2, [true, false, false, true]⟩ true
    ⟨[⟨[⟨0, 0⟩, ⟨1, 1⟩], ⟨0, 0, 2, 2⟩⟩], ⟨0, 0, 2, 2⟩⟩ (by decide)
    ⟨0, 0⟩ ⟨1, 1⟩ rfl rfl

end VCortex
